import Mathlib

/-!
# Scientific calculator: parser and evaluator of `Calculator.cpp`

A shallow embedding of the C++ front end (`parseInput`, `evaluateExpression`,
`performOperation` and the helpers they call) together with theorems about it.

Modelling conventions
* `float` values are rationals and the C++ float operations of the front end
  (`num * 10.0f + d`, `d / decimalPlace`, comparisons) are exact; rounding,
  infinities and NaN are outside the model.
* `int` counts and indices are integers. `static_cast<int>` of a float truncates
  toward zero when the truncated value is an `int`; when it is not, C++ leaves the
  conversion undefined and its value is a field of the back end (`castOverflow`).
* The arrays `numbers` and `operators` are total maps from indices to values: the
  content of a fresh `Expression` is arbitrary, as in C++ where the constructor
  only clears the two counts.
* The assembly routines (`addition`, ..., `factorial`) are not part of the C++
  source; they are the fields of a `Backend` over which every theorem quantifies.
* Every loop is a recursive function with a fuel argument and the loop test of the
  source; the fuel passed by the caller is the loop's variant, and lemmas below
  show that more fuel never changes the result.
-/

namespace Calculator

/-! ## Data model -/

/-- Capacity of the operand and operator arrays (`const int MAX_SIZE = 100`). -/
def MAX_SIZE : Nat := 100

/-- The error value `3.402823466e+38f`, the largest finite 32-bit float
`2^128 - 2^104`. -/
def SENTINEL : ℚ := 340282346638528859811704183484516925440

/-- The class `Expression`: two arrays and two `int` counts. -/
structure Expression where
  numbers : Nat → ℚ
  operators : Nat → Char
  numCount : Int
  opCount : Int

/-- The constructor `Expression()`: both counts are zero, the arrays keep whatever
they held (`nums`, `ops`). -/
def Expression.fresh (nums : Nat → ℚ) (ops : Nat → Char) : Expression :=
  ⟨nums, ops, 0, 0⟩

/-- The external assembly routines declared `extern "C"` at the top of the file,
together with the two values that C++ leaves to the platform: `uninit`, the value read
from the local `result` of `performTrigFunction` when no branch assigned it, and
`castOverflow x`, the value of `static_cast<int>(x)` when `x` truncated toward zero is
outside the range of `int`. -/
structure Backend where
  addition : ℚ → ℚ → ℚ
  subtraction : ℚ → ℚ → ℚ
  multiplication : ℚ → ℚ → ℚ
  division : ℚ → ℚ → ℚ
  trigSin : ℚ → ℚ
  trigCos : ℚ → ℚ
  trigTan : ℚ → ℚ
  exponentiation : ℚ → ℚ
  performLn : ℚ → ℚ
  squareRoot : ℚ → ℚ
  power : Int → Int → Int
  factorial : Int → Int
  uninit : ℚ
  castOverflow : ℚ → Int

/-- The string terminator. -/
def NUL : Char := Char.ofNat 0

/-- `isDigit`: `c >= '0' && c <= '9'`. -/
def isDigit (c : Char) : Bool :=
  decide ('0'.toNat ≤ c.toNat) && decide (c.toNat ≤ '9'.toNat)

/-- `isOperator`: one of `+ - * / ^ !`. -/
def isOperator (c : Char) : Bool :=
  c == '+' || c == '-' || c == '*' || c == '/' || c == '^' || c == '!'

/-- The integer part of `x`, rounding toward zero. -/
def truncate (x : ℚ) : Int := x.num.tdiv x.den

/-- The least value of the 32-bit type `int`. -/
def INT_MIN : Int := -2147483648

/-- The greatest value of the 32-bit type `int`. -/
def INT_MAX : Int := 2147483647

/-- `static_cast<int>(x)`: `x` truncated toward zero when that value is an `int`;
otherwise the conversion is undefined in C++ and its value is `castOverflow x`. -/
def truncToInt (P : Backend) (x : ℚ) : Int :=
  if INT_MIN ≤ truncate x ∧ truncate x ≤ INT_MAX then truncate x else P.castOverflow x

/-! ## Operations -/

/-- `performOperation(a, b, op)`. -/
def performOperation (P : Backend) (a b : ℚ) (op : Char) : ℚ :=
  if op = '+' then P.addition a b
  else if op = '-' then P.subtraction a b
  else if op = '*' then P.multiplication a b
  else if op = '/' then
    if b = 0 then SENTINEL else P.division a b
  else if op = '^' then
    if b = 1 / 2 then
      if a < 0 then SENTINEL else P.squareRoot a
    else ((P.power (truncToInt P a) (truncToInt P b) : Int) : ℚ)
  else 0

/-- `performFactorial(num)`: the factorial routine on the truncated argument. -/
def performFactorial (P : Backend) (num : ℚ) : Int :=
  P.factorial (truncToInt P num)

/-- `fmod(x, y)`: `x - trunc(x / y) * y`. -/
def fmod (x y : ℚ) : ℚ := x - (truncate (x / y) : ℚ) * y

/-- `performTrigFunction(angle, func)`, `func` being the three letters of the keyword. -/
def performTrigFunction (P : Backend) (angle : ℚ) (f0 f1 f2 : Char) : ℚ :=
  let radAngle := angle * (314159 / 100000) / 180
  if f0 = 's' ∧ f1 = 'i' ∧ f2 = 'n' then P.trigSin radAngle
  else if f0 = 'c' ∧ f1 = 'o' ∧ f2 = 's' then P.trigCos radAngle
  else if f0 = 't' ∧ f1 = 'a' ∧ f2 = 'n' then
    if fmod angle 180 = 90 then SENTINEL else P.trigTan radAngle
  else P.uninit

/-- `performLnFunction(x)`. -/
def performLnFunction (P : Backend) (x : ℚ) : ℚ :=
  if x ≤ 0 then SENTINEL else P.performLn x

/-- `performExpFunction(x)`. -/
def performExpFunction (P : Backend) (x : ℚ) : ℚ := P.exponentiation x

/-! ## Evaluator -/

/-- The shift loops `for (j = start; j < limit; j++) a[j] = a[j + 1];`. -/
def shiftLoop {α : Type} : Nat → Nat → Int → (Nat → α) → (Nat → α)
  | 0, _, _, a => a
  | fuel + 1, j, limit, a =>
    if (j : Int) < limit then
      shiftLoop fuel (j + 1) limit (Function.update a j (a (j + 1)))
    else a

/-- The body run by the first two passes of `evaluateExpression` when the operator at
`i` belongs to the tier: fold operands `i` and `i + 1`, splice both arrays, decrement
both counts. -/
def reduceAt (P : Backend) (e : Expression) (i : Nat) : Expression :=
  let result := performOperation P (e.numbers i) (e.numbers (i + 1)) (e.operators i)
  let numbers1 := Function.update e.numbers i result
  let numbers2 := shiftLoop (e.numCount - 1 - (i + 1 : Nat)).toNat (i + 1) (e.numCount - 1) numbers1
  let operators2 := shiftLoop (e.opCount - 1 - (i : Nat)).toNat i (e.opCount - 1) e.operators
  ⟨numbers2, operators2, e.numCount - 1, e.opCount - 1⟩

/-- One of the first two passes: `for (i = 0; i < exp.opCount; i++)`, folding at `i`
and staying at `i` (`i--` then `i++`) when `sel (operators[i])`, else moving on. -/
def reducePass (P : Backend) (sel : Char → Bool) : Nat → Nat → Expression → Expression
  | 0, _, e => e
  | fuel + 1, i, e =>
    if (i : Int) < e.opCount then
      if sel (e.operators i) then reducePass P sel fuel i (reduceAt P e i)
      else reducePass P sel fuel (i + 1) e
    else e

/-- Test of the power pass: `operators[i] == '^'`. -/
def isPower (c : Char) : Bool := c == '^'

/-- Test of the second pass: `operators[i] == '*' || operators[i] == '/'`. -/
def isMulDiv (c : Char) : Bool := c == '*' || c == '/'

/-- State of `exp` after the power pass. -/
def powerPass (P : Backend) (exp : Expression) : Expression :=
  reducePass P isPower exp.opCount.toNat 0 exp

/-- State of `exp` after the multiply/divide pass. -/
def mulDivPass (P : Backend) (exp : Expression) : Expression :=
  reducePass P isMulDiv exp.opCount.toNat 0 exp

/-- The last loop of `evaluateExpression`, accumulating into `result`. -/
def addSubLoop (P : Backend) (e : Expression) : Nat → Nat → ℚ → ℚ
  | 0, _, result => result
  | fuel + 1, i, result =>
    if (i : Int) < e.opCount then
      if e.operators i = '+' then
        addSubLoop P e fuel (i + 1) (performOperation P result (e.numbers (i + 1)) '+')
      else if e.operators i = '-' then
        addSubLoop P e fuel (i + 1) (performOperation P result (e.numbers (i + 1)) '-')
      else addSubLoop P e fuel (i + 1) result
    else result

/-- `evaluateExpression(exp)`: power pass, multiply/divide pass, add/subtract fold. -/
def evaluateExpression (P : Backend) (exp : Expression) : ℚ :=
  let e2 := mulDivPass P (powerPass P exp)
  addSubLoop P e2 e2.opCount.toNat 0 (e2.numbers 0)

/-! ## Parser -/

/-- The character `input[i + k]`, where `s` is the part of the input starting at
index `i`; the end of the list is the terminator. -/
def peek (s : List Char) (k : Nat) : Char := s.getD k NUL

/-- The value `input[i] - '0'` of a character. -/
def digitVal (c : Char) : ℚ := (((c.toNat : Int) - ('0'.toNat : Int) : Int) : ℚ)

/-- How a number-scanning loop of `parseInput` ends: normally, with the number and
the unread input, or by `return 3.402823466e+38f` on a second decimal point. -/
inductive Scan where
  | ok (num : ℚ) (rest : List Char)
  | multipleDots

/-- The loop `while (isDigit(input[i]) || input[i] == '.')` that `parseInput` repeats
for trigonometric arguments, `ln`, `exp`, negative and non-negative numbers, with its
locals `num`, `decimalFound` and `decimalPlace`. -/
def scanNumber : List Char → ℚ → Bool → ℚ → Scan
  | [], num, _, _ => Scan.ok num []
  | c :: cs, num, decimalFound, decimalPlace =>
    if isDigit c || c == '.' then
      if c = '.' then
        if decimalFound then Scan.multipleDots
        else scanNumber cs num true decimalPlace
      else if decimalFound then
        scanNumber cs (num + digitVal c / (decimalPlace * 10)) true (decimalPlace * 10)
      else scanNumber cs (num * 10 + digitVal c) false decimalPlace
    else Scan.ok num (c :: cs)

/-- The loop `while (isDigit(input[i]))` of the factorial branch. -/
def scanDigits : List Char → ℚ → ℚ × List Char
  | [], num => (num, [])
  | c :: cs, num =>
    if isDigit c then scanDigits cs (num * 10 + digitVal c) else (num, c :: cs)

/-- The statement `exp.numbers[exp.numCount++] = v`. -/
def Expression.pushNumber (e : Expression) (v : ℚ) : Expression :=
  { e with numbers := Function.update e.numbers e.numCount.toNat v,
           numCount := e.numCount + 1 }

/-- The statement `exp.operators[exp.opCount++] = c`. -/
def Expression.pushOperator (e : Expression) (c : Char) : Expression :=
  { e with operators := Function.update e.operators e.opCount.toNat c,
           opCount := e.opCount + 1 }

/-- The variables of `parseInput` between two iterations of its loop: the unread
input (from index `i`), `checkMinus` and `exp`. -/
structure ParseState where
  rest : List Char
  checkMinus : Bool
  exp : Expression

/-- What one iteration of the loop of `parseInput` does: `continue` with a new state,
or `return 3.402823466e+38f`. -/
inductive Step where
  | next (st : ParseState)
  | fail (exp : Expression)

/-- The body of `while (input[i] != 0)` in `parseInput`. -/
def parseBody (P : Backend) (st : ParseState) : Step :=
  let s := st.rest
  let c := peek s 0
  if c = ' ' then Step.next { st with rest := s.drop 1 }
  else if (c = 's' ∧ peek s 1 = 'i' ∧ peek s 2 = 'n') ∨
      (c = 'c' ∧ peek s 1 = 'o' ∧ peek s 2 = 's') ∨
      (c = 't' ∧ peek s 1 = 'a' ∧ peek s 2 = 'n') then
    match scanNumber (s.drop 3) 0 false 1 with
    | Scan.multipleDots => Step.fail st.exp
    | Scan.ok num rest =>
      Step.next ⟨rest, false,
        st.exp.pushNumber (performTrigFunction P num c (peek s 1) (peek s 2))⟩
  else if c = '!' then
    let r := scanDigits (s.drop 1) 0
    Step.next ⟨r.2, st.checkMinus, st.exp.pushNumber ((performFactorial P r.1 : Int) : ℚ)⟩
  else if c = 'l' ∧ peek s 1 = 'n' then
    match scanNumber (s.drop 2) 0 false 1 with
    | Scan.multipleDots => Step.fail st.exp
    | Scan.ok num rest => Step.next ⟨rest, false, st.exp.pushNumber (performLnFunction P num)⟩
  else if c = 'e' ∧ peek s 1 = 'x' ∧ peek s 2 = 'p' then
    match scanNumber (s.drop 3) 0 false 1 with
    | Scan.multipleDots => Step.fail st.exp
    | Scan.ok num rest => Step.next ⟨rest, false, st.exp.pushNumber (performExpFunction P num)⟩
  else if c = '-' ∧ st.checkMinus = true then
    let s1 := s.drop 1
    if !isDigit (peek s1 0) && peek s1 0 != '.' then
      Step.next ⟨s1, true, st.exp.pushOperator '-'⟩
    else
      match scanNumber s1 0 false 1 with
      | Scan.multipleDots => Step.fail st.exp
      | Scan.ok num rest => Step.next ⟨rest, false, st.exp.pushNumber (num * (-1))⟩
  else if isDigit c || c == '.' then
    match scanNumber s 0 false 1 with
    | Scan.multipleDots => Step.fail st.exp
    | Scan.ok num rest => Step.next ⟨rest, false, st.exp.pushNumber num⟩
  else if isOperator c then
    Step.next ⟨s.drop 1, true, st.exp.pushOperator c⟩
  else Step.fail st.exp

/-- What `parseInput` leaves behind: the expression it filled, and the value of its
`return` statement, `none` when control leaves the loop and reaches the end of the
function, which has no `return`. -/
structure ParseOutcome where
  exp : Expression
  ret : Option ℚ

/-- The loop `while (input[i] != 0)` of `parseInput`. -/
def parseLoop (P : Backend) : Nat → ParseState → ParseOutcome
  | 0, st => ⟨st.exp, none⟩
  | fuel + 1, st =>
    if peek st.rest 0 = NUL then ⟨st.exp, none⟩
    else
      match parseBody P st with
      | Step.next st1 => parseLoop P fuel st1
      | Step.fail e => ⟨e, some SENTINEL⟩

/-- `parseInput(input, exp)`: every iteration reads at least one character, so
`input.length + 1` iterations are enough. -/
def parseInput (P : Backend) (input : List Char) (exp : Expression) : ParseOutcome :=
  parseLoop P (input.length + 1) ⟨input, true, exp⟩

/-- The part of the loop of `main` that handles a line other than `exit`: parse into a
fresh expression, evaluate, and print the result (`some`) unless one of the two values
is the sentinel. `junk` is what `parseOutputCheck` holds when `parseInput` ended
without a `return`. -/
def mainLine (P : Backend) (junk : ℚ) (nums : Nat → ℚ) (ops : Nat → Char)
    (input : List Char) : Option ℚ :=
  let out := parseInput P input (Expression.fresh nums ops)
  let parseOutputCheck := out.ret.getD junk
  let result := evaluateExpression P out.exp
  if result ≠ SENTINEL ∧ parseOutputCheck ≠ SENTINEL then some result else none

/-! ## A concrete back end -/

/-- Modelled from the spec: the assembly back end is not among the sources; section 6
of the specification gives the contract of each routine. Addition, subtraction,
multiplication and division are exact; `power` is integer exponentiation and
`factorial` the factorial of a non-negative integer; `squareRoot` is the rational
square root, exact on squares. The transcendental routines have no rational model and
are constant here, as is the value of an uninitialised local; a conversion to `int`
that overflows gives `INT_MIN`, the value `0x80000000` that the x86 conversion
instruction returns in that case. The theorems below quantify over every back end and
use this one only to run the code on concrete lines. -/
def exactBackend : Backend where
  addition := fun a b => a + b
  subtraction := fun a b => a - b
  multiplication := fun a b => a * b
  division := fun a b => a / b
  trigSin := fun _ => 0
  trigCos := fun _ => 0
  trigTan := fun _ => 0
  exponentiation := fun _ => 0
  performLn := fun _ => 0
  squareRoot := fun x => Rat.sqrt x
  power := fun b e => b ^ e.toNat
  factorial := fun n => (Nat.factorial n.toNat : Int)
  uninit := 0
  castOverflow := fun _ => INT_MIN

/-- A fresh expression whose arrays happen to hold zeros and terminators. -/
def Expression.blank : Expression := Expression.fresh (fun _ => 0) (fun _ => NUL)

/-! ## Token lists and the reference semantics of the precedence tiers -/

/-- The `n` operators from index `i` on, each paired with the operand to its right. -/
def Expression.pairsFrom (e : Expression) : Nat → Nat → List (Char × ℚ)
  | _, 0 => []
  | i, n + 1 => (e.operators i, e.numbers (i + 1)) :: e.pairsFrom (i + 1) n

/-- The logical content of an expression after its first operand: every stored
operator with its right operand. -/
def Expression.pairs (e : Expression) : List (Char × ℚ) :=
  e.pairsFrom 0 e.opCount.toNat

/-- One precedence tier on a token list, left to right: an operator selected by `sel`
combines the running operand with its right operand through `f`; any other operator
ends the running operand and is kept. -/
def foldTier (f : ℚ → ℚ → Char → ℚ) (sel : Char → Bool) :
    ℚ → List (Char × ℚ) → ℚ × List (Char × ℚ)
  | a, [] => (a, [])
  | a, (op, b) :: r =>
    if sel op then foldTier f sel (f a b op) r
    else (a, (op, (foldTier f sel b r).1) :: (foldTier f sel b r).2)

/-- The last tier on a token list: `+` and `-` applied left to right through
`performOperation`, any other operator skipped. -/
def addSubList (P : Backend) : ℚ → List (Char × ℚ) → ℚ
  | a, [] => a
  | a, (op, b) :: r =>
    if op = '+' then addSubList P (performOperation P a b '+') r
    else if op = '-' then addSubList P (performOperation P a b '-') r
    else addSubList P a r

/-- The three tiers in sequence on a token list. -/
def tieredValue (P : Backend) (a : ℚ) (r : List (Char × ℚ)) : ℚ :=
  let t1 := foldTier (performOperation P) isPower a r
  let t2 := foldTier (performOperation P) isMulDiv t1.1 t1.2
  addSubList P t2.1 t2.2

/-! ## Standard precedence in exact arithmetic -/

/-- Standard precedence, first stage: every `*` and `/` of the token list folded left
to right in exact arithmetic; any other operator starts a new term. -/
def mulDivFold : ℚ → List (Char × ℚ) → ℚ × List (Char × ℚ)
  | a, [] => (a, [])
  | a, (op, b) :: r =>
    if op = '*' then mulDivFold (a * b) r
    else if op = '/' then mulDivFold (a / b) r
    else (a, (op, (mulDivFold b r).1) :: (mulDivFold b r).2)

/-- Standard precedence, second stage: the terms added and subtracted left to right
(`+` adds; the only other operator left between terms is `-`). -/
def addSubFold : ℚ → List (Char × ℚ) → ℚ
  | a, [] => a
  | a, (op, b) :: r => if op = '+' then addSubFold (a + b) r else addSubFold (a - b) r

/-- Value under standard precedence of the operand `a` followed by the
operator/operand pairs `r`. -/
def standardValue (a : ℚ) (r : List (Char × ℚ)) : ℚ :=
  addSubFold (mulDivFold a r).1 (mulDivFold a r).2

/-- The general branch of `^` in `performOperation`: the integer power routine on
both operands truncated to `int`, converted back to a float. -/
def generalPower (P : Backend) (a b : ℚ) : ℚ :=
  ((P.power (truncToInt P a) (truncToInt P b) : Int) : ℚ)

/-! ## Vocabulary for statements about the parser -/

/-- The test of the number-scanning loops: a digit or a decimal point. -/
def isNumChar (c : Char) : Bool := isDigit c || c == '.'

/-- Some maximal run of consecutive digit-or-`.` characters of `s` contains two or
more `.` characters. -/
def HasDoubleDotRun (s : List Char) : Prop :=
  ∃ pre run post : List Char, s = pre ++ run ++ post ∧
    (∀ c ∈ run, isNumChar c = true) ∧
    (∀ c, pre.getLast? = some c → isNumChar c = false) ∧
    (∀ c, post.head? = some c → isNumChar c = false) ∧
    2 ≤ run.count '.'

/-- Left-to-right check for a run with two decimal points; `n` counts the points seen
so far in the current run. -/
def doubleDot : List Char → Nat → Bool
  | [], _ => false
  | c :: cs, n =>
    if c = '.' then
      if 1 ≤ n then true else doubleDot cs 1
    else if isDigit c then doubleDot cs n
    else doubleDot cs 0

/-- The characters of the inputs of claim C7: digits, `.`, space and `+ - * / ^ !`. -/
def plainChar (c : Char) : Bool :=
  isDigit c || c == '.' || c == ' ' || isOperator c

/-- A keyword `sin`, `cos`, `tan`, `ln` or `exp` starts the list `s`. -/
def keywordAt (s : List Char) : Prop :=
  "sin".toList <+: s ∨ "cos".toList <+: s ∨ "tan".toList <+: s ∨
    "ln".toList <+: s ∨ "exp".toList <+: s

/-- The state of `parseInput` after `n` complete iterations of its loop started in
`st`, if the loop runs that long. -/
def stateAfter (P : Backend) (st : ParseState) : Nat → Option ParseState
  | 0 => some st
  | n + 1 =>
    match stateAfter P st n with
    | none => none
    | some s =>
      if peek s.rest 0 = NUL then none
      else
        match parseBody P s with
        | Step.next s1 => some s1
        | Step.fail _ => none

/-- A decimal point follows after digits only: `s = digits ++ '.' :: post`. -/
def DotAhead (s : List Char) : Prop :=
  ∃ mid post : List Char, s = mid ++ '.' :: post ∧ ∀ c ∈ mid, isDigit c = true

/-- Two decimal points with only digits between them occur in `s`. -/
def TwoDots (s : List Char) : Prop :=
  ∃ pre post : List Char, s = pre ++ '.' :: post ∧ DotAhead post

/-- The five function keywords. -/
def keywords : List (List Char) :=
  ["sin".toList, "cos".toList, "tan".toList, "ln".toList, "exp".toList]

/-- Every spelling of a lower-case word with each letter in lower or upper case. -/
def caseVariants : List Char → List (List Char)
  | [] => [[]]
  | c :: cs => (caseVariants cs).map (fun w => c :: w) ++
      (caseVariants cs).map (fun w => c.toUpper :: w)

/-! ## Well-formed lines -/

/-- The loop of `parseInput`, started in state `a`, is in state `b` after some number
of complete iterations. -/
def Reaches (P : Backend) (a b : ParseState) : Prop :=
  ∃ n, stateAfter P a n = some b

/-- A run of digits with at most one decimal point (possibly empty). -/
def isNumber (l : List Char) : Bool :=
  l.all isNumChar && decide (l.count '.' ≤ 1)

/-- The number the scanning loop reads from a literal. -/
def literalValue (l : List Char) : ℚ :=
  match scanNumber l 0 false 1 with
  | Scan.ok v _ => v
  | Scan.multipleDots => 0

/-- The characters stored as binary operators: `+ - * / ^`. -/
def isBinary (c : Char) : Bool :=
  c == '+' || c == '-' || c == '*' || c == '/' || c == '^'

/-- An operand as written on a line: an unsigned or negative literal, or a keyword
`sin`, `cos`, `tan`, `ln`, `exp` directly followed by its argument. -/
inductive Operand where
  | number (neg : Bool) (lit : List Char)
  | call (kw : List Char) (lit : List Char)

/-- Well-formed operands: a literal is a non-empty run of digits with at most one
decimal point; the argument of a keyword is such a run, possibly empty. -/
def Operand.wf : Operand → Prop
  | Operand.number _ lit => lit ≠ [] ∧ isNumber lit = true
  | Operand.call kw lit => kw ∈ keywords ∧ isNumber lit = true

/-- The characters of an operand. -/
def Operand.text : Operand → List Char
  | Operand.number neg lit => (if neg then ['-'] else []) ++ lit
  | Operand.call kw lit => kw ++ lit

/-- The value `parseInput` stores for an operand. -/
def Operand.value (P : Backend) : Operand → ℚ
  | Operand.number neg lit => if neg then literalValue lit * (-1) else literalValue lit
  | Operand.call kw lit =>
    if kw = "ln".toList then performLnFunction P (literalValue lit)
    else if kw = "exp".toList then performExpFunction P (literalValue lit)
    else performTrigFunction P (literalValue lit) (peek kw 0) (peek kw 1) (peek kw 2)

/-- A binary operator and the operand to its right, with the number of spaces written
before and after the operator. -/
structure Item where
  before : Nat
  op : Char
  after : Nat
  operand : Operand

/-- The characters of a sequence of operator/operand items. -/
def renderItems : List Item → List Char
  | [] => []
  | it :: r =>
    List.replicate it.before ' ' ++ it.op :: (List.replicate it.after ' ' ++
      (it.operand.text ++ renderItems r))

/-- A line `operand (operator operand)*` with optional spaces around the tokens:
`lead` spaces, the first operand, the items, `trail` spaces. -/
def renderLine (lead : Nat) (first : Operand) (items : List Item) (trail : Nat) : List Char :=
  List.replicate lead ' ' ++ (first.text ++ (renderItems items ++ List.replicate trail ' '))

/-- The natural number written by a string of digits. -/
def digitsNat (ds : List Char) : Nat :=
  ds.foldl (fun n c => n * 10 + (c.toNat - '0'.toNat)) 0

/-! ## Vocabulary for the later claims -/

/-- Every stored operator of the expression is one of `+ - * / ^`. -/
def operatorsBinary (e : Expression) : Prop :=
  ∀ i : Nat, (i : Int) < e.opCount → isBinary (e.operators i) = true

/-- The number of characters of `s` other than spaces. -/
def nonSpace (s : List Char) : Nat :=
  (s.filter (fun c => c != ' ')).length

/-! ## Decimal value of a literal -/

/-- The digit a character stands for. -/
def digitNat (c : Char) : Nat := c.toNat - '0'.toNat

/-- The value `sum (d_i * 10 ^ (m - i))` of the integer digits `d_1 .. d_m`. -/
def intPart : List Char → ℚ
  | [] => 0
  | d :: ds => (digitNat d : ℚ) * 10 ^ ds.length + intPart ds

/-- The value `sum (f_j / 10 ^ j)` of fractional digits, the first of which stands at
position `j`. -/
def fracPart : Nat → List Char → ℚ
  | _, [] => 0
  | j, f :: fs => (digitNat f : ℚ) / 10 ^ j + fracPart (j + 1) fs

/-- The decimal value of the integer digits `ds` and the fractional digits `fs`. -/
def decimalValue (ds fs : List Char) : ℚ := intPart ds + fracPart 1 fs

/-- The `n` stored operators from index `i` on. -/
def Expression.opsFrom (e : Expression) : Nat → Nat → List Char
  | _, 0 => []
  | i, n + 1 => e.operators i :: e.opsFrom (i + 1) n

/-- The stored operators of an expression, in order. -/
def Expression.ops (e : Expression) : List Char :=
  e.opsFrom 0 e.opCount.toNat

/-! ## Array accesses of the evaluator -/

/-- One access of `evaluateExpression` to an array of `exp`: the index used, and the
value of `numCount` (for `numbers`) or `opCount` (for `operators`) at that moment. -/
inductive Access where
  | readNumber (index : Nat) (numCount : Int)
  | writeNumber (index : Nat) (numCount : Int)
  | readOperator (index : Nat) (opCount : Int)
  | writeOperator (index : Nat) (opCount : Int)
  deriving DecidableEq

/-- The access is an assignment to an array element. -/
def Access.isWrite : Access → Bool
  | Access.readNumber _ _ => false
  | Access.writeNumber _ _ => true
  | Access.readOperator _ _ => false
  | Access.writeOperator _ _ => true

/-- The accesses of a shift loop `for (j = start; j < limit; j++) a[j] = a[j + 1];`:
each iteration reads `a[j + 1]` and writes `a[j]`. -/
def shiftTrace (rd wr : Nat → Access) : Nat → Nat → Int → List Access
  | 0, _, _ => []
  | fuel + 1, j, limit =>
    if (j : Int) < limit then rd (j + 1) :: wr j :: shiftTrace rd wr fuel (j + 1) limit
    else []

/-- The accesses of the fold at `i` (see `reduceAt`): the three reads of the call of
`performOperation`, the write of the result, and the two shift loops. -/
def reduceAtTrace (e : Expression) (i : Nat) : List Access :=
  [Access.readNumber i e.numCount, Access.readNumber (i + 1) e.numCount,
    Access.readOperator i e.opCount, Access.writeNumber i e.numCount] ++
  (shiftTrace (fun k => Access.readNumber k e.numCount) (fun k => Access.writeNumber k e.numCount)
    (e.numCount - 1 - (i + 1 : Nat)).toNat (i + 1) (e.numCount - 1) ++
  shiftTrace (fun k => Access.readOperator k e.opCount)
    (fun k => Access.writeOperator k e.opCount)
    (e.opCount - 1 - (i : Nat)).toNat i (e.opCount - 1))

/-- The accesses of the test `operators[i] == '^'` of the power pass. -/
def powerTest (e : Expression) (i : Nat) : List Access :=
  [Access.readOperator i e.opCount]

/-- The accesses of the test `operators[i] == '*' || operators[i] == '/'`. -/
def mulDivTest (e : Expression) (i : Nat) : List Access :=
  if e.operators i = '*' then [Access.readOperator i e.opCount]
  else [Access.readOperator i e.opCount, Access.readOperator i e.opCount]

/-- The accesses of one of the first two passes (see `reducePass`), in order. -/
def reducePassTrace (P : Backend) (sel : Char → Bool) (test : Expression → Nat → List Access) :
    Nat → Nat → Expression → List Access
  | 0, _, _ => []
  | fuel + 1, i, e =>
    if (i : Int) < e.opCount then
      test e i ++
        (if sel (e.operators i) then
          reduceAtTrace e i ++ reducePassTrace P sel test fuel i (reduceAt P e i)
        else reducePassTrace P sel test fuel (i + 1) e)
    else []

/-- The accesses of the last loop of `evaluateExpression` (see `addSubLoop`). -/
def addSubTrace (e : Expression) : Nat → Nat → List Access
  | 0, _ => []
  | fuel + 1, i =>
    if (i : Int) < e.opCount then
      (if e.operators i = '+' then
        [Access.readOperator i e.opCount, Access.readNumber (i + 1) e.numCount]
      else if e.operators i = '-' then
        [Access.readOperator i e.opCount, Access.readOperator i e.opCount,
          Access.readNumber (i + 1) e.numCount]
      else [Access.readOperator i e.opCount, Access.readOperator i e.opCount]) ++
        addSubTrace e fuel (i + 1)
    else []

/-- The accesses of the add/subtract tier: `result = exp.numbers[0]`, then the loop. -/
def addSubTierTrace (e : Expression) : List Access :=
  Access.readNumber 0 e.numCount :: addSubTrace e e.opCount.toNat 0

/-- Every array access of `evaluateExpression(exp)`, in order. -/
def evaluateTrace (P : Backend) (exp : Expression) : List Access :=
  reducePassTrace P isPower powerTest exp.opCount.toNat 0 exp ++
    (reducePassTrace P isMulDiv mulDivTest (powerPass P exp).opCount.toNat 0 (powerPass P exp) ++
      addSubTierTrace (mulDivPass P (powerPass P exp)))

/-- The index an access uses. -/
def Access.index : Access → Nat
  | Access.readNumber i _ => i
  | Access.writeNumber i _ => i
  | Access.readOperator i _ => i
  | Access.writeOperator i _ => i

/-- The count that bounds the array at the moment of the access: `numCount` for
`numbers`, `opCount` for `operators`. -/
def Access.count : Access → Int
  | Access.readNumber _ n => n
  | Access.writeNumber _ n => n
  | Access.readOperator _ n => n
  | Access.writeOperator _ n => n

/-! ## The evaluator run with a budget of loop iterations -/

/-- A shift loop (see `shiftLoop`) run with a budget of iterations: `none` when the
budget is used up while the loop test `j < limit` still holds, else the array at the
exit of the loop. -/
def shiftRun {α : Type} : Nat → Nat → Int → (Nat → α) → Option (Nat → α)
  | 0, j, limit, a => if (j : Int) < limit then none else some a
  | fuel + 1, j, limit, a =>
    if (j : Int) < limit then shiftRun fuel (j + 1) limit (Function.update a j (a (j + 1)))
    else some a

/-- The fold at `i` (see `reduceAt`) with each shift loop run on the budget. -/
def reduceAtRun (P : Backend) (budget : Nat) (e : Expression) (i : Nat) : Option Expression :=
  let result := performOperation P (e.numbers i) (e.numbers (i + 1)) (e.operators i)
  let numbers1 := Function.update e.numbers i result
  match shiftRun budget (i + 1) (e.numCount - 1) numbers1 with
  | none => none
  | some numbers2 =>
    match shiftRun budget i (e.opCount - 1) e.operators with
    | none => none
    | some operators2 => some ⟨numbers2, operators2, e.numCount - 1, e.opCount - 1⟩

/-- One of the first two passes (see `reducePass`) run with a budget of iterations of
its `for` loop, `budget` being that of each inner loop: `none` when a budget is used up
before the loop test fails, else `exp` at the exit of the loop and the number of
iterations made. -/
def reducePassRun (P : Backend) (sel : Char → Bool) (budget : Nat) :
    Nat → Nat → Expression → Option (Expression × Nat)
  | 0, i, e => if (i : Int) < e.opCount then none else some (e, 0)
  | fuel + 1, i, e =>
    if (i : Int) < e.opCount then
      if sel (e.operators i) then
        match reduceAtRun P budget e i with
        | none => none
        | some e1 => (reducePassRun P sel budget fuel i e1).map (fun r => (r.1, r.2 + 1))
      else (reducePassRun P sel budget fuel (i + 1) e).map (fun r => (r.1, r.2 + 1))
    else some (e, 0)

/-- The last loop of `evaluateExpression` (see `addSubLoop`) run with a budget of
iterations. -/
def addSubRun (P : Backend) (e : Expression) : Nat → Nat → ℚ → Option ℚ
  | 0, i, result => if (i : Int) < e.opCount then none else some result
  | fuel + 1, i, result =>
    if (i : Int) < e.opCount then
      if e.operators i = '+' then
        addSubRun P e fuel (i + 1) (performOperation P result (e.numbers (i + 1)) '+')
      else if e.operators i = '-' then
        addSubRun P e fuel (i + 1) (performOperation P result (e.numbers (i + 1)) '-')
      else addSubRun P e fuel (i + 1) result
    else some result

/-- `evaluateExpression(exp)` with every loop run on a budget of `budget` iterations:
`none` when some loop uses up its budget, else the value returned and the numbers of
iterations of the `for` loops of the power pass and of the multiply/divide pass. -/
def evaluateRun (P : Backend) (budget : Nat) (exp : Expression) : Option (ℚ × Nat × Nat) :=
  match reducePassRun P isPower budget budget 0 exp with
  | none => none
  | some (e1, n1) =>
    match reducePassRun P isMulDiv budget budget 0 e1 with
    | none => none
    | some (e2, n2) =>
      match addSubRun P e2 budget 0 (e2.numbers 0) with
      | none => none
      | some result => some (result, n1, n2)

/-! ## Characters read by the parser -/

/-- The index of the terminator of the C string that starts at `s`: the number of
characters before the first `NUL`, or before the end of the list. -/
def terminatorIndex : List Char → Nat
  | [] => 0
  | c :: cs => if c = NUL then 0 else terminatorIndex cs + 1

/-- The indices read by the test `isDigit(input[k]) || input[k] == '.'`, and likewise by
`!isDigit(input[k]) && input[k] != '.'`, on the character `c` found at index `k`: the
second operand is evaluated only when `c` is not a digit. -/
def numTestReads (c : Char) (k : Nat) : List Nat :=
  if isDigit c then [k] else [k, k]

/-- The indices read by a number-scanning loop (see `scanNumber`) that starts at index
`k`, where `s` is the input from that index: each iteration reads `input[k]` in the loop
test, in `if (input[k] == '.')` and, for a digit, in `input[k] - '0'`. -/
def scanReads : List Char → Bool → Nat → List Nat
  | [], _, k => numTestReads NUL k
  | c :: cs, decimalFound, k =>
    numTestReads c k ++
      (if isDigit c || c == '.' then
        k :: (if c = '.' then
          (if decimalFound then [] else scanReads cs true (k + 1))
        else k :: scanReads cs decimalFound (k + 1))
      else [])

/-- The indices read by the loop `while (isDigit(input[k]))` of the factorial branch
(see `scanDigits`). -/
def scanDigitsReads : List Char → Nat → List Nat
  | [], k => [k]
  | c :: cs, k => k :: (if isDigit c then k :: scanDigitsReads cs (k + 1) else [])

/-- The offsets from `i` read by `input[i] == a && input[i + 1] == b && input[i + 2] == ..`,
whose operands are evaluated from left to right until one is false. -/
def keywordReads (s : List Char) (a b : Char) : List Nat :=
  0 :: (if peek s 0 = a then 1 :: (if peek s 1 = b then [2] else []) else [])

/-- The offsets from `i` of the characters read by one iteration of the loop of
`parseInput` (see `parseBody`), in order. -/
def bodyReads (st : ParseState) : List Nat :=
  let s := st.rest
  let c := peek s 0
  0 :: (if c = ' ' then []
  else
    (keywordReads s 's' 'i' ++
      (if c = 's' ∧ peek s 1 = 'i' ∧ peek s 2 = 'n' then []
      else keywordReads s 'c' 'o' ++
        (if c = 'c' ∧ peek s 1 = 'o' ∧ peek s 2 = 's' then []
        else keywordReads s 't' 'a'))) ++
    (if (c = 's' ∧ peek s 1 = 'i' ∧ peek s 2 = 'n') ∨
        (c = 'c' ∧ peek s 1 = 'o' ∧ peek s 2 = 's') ∨
        (c = 't' ∧ peek s 1 = 'a' ∧ peek s 2 = 'n') then
      [0, 1, 2] ++ scanReads (s.drop 3) false 3
    else 0 :: (if c = '!' then scanDigitsReads (s.drop 1) 1
    else (0 :: (if c = 'l' then [1] else [])) ++
      (if c = 'l' ∧ peek s 1 = 'n' then scanReads (s.drop 2) false 2
      else keywordReads s 'e' 'x' ++
        (if c = 'e' ∧ peek s 1 = 'x' ∧ peek s 2 = 'p' then scanReads (s.drop 3) false 3
        else 0 :: (if c = '-' ∧ st.checkMinus = true then
          numTestReads (peek s 1) 1 ++
            (if !isDigit (peek (s.drop 1) 0) && peek (s.drop 1) 0 != '.' then []
            else scanReads (s.drop 1) false 1)
        else numTestReads c 0 ++
          (if isDigit c || c == '.' then scanReads s false 0
          else 0 :: (if isOperator c then [0] else []))))))))

/-- The indices of the characters read by the loop of `parseInput` (see `parseLoop`)
from the state `st`, where `i` is the index of the first unread character: the loop
test reads `input[i]`, then the body reads at its offsets from `i`. -/
def parseReads (P : Backend) : Nat → Nat → ParseState → List Nat
  | 0, _, _ => []
  | fuel + 1, i, st =>
    i :: (if peek st.rest 0 = NUL then []
    else
      (bodyReads st).map (fun k => i + k) ++
        (match parseBody P st with
        | Step.next st1 => parseReads P fuel (i + (st.rest.length - st1.rest.length)) st1
        | Step.fail _ => []))

/-- The indices of the characters that `parseInput(input, exp)` reads, in order. -/
def parseInputReads (P : Backend) (input : List Char) (exp : Expression) : List Nat :=
  parseReads P (input.length + 1) 0 ⟨input, true, exp⟩

/-- The value `x` truncated toward zero, in the words of the specification: the floor
of a non-negative value, the ceiling of a negative one. -/
def truncTowardZero (x : ℚ) : Int := if 0 ≤ x then ⌊x⌋ else ⌈x⌉

end Calculator

/-! # Theorems -/

namespace Calculator

/-! ## Evaluator: the array loops compute the token-list folds -/

theorem shiftLoop_apply {α : Type} (fuel : Nat) :
    ∀ (j : Nat) (limit : Int) (a : Nat → α) (k : Nat), (limit - (j : Int)).toNat ≤ fuel →
      shiftLoop fuel j limit a k = if j ≤ k ∧ (k : Int) < limit then a (k + 1) else a k := by
  induction fuel with
  | zero =>
    intro j limit a k h
    have h1 : ¬ (j ≤ k ∧ (k : Int) < limit) := by omega
    simp [shiftLoop, h1]
  | succ n ih =>
    intro j limit a k h
    unfold shiftLoop
    by_cases hj : (j : Int) < limit
    · rw [if_pos hj, ih (j + 1) limit _ k (by omega)]
      by_cases hk : k = j
      · subst hk
        have h1 : ¬ (k + 1 ≤ k ∧ (k : Int) < limit) := by omega
        have h2 : k ≤ k ∧ (k : Int) < limit := ⟨le_refl k, hj⟩
        simp [h1, h2]
      · by_cases hlt : j < k
        · have hne : k + 1 ≠ j := by omega
          by_cases hl : (k : Int) < limit
          · have h1 : j + 1 ≤ k ∧ (k : Int) < limit := ⟨hlt, hl⟩
            have h2 : j ≤ k ∧ (k : Int) < limit := ⟨by omega, hl⟩
            simp [h1, h2, hne]
          · have h1 : ¬ (j + 1 ≤ k ∧ (k : Int) < limit) := fun h => hl h.2
            have h2 : ¬ (j ≤ k ∧ (k : Int) < limit) := fun h => hl h.2
            simp [h1, h2, hk]
        · have h1 : ¬ (j + 1 ≤ k ∧ (k : Int) < limit) := by omega
          have h2 : ¬ (j ≤ k ∧ (k : Int) < limit) := by omega
          simp [h1, h2, hk]
    · rw [if_neg hj]
      have h1 : ¬ (j ≤ k ∧ (k : Int) < limit) := by omega
      simp [h1]

theorem reduceAt_numCount (P : Backend) (e : Expression) (i : Nat) :
    (reduceAt P e i).numCount = e.numCount - 1 := rfl

theorem reduceAt_opCount (P : Backend) (e : Expression) (i : Nat) :
    (reduceAt P e i).opCount = e.opCount - 1 := rfl

theorem reduceAt_numbers (P : Backend) (e : Expression) (i k : Nat) :
    (reduceAt P e i).numbers k =
      if i + 1 ≤ k ∧ (k : Int) < e.numCount - 1 then e.numbers (k + 1)
      else if k = i then
        performOperation P (e.numbers i) (e.numbers (i + 1)) (e.operators i)
      else e.numbers k := by
  show shiftLoop _ (i + 1) (e.numCount - 1) _ k = _
  rw [shiftLoop_apply _ _ _ _ _ (le_refl _)]
  by_cases h : i + 1 ≤ k ∧ (k : Int) < e.numCount - 1
  · have hne : k + 1 ≠ i := by omega
    simp [h, hne]
  · by_cases hk : k = i
    · subst hk
      simp [h]
    · simp [h, hk]

theorem reduceAt_operators (P : Backend) (e : Expression) (i k : Nat) :
    (reduceAt P e i).operators k =
      if i ≤ k ∧ (k : Int) < e.opCount - 1 then e.operators (k + 1) else e.operators k := by
  show shiftLoop _ i (e.opCount - 1) _ k = _
  rw [shiftLoop_apply _ _ _ _ _ (le_refl _)]

theorem pairsFrom_congr (e1 e2 : Expression) :
    ∀ (n i j : Nat),
      (∀ t, t < n → e1.operators (i + t) = e2.operators (j + t) ∧
        e1.numbers (i + t + 1) = e2.numbers (j + t + 1)) →
      e1.pairsFrom i n = e2.pairsFrom j n := by
  intro n
  induction n with
  | zero => intro i j _; rfl
  | succ n ih =>
    intro i j h
    have h0 := h 0 (Nat.succ_pos n)
    simp only [Nat.add_zero] at h0
    simp only [Expression.pairsFrom, h0.1, h0.2]
    congr 1
    apply ih
    intro t ht
    have := h (t + 1) (by omega)
    have e1 : i + 1 + t = i + (t + 1) := by omega
    have e2 : j + 1 + t = j + (t + 1) := by omega
    rw [e1, e2]
    exact this

theorem pairsFrom_length (e : Expression) : ∀ (n i : Nat), (e.pairsFrom i n).length = n := by
  intro n
  induction n with
  | zero => intro i; rfl
  | succ n ih => intro i; simp [Expression.pairsFrom, ih]

theorem reduceAt_pairsFrom (P : Backend) (e : Expression) (i n : Nat)
    (hwf : e.numCount = e.opCount + 1) (hn : e.opCount = (i : Int) + (n : Int) + 1) :
    (reduceAt P e i).pairsFrom i n = e.pairsFrom (i + 1) n := by
  apply pairsFrom_congr
  intro t ht
  constructor
  · rw [reduceAt_operators]
    have h : i ≤ i + t ∧ ((i + t : Nat) : Int) < e.opCount - 1 := by omega
    rw [if_pos h]
    congr 1
    omega
  · rw [reduceAt_numbers]
    have h : i + 1 ≤ i + t + 1 ∧ ((i + t + 1 : Nat) : Int) < e.numCount - 1 := by omega
    rw [if_pos h]
    congr 1
    omega

theorem reducePass_spec (P : Backend) (sel : Char → Bool) (fuel : Nat) :
    ∀ (i k : Nat) (e : Expression), e.numCount = e.opCount + 1 →
      e.opCount = (i : Int) + (k : Int) → k ≤ fuel →
      (reducePass P sel fuel i e).numCount = (reducePass P sel fuel i e).opCount + 1 ∧
      (reducePass P sel fuel i e).opCount =
        (i : Int) + ((foldTier (performOperation P) sel (e.numbers i) (e.pairsFrom i k)).2.length : Int) ∧
      (reducePass P sel fuel i e).numbers i =
        (foldTier (performOperation P) sel (e.numbers i) (e.pairsFrom i k)).1 ∧
      (reducePass P sel fuel i e).pairsFrom i
          (foldTier (performOperation P) sel (e.numbers i) (e.pairsFrom i k)).2.length =
        (foldTier (performOperation P) sel (e.numbers i) (e.pairsFrom i k)).2 ∧
      (∀ j, j < i → (reducePass P sel fuel i e).numbers j = e.numbers j ∧
        (reducePass P sel fuel i e).operators j = e.operators j) := by
  induction fuel with
  | zero =>
    intro i k e hwf hk hf
    have hk0 : k = 0 := by omega
    subst hk0
    simp [reducePass, Expression.pairsFrom, foldTier, hwf, hk]
  | succ n ih =>
    intro i k e hwf hk hf
    cases k with
    | zero =>
      have hlt : ¬ (i : Int) < e.opCount := by omega
      simp [reducePass, hlt, Expression.pairsFrom, foldTier, hwf, hk]
    | succ k =>
      have hlt : (i : Int) < e.opCount := by omega
      unfold reducePass
      rw [if_pos hlt]
      by_cases hs : sel (e.operators i) = true
      · rw [if_pos hs]
        have h1 := ih i k (reduceAt P e i) (by simp [reduceAt_numCount, reduceAt_opCount, hwf])
          (by rw [reduceAt_opCount]; omega) (by omega)
        rw [reduceAt_pairsFrom P e i k hwf (by omega)] at h1
        have hnum : (reduceAt P e i).numbers i =
            performOperation P (e.numbers i) (e.numbers (i + 1)) (e.operators i) := by
          rw [reduceAt_numbers]
          have h : ¬ (i + 1 ≤ i ∧ (i : Int) < e.numCount - 1) := by omega
          simp [h]
        rw [hnum] at h1
        have hft : foldTier (performOperation P) sel (e.numbers i) (e.pairsFrom i (k + 1)) =
            foldTier (performOperation P) sel
              (performOperation P (e.numbers i) (e.numbers (i + 1)) (e.operators i))
              (e.pairsFrom (i + 1) k) := by
          simp [Expression.pairsFrom, foldTier, hs]
        rw [hft]
        refine ⟨h1.1, h1.2.1, h1.2.2.1, h1.2.2.2.1, ?_⟩
        intro j hj
        have h2 := h1.2.2.2.2 j hj
        rw [reduceAt_numbers, reduceAt_operators] at h2
        have ha : ¬ (i + 1 ≤ j ∧ (j : Int) < e.numCount - 1) := by omega
        have hb : ¬ (i ≤ j ∧ (j : Int) < e.opCount - 1) := by omega
        have hc : j ≠ i := by omega
        simpa [ha, hb, hc] using h2
      · rw [if_neg hs]
        have h1 := ih (i + 1) k e hwf (by push_cast; omega) (by omega)
        have hft : foldTier (performOperation P) sel (e.numbers i) (e.pairsFrom i (k + 1)) =
            (e.numbers i, (e.operators i,
              (foldTier (performOperation P) sel (e.numbers (i + 1)) (e.pairsFrom (i + 1) k)).1) ::
              (foldTier (performOperation P) sel (e.numbers (i + 1)) (e.pairsFrom (i + 1) k)).2) := by
          simp [Expression.pairsFrom, foldTier, hs]
        rw [hft]
        have hi := h1.2.2.2.2 i (by omega)
        refine ⟨h1.1, ?_, hi.1, ?_, ?_⟩
        · rw [h1.2.1]; simp; omega
        · simp only [List.length_cons, Expression.pairsFrom]
          rw [hi.2, h1.2.2.1, h1.2.2.2.1]
        · intro j hj
          exact h1.2.2.2.2 j (by omega)

theorem reducePass_fuel (P : Backend) (sel : Char → Bool) (fuel : Nat) :
    ∀ (extra i : Nat) (e : Expression), (e.opCount - (i : Int)).toNat ≤ fuel →
      reducePass P sel (fuel + extra) i e = reducePass P sel fuel i e := by
  induction fuel with
  | zero =>
    intro extra i e h
    have hlt : ¬ (i : Int) < e.opCount := by omega
    cases extra with
    | zero => rfl
    | succ m => simp [reducePass, hlt]
  | succ n ih =>
    intro extra i e h
    have hx : n + 1 + extra = (n + extra) + 1 := by omega
    rw [hx]
    unfold reducePass
    by_cases hlt : (i : Int) < e.opCount
    · rw [if_pos hlt, if_pos hlt]
      by_cases hs : sel (e.operators i) = true
      · rw [if_pos hs, if_pos hs]
        exact ih extra i (reduceAt P e i) (by rw [reduceAt_opCount]; omega)
      · rw [if_neg hs, if_neg hs]
        exact ih extra (i + 1) e (by push_cast; omega)
    · rw [if_neg hlt, if_neg hlt]

theorem reducePass_pairs (P : Backend) (sel : Char → Bool) (e : Expression)
    (hwf : e.numCount = e.opCount + 1) :
    (reducePass P sel e.opCount.toNat 0 e).numCount =
        (reducePass P sel e.opCount.toNat 0 e).opCount + 1 ∧
      (reducePass P sel e.opCount.toNat 0 e).numbers 0 =
        (foldTier (performOperation P) sel (e.numbers 0) e.pairs).1 ∧
      (reducePass P sel e.opCount.toNat 0 e).pairs =
        (foldTier (performOperation P) sel (e.numbers 0) e.pairs).2 := by
  by_cases h0 : 0 ≤ e.opCount
  · have h := reducePass_spec P sel e.opCount.toNat 0 e.opCount.toNat e hwf (by omega) (le_refl _)
    refine ⟨h.1, h.2.2.1, ?_⟩
    have hc : (reducePass P sel e.opCount.toNat 0 e).opCount.toNat =
        (foldTier (performOperation P) sel (e.numbers 0)
          (e.pairsFrom 0 e.opCount.toNat)).2.length := by
      rw [h.2.1]; omega
    unfold Expression.pairs
    rw [hc]
    exact h.2.2.2.1
  · have hz : e.opCount.toNat = 0 := by omega
    simp [Expression.pairs, hz, reducePass, Expression.pairsFrom, foldTier, hwf]

theorem addSubLoop_eq (P : Backend) (e : Expression) (fuel : Nat) :
    ∀ (i k : Nat) (r : ℚ), e.opCount = (i : Int) + (k : Int) → k ≤ fuel →
      addSubLoop P e fuel i r = addSubList P r (e.pairsFrom i k) := by
  induction fuel with
  | zero =>
    intro i k r hk hf
    have hk0 : k = 0 := by omega
    subst hk0
    rfl
  | succ n ih =>
    intro i k r hk hf
    cases k with
    | zero =>
      have hlt : ¬ (i : Int) < e.opCount := by omega
      simp [addSubLoop, hlt, Expression.pairsFrom, addSubList]
    | succ k =>
      have hlt : (i : Int) < e.opCount := by omega
      unfold addSubLoop
      rw [if_pos hlt]
      simp only [Expression.pairsFrom, addSubList]
      by_cases hp : e.operators i = '+'
      · rw [if_pos hp, if_pos hp]
        exact ih (i + 1) k _ (by push_cast; omega) (by omega)
      · rw [if_neg hp, if_neg hp]
        by_cases hm : e.operators i = '-'
        · rw [if_pos hm, if_pos hm]
          exact ih (i + 1) k _ (by push_cast; omega) (by omega)
        · rw [if_neg hm, if_neg hm]
          exact ih (i + 1) k _ (by push_cast; omega) (by omega)

theorem addSubLoop_pairs (P : Backend) (e : Expression) :
    addSubLoop P e e.opCount.toNat 0 (e.numbers 0) = addSubList P (e.numbers 0) e.pairs := by
  by_cases h0 : 0 ≤ e.opCount
  · exact addSubLoop_eq P e e.opCount.toNat 0 e.opCount.toNat _ (by omega) (le_refl _)
  · have hz : e.opCount.toNat = 0 := by omega
    simp [Expression.pairs, hz, addSubLoop, Expression.pairsFrom, addSubList]

/-- On a well-formed expression `evaluateExpression` computes the three tiers, in
order, of its token list. -/
theorem evaluateExpression_eq_tieredValue (P : Backend) (e : Expression)
    (hwf : e.numCount = e.opCount + 1) :
    evaluateExpression P e = tieredValue P (e.numbers 0) e.pairs := by
  have h1 := reducePass_pairs P isPower e hwf
  have h2 := reducePass_pairs P isMulDiv (powerPass P e) h1.1
  unfold evaluateExpression
  simp only []
  rw [addSubLoop_pairs]
  unfold mulDivPass
  rw [h2.2.1, h2.2.2]
  unfold powerPass
  rw [h1.2.1, h1.2.2]
  rfl

theorem mem_pairsFrom (e : Expression) (p : Char × ℚ) :
    ∀ (n i : Nat), p ∈ e.pairsFrom i n →
      ∃ t, t < n ∧ p = (e.operators (i + t), e.numbers (i + t + 1)) := by
  intro n
  induction n with
  | zero => intro i h; simp [Expression.pairsFrom] at h
  | succ n ih =>
    intro i h
    simp only [Expression.pairsFrom, List.mem_cons] at h
    rcases h with h | h
    · exact ⟨0, Nat.succ_pos n, by simpa using h⟩
    · obtain ⟨t, ht, hp⟩ := ih (i + 1) h
      refine ⟨t + 1, by omega, ?_⟩
      have e1 : i + (t + 1) = i + 1 + t := by omega
      rw [e1]
      exact hp

theorem mem_pairs (e : Expression) (p : Char × ℚ) (h : p ∈ e.pairs) :
    ∃ t : Nat, (t : Int) < e.opCount ∧ p = (e.operators t, e.numbers (t + 1)) := by
  obtain ⟨t, ht, hp⟩ := mem_pairsFrom e p _ 0 h
  refine ⟨t, by omega, ?_⟩
  simpa using hp

theorem foldTier_none (f : ℚ → ℚ → Char → ℚ) (sel : Char → Bool) :
    ∀ (r : List (Char × ℚ)) (a : ℚ), (∀ p ∈ r, sel p.1 = false) → foldTier f sel a r = (a, r) := by
  intro r
  induction r with
  | nil => intro a _; rfl
  | cons p r ih =>
    intro a h
    obtain ⟨op, b⟩ := p
    have h1 : sel op = false := h (op, b) (List.mem_cons_self _ _)
    have h2 := ih b (fun q hq => h q (List.mem_cons_of_mem _ hq))
    simp [foldTier, h1, h2]

theorem foldTier_mulDiv_exact (P : Backend)
    (hmul : ∀ a b, P.multiplication a b = a * b)
    (hdiv : ∀ a b, b ≠ 0 → P.division a b = a / b) :
    ∀ (r : List (Char × ℚ)) (a : ℚ), (∀ p ∈ r, p.1 = '/' → p.2 ≠ 0) →
      foldTier (performOperation P) isMulDiv a r = mulDivFold a r := by
  intro r
  induction r with
  | nil => intro a _; rfl
  | cons p r ih =>
    intro a h
    obtain ⟨op, b⟩ := p
    have hr : ∀ q ∈ r, q.1 = '/' → q.2 ≠ 0 := fun q hq => h q (List.mem_cons_of_mem _ hq)
    by_cases h1 : op = '*'
    · subst h1
      simp [foldTier, mulDivFold, isMulDiv, performOperation, hmul, ih _ hr]
    · by_cases h2 : op = '/'
      · subst h2
        have hb : b ≠ 0 := h ('/', b) (List.mem_cons_self _ _) rfl
        simp [foldTier, mulDivFold, isMulDiv, performOperation, hdiv a b hb, hb, ih _ hr]
      · simp [foldTier, mulDivFold, isMulDiv, h1, h2, ih _ hr]

theorem mulDivFold_ops :
    ∀ (r : List (Char × ℚ)) (a : ℚ),
      (∀ p ∈ r, p.1 = '+' ∨ p.1 = '-' ∨ p.1 = '*' ∨ p.1 = '/') →
      ∀ q ∈ (mulDivFold a r).2, q.1 = '+' ∨ q.1 = '-' := by
  intro r
  induction r with
  | nil => intro a _ q hq; simp [mulDivFold] at hq
  | cons p r ih =>
    intro a h q hq
    obtain ⟨op, b⟩ := p
    have hr : ∀ p ∈ r, p.1 = '+' ∨ p.1 = '-' ∨ p.1 = '*' ∨ p.1 = '/' :=
      fun p hp => h p (List.mem_cons_of_mem _ hp)
    by_cases h1 : op = '*'
    · simp only [mulDivFold, h1, if_true] at hq
      exact ih _ hr q hq
    · by_cases h2 : op = '/'
      · simp only [mulDivFold, h1, h2, if_true, if_false] at hq
        exact ih _ hr q hq
      · simp only [mulDivFold, h1, h2, if_false, List.mem_cons] at hq
        rcases hq with hq | hq
        · have := h (op, b) (List.mem_cons_self _ _)
          subst hq
          simp only at this ⊢
          tauto
        · exact ih _ hr q hq

theorem addSubList_exact (P : Backend)
    (hadd : ∀ a b, P.addition a b = a + b)
    (hsub : ∀ a b, P.subtraction a b = a - b) :
    ∀ (r : List (Char × ℚ)) (a : ℚ), (∀ p ∈ r, p.1 = '+' ∨ p.1 = '-') →
      addSubList P a r = addSubFold a r := by
  intro r
  induction r with
  | nil => intro a _; rfl
  | cons p r ih =>
    intro a h
    obtain ⟨op, b⟩ := p
    have hr : ∀ q ∈ r, q.1 = '+' ∨ q.1 = '-' := fun q hq => h q (List.mem_cons_of_mem _ hq)
    rcases h (op, b) (List.mem_cons_self _ _) with h1 | h1
    · simp only at h1
      subst h1
      simp [addSubList, addSubFold, performOperation, hadd, ih _ hr]
    · simp only at h1
      subst h1
      simp [addSubList, addSubFold, performOperation, hsub, ih _ hr]

/-- C1: on a well-formed expression (`numCount == opCount + 1`) whose operators are
all among `+ - * /` and in which no `/` has a zero right operand, with exact external
arithmetic, `evaluateExpression` returns the value under standard precedence: `*` and
`/` folded first, left to right, then `+` and `-` folded left to right. -/
theorem evaluateExpression_standard_precedence (P : Backend) (e : Expression)
    (hadd : ∀ a b, P.addition a b = a + b)
    (hsub : ∀ a b, P.subtraction a b = a - b)
    (hmul : ∀ a b, P.multiplication a b = a * b)
    (hdiv : ∀ a b, b ≠ 0 → P.division a b = a / b)
    (hwf : e.numCount = e.opCount + 1)
    (hops : ∀ i : Nat, (i : Int) < e.opCount →
      e.operators i = '+' ∨ e.operators i = '-' ∨ e.operators i = '*' ∨ e.operators i = '/')
    (hnz : ∀ i : Nat, (i : Int) < e.opCount → e.operators i = '/' → e.numbers (i + 1) ≠ 0) :
    evaluateExpression P e = standardValue (e.numbers 0) e.pairs := by
  have hops1 : ∀ p ∈ e.pairs, p.1 = '+' ∨ p.1 = '-' ∨ p.1 = '*' ∨ p.1 = '/' := by
    intro p hp
    obtain ⟨t, ht, rfl⟩ := mem_pairs e p hp
    exact hops t ht
  have hnz1 : ∀ p ∈ e.pairs, p.1 = '/' → p.2 ≠ 0 := by
    intro p hp
    obtain ⟨t, ht, rfl⟩ := mem_pairs e p hp
    exact hnz t ht
  have hpow : ∀ p ∈ e.pairs, isPower p.1 = false := by
    intro p hp
    rcases hops1 p hp with h | h | h | h <;> simp [isPower, h]
  rw [evaluateExpression_eq_tieredValue P e hwf]
  unfold tieredValue standardValue
  simp only [foldTier_none _ _ _ _ hpow]
  rw [foldTier_mulDiv_exact P hmul hdiv _ _ hnz1]
  exact addSubList_exact P hadd hsub _ _ (mulDivFold_ops _ _ hops1)

/-- Witness of C1: the lines `2+3*4` and `2*3+4`, parsed into a cleared expression,
satisfy the hypotheses and evaluate to 14 and 10. -/
theorem evaluateExpression_standard_precedence_witness :
    (parseInput exactBackend "2+3*4".toList Expression.blank).ret = none ∧
    (parseInput exactBackend "2+3*4".toList Expression.blank).exp.numCount = 3 ∧
    (parseInput exactBackend "2+3*4".toList Expression.blank).exp.opCount = 2 ∧
    evaluateExpression exactBackend
      (parseInput exactBackend "2+3*4".toList Expression.blank).exp = 14 ∧
    evaluateExpression exactBackend
      (parseInput exactBackend "2*3+4".toList Expression.blank).exp = 10 := by
  refine ⟨by decide!, by decide!, by decide!, ?_, ?_⟩
  · rw [evaluateExpression_standard_precedence exactBackend
      (parseInput exactBackend "2+3*4".toList Expression.blank).exp
      (fun _ _ => rfl) (fun _ _ => rfl) (fun _ _ => rfl) (fun _ _ _ => rfl) (by decide!)
      (by
        intro i hi
        have h2 : (parseInput exactBackend "2+3*4".toList Expression.blank).exp.opCount = 2 := by
          decide!
        have hi2 : i = 0 ∨ i = 1 := by omega
        rcases hi2 with rfl | rfl <;> decide!)
      (by
        intro i hi
        have h2 : (parseInput exactBackend "2+3*4".toList Expression.blank).exp.opCount = 2 := by
          decide!
        have hi2 : i = 0 ∨ i = 1 := by omega
        rcases hi2 with rfl | rfl <;> decide!)]
    decide!
  · rw [evaluateExpression_standard_precedence exactBackend
      (parseInput exactBackend "2*3+4".toList Expression.blank).exp
      (fun _ _ => rfl) (fun _ _ => rfl) (fun _ _ => rfl) (fun _ _ _ => rfl) (by decide!)
      (by
        intro i hi
        have h2 : (parseInput exactBackend "2*3+4".toList Expression.blank).exp.opCount = 2 := by
          decide!
        have hi2 : i = 0 ∨ i = 1 := by omega
        rcases hi2 with rfl | rfl <;> decide!)
      (by
        intro i hi
        have h2 : (parseInput exactBackend "2*3+4".toList Expression.blank).exp.opCount = 2 := by
          decide!
        have hi2 : i = 0 ∨ i = 1 := by omega
        rcases hi2 with rfl | rfl <;> decide!)]
    decide!

/-- C2 (the code departs from the claim): on the lines `5/0*0` and `ln0*0` a domain
error occurs (the division, respectively the logarithm, yields the sentinel), yet
`parseInput` does not return the sentinel and `evaluateExpression` returns the product
of the sentinel and 0; when that product is 0, `main` prints `Result: 0.00`. -/
theorem mainLine_prints_after_domain_error (P : Backend) (junk : ℚ) (nums : Nat → ℚ)
    (ops : Nat → Char) (hmul : ∀ x, P.multiplication x 0 = 0) (hjunk : junk ≠ SENTINEL) :
    performOperation P 5 0 '/' = SENTINEL ∧
    (parseInput P "5/0*0".toList (Expression.fresh nums ops)).ret = none ∧
    evaluateExpression P (parseInput P "5/0*0".toList (Expression.fresh nums ops)).exp = 0 ∧
    mainLine P junk nums ops "5/0*0".toList = some 0 ∧
    performLnFunction P 0 = SENTINEL ∧
    (parseInput P "ln0*0".toList (Expression.fresh nums ops)).ret = none ∧
    evaluateExpression P (parseInput P "ln0*0".toList (Expression.fresh nums ops)).exp = 0 ∧
    mainLine P junk nums ops "ln0*0".toList = some 0 := by
  have hS : (0 : ℚ) ≠ SENTINEL := by norm_num [SENTINEL]
  have h1 : (parseInput P "5/0*0".toList (Expression.fresh nums ops)).ret = none := by
    simp [parseInput, parseLoop, parseBody, peek, NUL, isDigit, isOperator, scanNumber,
      Expression.fresh, Expression.pushNumber, Expression.pushOperator, digitVal]
  have h2 : evaluateExpression P
      (parseInput P "5/0*0".toList (Expression.fresh nums ops)).exp = 0 := by
    simp [parseInput, parseLoop, parseBody, peek, NUL, isDigit, isOperator, scanNumber,
      Expression.fresh, Expression.pushNumber, Expression.pushOperator, digitVal,
      evaluateExpression, mulDivPass, powerPass, reducePass, reduceAt, shiftLoop, addSubLoop,
      isPower, isMulDiv, performOperation, Function.update, hmul]
  have h3 : (parseInput P "ln0*0".toList (Expression.fresh nums ops)).ret = none := by
    simp [parseInput, parseLoop, parseBody, peek, NUL, isDigit, isOperator, scanNumber,
      Expression.fresh, Expression.pushNumber, Expression.pushOperator, digitVal]
  have h4 : evaluateExpression P
      (parseInput P "ln0*0".toList (Expression.fresh nums ops)).exp = 0 := by
    simp [parseInput, parseLoop, parseBody, peek, NUL, isDigit, isOperator, scanNumber,
      Expression.fresh, Expression.pushNumber, Expression.pushOperator, digitVal,
      evaluateExpression, mulDivPass, powerPass, reducePass, reduceAt, shiftLoop, addSubLoop,
      isPower, isMulDiv, performOperation, performLnFunction, Function.update, hmul]
  refine ⟨by simp [performOperation], h1, h2, ?_, by simp [performLnFunction], h3, h4, ?_⟩
  · unfold mainLine
    simp only [h1, h2, Option.getD_none]
    rw [if_pos ⟨hS, hjunk⟩]
  · unfold mainLine
    simp only [h3, h4, Option.getD_none]
    rw [if_pos ⟨hS, hjunk⟩]

/-- Witness of C2 with the exact back end and a cleared expression: `5/0*0` is
printed as 0. -/
theorem mainLine_prints_after_domain_error_witness :
    mainLine exactBackend 0 (fun _ => 0) (fun _ => NUL) "5/0*0".toList = some 0 :=
  (mainLine_prints_after_domain_error exactBackend 0 (fun _ => 0) (fun _ => NUL)
    (fun x => mul_zero x) (by decide!)).2.2.2.1

theorem foldTier_all (f : ℚ → ℚ → Char → ℚ) (sel : Char → Bool) :
    ∀ (r : List (Char × ℚ)) (a : ℚ), (∀ p ∈ r, sel p.1 = true) →
      foldTier f sel a r = (r.foldl (fun x p => f x p.2 p.1) a, []) := by
  intro r
  induction r with
  | nil => intro a _; rfl
  | cons p r ih =>
    intro a h
    obtain ⟨op, b⟩ := p
    have h1 : sel op = true := h (op, b) (List.mem_cons_self _ _)
    have h2 := ih (f a b op) (fun q hq => h q (List.mem_cons_of_mem _ hq))
    simp [foldTier, h1, h2]

theorem performOperation_power (P : Backend) (a b : ℚ) :
    performOperation P a b '^' =
      if b = 1 / 2 then (if a < 0 then SENTINEL else P.squareRoot a) else generalPower P a b := by
  unfold performOperation generalPower
  rw [if_neg (by decide), if_neg (by decide), if_neg (by decide), if_neg (by decide),
    if_pos rfl]

theorem foldl_power_chain (P : Backend) :
    ∀ (r : List (Char × ℚ)) (a : ℚ), (∀ p ∈ r, p.1 = '^' ∧ p.2 ≠ 1 / 2) →
      r.foldl (fun x p => performOperation P x p.2 p.1) a =
        (r.map Prod.snd).foldl (generalPower P) a := by
  intro r
  induction r with
  | nil => intro a _; rfl
  | cons p r ih =>
    intro a h
    obtain ⟨op, b⟩ := p
    have h1 := h (op, b) (List.mem_cons_self _ _)
    simp only at h1
    have h2 := ih (generalPower P a b) (fun q hq => h q (List.mem_cons_of_mem _ hq))
    have h3 : performOperation P a b op = generalPower P a b := by
      rw [h1.1, performOperation_power, if_neg h1.2]
    simp only [List.foldl_cons, List.map_cons, h3, h2]

theorem pairs_two (e : Expression) (h : e.opCount = 2) :
    e.pairs = [(e.operators 0, e.numbers 1), (e.operators 1, e.numbers 2)] := by
  simp [Expression.pairs, h, Expression.pairsFrom]

theorem pairs_one (e : Expression) (h : e.opCount = 1) :
    e.pairs = [(e.operators 0, e.numbers 1)] := by
  simp [Expression.pairs, h, Expression.pairsFrom]

/-- C3: on a well-formed expression whose operators are all `^` and whose exponents
all differ from 0.5, `evaluateExpression` folds the chain left to right:
`((a1^a2)^a3)...^an`; with three operands the result is `pow(pow(a, b), c)`. -/
theorem evaluateExpression_power_chain (P : Backend) (e : Expression)
    (hwf : e.numCount = e.opCount + 1)
    (hops : ∀ i : Nat, (i : Int) < e.opCount → e.operators i = '^')
    (hexp : ∀ i : Nat, (i : Int) < e.opCount → e.numbers (i + 1) ≠ 1 / 2) :
    evaluateExpression P e = (e.pairs.map Prod.snd).foldl (generalPower P) (e.numbers 0) ∧
    (e.opCount = 2 → evaluateExpression P e =
      generalPower P (generalPower P (e.numbers 0) (e.numbers 1)) (e.numbers 2)) := by
  have h1 : ∀ p ∈ e.pairs, p.1 = '^' ∧ p.2 ≠ 1 / 2 := by
    intro p hp
    obtain ⟨t, ht, rfl⟩ := mem_pairs e p hp
    exact ⟨hops t ht, hexp t ht⟩
  have h2 : ∀ p ∈ e.pairs, isPower p.1 = true := by
    intro p hp
    simp [isPower, (h1 p hp).1]
  have h3 : evaluateExpression P e =
      (e.pairs.map Prod.snd).foldl (generalPower P) (e.numbers 0) := by
    rw [evaluateExpression_eq_tieredValue P e hwf]
    unfold tieredValue
    simp only [foldTier_all _ _ _ _ h2, foldTier, addSubList]
    exact foldl_power_chain P _ _ h1
  refine ⟨h3, ?_⟩
  intro hc
  rw [h3, pairs_two e hc]
  rfl

/-- Witness of C3: the line `2^3^2` satisfies the hypotheses and evaluates to
`(2^3)^2 = 64`. -/
theorem evaluateExpression_power_chain_witness :
    (parseInput exactBackend "2^3^2".toList Expression.blank).ret = none ∧
    (parseInput exactBackend "2^3^2".toList Expression.blank).exp.opCount = 2 ∧
    evaluateExpression exactBackend
      (parseInput exactBackend "2^3^2".toList Expression.blank).exp = 64 := by
  refine ⟨by decide!, by decide!, ?_⟩
  rw [(evaluateExpression_power_chain exactBackend
      (parseInput exactBackend "2^3^2".toList Expression.blank).exp (by decide!)
      (by
        intro i hi
        have h2 : (parseInput exactBackend "2^3^2".toList Expression.blank).exp.opCount = 2 := by
          decide!
        have hi2 : i = 0 ∨ i = 1 := by omega
        rcases hi2 with rfl | rfl <;> decide!)
      (by
        intro i hi
        have h2 : (parseInput exactBackend "2^3^2".toList Expression.blank).exp.opCount = 2 := by
          decide!
        have hi2 : i = 0 ∨ i = 1 := by omega
        rcases hi2 with rfl | rfl <;> decide!)).2 (by decide!)]
  decide!

/-- C4: `^` binds tighter than `*` and `/`. On every well-formed expression the power
tier is folded over the whole token list before the multiply/divide tier; with operands
`[a, b, c]` and operators `['*', '^']` the result is `a * pow(b, c)`, and with
`['/', '^']` and a non-zero power it is `a / pow(b, c)`. -/
theorem evaluateExpression_power_before_mulDiv (P : Backend) (e : Expression)
    (hwf : e.numCount = e.opCount + 1) :
    evaluateExpression P e =
      addSubList P
        (foldTier (performOperation P) isMulDiv
          (foldTier (performOperation P) isPower (e.numbers 0) e.pairs).1
          (foldTier (performOperation P) isPower (e.numbers 0) e.pairs).2).1
        (foldTier (performOperation P) isMulDiv
          (foldTier (performOperation P) isPower (e.numbers 0) e.pairs).1
          (foldTier (performOperation P) isPower (e.numbers 0) e.pairs).2).2 ∧
    (e.opCount = 2 → e.operators 0 = '*' → e.operators 1 = '^' →
      evaluateExpression P e =
        P.multiplication (e.numbers 0) (performOperation P (e.numbers 1) (e.numbers 2) '^')) ∧
    (e.opCount = 2 → e.operators 0 = '/' → e.operators 1 = '^' →
      performOperation P (e.numbers 1) (e.numbers 2) '^' ≠ 0 →
      evaluateExpression P e =
        P.division (e.numbers 0) (performOperation P (e.numbers 1) (e.numbers 2) '^')) := by
  have h := evaluateExpression_eq_tieredValue P e hwf
  refine ⟨h, ?_, ?_⟩
  · intro hc h0 h1
    rw [h, pairs_two e hc, h0, h1]
    simp [tieredValue, foldTier, addSubList, isPower, isMulDiv, performOperation]
  · intro hc h0 h1 hnz
    rw [h, pairs_two e hc, h0, h1]
    have hnz2 : ¬ performOperation P (e.numbers 1) (e.numbers 2) '^' = 0 := hnz
    simp only [tieredValue, foldTier, addSubList, isPower, isMulDiv]
    simp [performOperation] at hnz2 ⊢
    simp [hnz2]

/-- Witness of C4: the line `2*3^2` is well formed and evaluates to 18. -/
theorem evaluateExpression_power_before_mulDiv_witness :
    (parseInput exactBackend "2*3^2".toList Expression.blank).ret = none ∧
    evaluateExpression exactBackend
      (parseInput exactBackend "2*3^2".toList Expression.blank).exp = 18 := by
  refine ⟨by decide!, ?_⟩
  rw [(evaluateExpression_power_before_mulDiv exactBackend
      (parseInput exactBackend "2*3^2".toList Expression.blank).exp (by decide!)).2.1
      (by decide!) (by decide!) (by decide!)]
  decide!

/-- C5: `performOperation(a, 0.5, '^')` is the sentinel when `a < 0` and the external
square root of `a` otherwise, whatever the integer power routine is; the line `4^0.5`
evaluates to the square root of 4 (2 when the routine is exact), and `-4^0.5` parses
to the operands `[-4, 0.5]` with the operator `^` and evaluates to the sentinel. -/
theorem performOperation_square_root (P : Backend) (a : ℚ) (pw : Int → Int → Int)
    (nums : Nat → ℚ) (ops : Nat → Char) :
    performOperation P a (1 / 2) '^' = (if a < 0 then SENTINEL else P.squareRoot a) ∧
    performOperation { P with power := pw } a (1 / 2) '^' = performOperation P a (1 / 2) '^' ∧
    evaluateExpression P (parseInput P "4^0.5".toList (Expression.fresh nums ops)).exp =
      P.squareRoot 4 ∧
    evaluateExpression exactBackend
      (parseInput exactBackend "4^0.5".toList Expression.blank).exp = 2 ∧
    (parseInput P "-4^0.5".toList (Expression.fresh nums ops)).ret = none ∧
    (parseInput P "-4^0.5".toList (Expression.fresh nums ops)).exp.numCount = 2 ∧
    (parseInput P "-4^0.5".toList (Expression.fresh nums ops)).exp.opCount = 1 ∧
    (parseInput P "-4^0.5".toList (Expression.fresh nums ops)).exp.numbers 0 = -4 ∧
    (parseInput P "-4^0.5".toList (Expression.fresh nums ops)).exp.numbers 1 = 1 / 2 ∧
    (parseInput P "-4^0.5".toList (Expression.fresh nums ops)).exp.operators 0 = '^' ∧
    evaluateExpression P (parseInput P "-4^0.5".toList (Expression.fresh nums ops)).exp =
      SENTINEL := by
  refine ⟨?_, ?_, ?_, by decide!, ?_, ?_, ?_, ?_, ?_, ?_, ?_⟩
  · rw [performOperation_power, if_pos rfl]
  · rw [performOperation_power, performOperation_power, if_pos rfl, if_pos rfl]
  · simp [parseInput, parseLoop, parseBody, peek, NUL, isDigit, isOperator, scanNumber,
      Expression.fresh, Expression.pushNumber, Expression.pushOperator, digitVal,
      evaluateExpression, mulDivPass, powerPass, reducePass, reduceAt, shiftLoop, addSubLoop,
      isPower, isMulDiv, performOperation, Function.update]
    norm_num
  · simp [parseInput, parseLoop, parseBody, peek, NUL, isDigit, isOperator, scanNumber,
      Expression.fresh, Expression.pushNumber, Expression.pushOperator, digitVal]
  · simp [parseInput, parseLoop, parseBody, peek, NUL, isDigit, isOperator, scanNumber,
      Expression.fresh, Expression.pushNumber, Expression.pushOperator, digitVal]
  · simp [parseInput, parseLoop, parseBody, peek, NUL, isDigit, isOperator, scanNumber,
      Expression.fresh, Expression.pushNumber, Expression.pushOperator, digitVal]
  · simp [parseInput, parseLoop, parseBody, peek, NUL, isDigit, isOperator, scanNumber,
      Expression.fresh, Expression.pushNumber, Expression.pushOperator, digitVal,
      Function.update]
  · simp [parseInput, parseLoop, parseBody, peek, NUL, isDigit, isOperator, scanNumber,
      Expression.fresh, Expression.pushNumber, Expression.pushOperator, digitVal,
      Function.update]
    norm_num
  · simp [parseInput, parseLoop, parseBody, peek, NUL, isDigit, isOperator, scanNumber,
      Expression.fresh, Expression.pushNumber, Expression.pushOperator, digitVal,
      Function.update]
  · simp [parseInput, parseLoop, parseBody, peek, NUL, isDigit, isOperator, scanNumber,
      Expression.fresh, Expression.pushNumber, Expression.pushOperator, digitVal,
      evaluateExpression, mulDivPass, powerPass, reducePass, reduceAt, shiftLoop, addSubLoop,
      isPower, isMulDiv, performOperation, Function.update]
    norm_num

/-- C6: `performOperation(a, 0, '/')` is the sentinel for every back end (the
division routine plays no part), `performOperation(a, b, '/')` is the external quotient
when `b` is not 0, and an expression with operands `[a, 0]` and the operator `/`, such
as the one parsed from `5/0`, evaluates to the sentinel. -/
theorem performOperation_division_by_zero (P : Backend) (a : ℚ) (nums : Nat → ℚ)
    (ops : Nat → Char) :
    performOperation P a 0 '/' = SENTINEL ∧
    (∀ b : ℚ, b ≠ 0 → performOperation P a b '/' = P.division a b) ∧
    (∀ e : Expression, e.numCount = 2 → e.opCount = 1 → e.operators 0 = '/' →
      e.numbers 0 = a → e.numbers 1 = 0 → evaluateExpression P e = SENTINEL) ∧
    (parseInput P "5/0".toList (Expression.fresh nums ops)).ret = none ∧
    evaluateExpression P (parseInput P "5/0".toList (Expression.fresh nums ops)).exp =
      SENTINEL ∧
    mainLine P 0 nums ops "5/0".toList = none := by
  have h5 : evaluateExpression P (parseInput P "5/0".toList (Expression.fresh nums ops)).exp =
      SENTINEL := by
    simp [parseInput, parseLoop, parseBody, peek, NUL, isDigit, isOperator, scanNumber,
      Expression.fresh, Expression.pushNumber, Expression.pushOperator, digitVal,
      evaluateExpression, mulDivPass, powerPass, reducePass, reduceAt, shiftLoop, addSubLoop,
      isPower, isMulDiv, performOperation, Function.update]
  refine ⟨by simp [performOperation], ?_, ?_, ?_, h5, ?_⟩
  · intro b hb
    simp [performOperation, hb]
  · intro e hn ho h0 _ h1
    rw [evaluateExpression_eq_tieredValue P e (by rw [hn, ho]; rfl), pairs_one e ho, h0, h1]
    simp [tieredValue, foldTier, addSubList, isPower, isMulDiv, performOperation]
  · simp [parseInput, parseLoop, parseBody, peek, NUL, isDigit, isOperator, scanNumber,
      Expression.fresh, Expression.pushNumber, Expression.pushOperator, digitVal]
  · unfold mainLine
    simp only [h5]
    simp

/-! ## Parser: the branches of the loop body -/

theorem isDigit_ne {c x : Char} (h : isDigit c = true) (hx : isDigit x = false) : c ≠ x := by
  rintro rfl
  simp [h] at hx

theorem peek_zero_cons (c : Char) (cs : List Char) : peek (c :: cs) 0 = c := rfl

theorem peek_succ_cons (c : Char) (cs : List Char) (k : Nat) :
    peek (c :: cs) (k + 1) = peek cs k := rfl

theorem peek_nil (k : Nat) : peek [] k = NUL := rfl

theorem parseBody_space (P : Backend) (cs : List Char) (cm : Bool) (e : Expression) :
    parseBody P ⟨' ' :: cs, cm, e⟩ = Step.next ⟨cs, cm, e⟩ := by
  simp [parseBody, peek]

theorem parseBody_factorial (P : Backend) (cs : List Char) (cm : Bool) (e : Expression) :
    parseBody P ⟨'!' :: cs, cm, e⟩ =
      Step.next ⟨(scanDigits cs 0).2, cm,
        e.pushNumber ((performFactorial P (scanDigits cs 0).1 : Int) : ℚ)⟩ := by
  simp [parseBody, peek]

theorem parseBody_number (P : Backend) (c : Char) (cs : List Char) (cm : Bool)
    (e : Expression) (h : isNumChar c = true) :
    parseBody P ⟨c :: cs, cm, e⟩ =
      match scanNumber (c :: cs) 0 false 1 with
      | Scan.multipleDots => Step.fail e
      | Scan.ok num rest => Step.next ⟨rest, false, e.pushNumber num⟩ := by
  have hx : ∀ x : Char, isNumChar x = false → c ≠ x := by
    rintro x hx rfl
    simp [h] at hx
  have h1 := hx ' ' (by decide)
  have h2 := hx 's' (by decide)
  have h3 := hx 'c' (by decide)
  have h4 := hx 't' (by decide)
  have h5 := hx '!' (by decide)
  have h6 := hx 'l' (by decide)
  have h7 := hx 'e' (by decide)
  have h8 := hx '-' (by decide)
  have h9 : (isDigit c || c == '.') = true := h
  simp only [parseBody, peek_zero_cons, h1, h2, h3, h4, h5, h6, h7, h8, h9, if_false,
    false_and, or_self, if_true]

theorem parseBody_operator (P : Backend) (c : Char) (cs : List Char) (cm : Bool)
    (e : Expression) (h : c = '+' ∨ c = '*' ∨ c = '/' ∨ c = '^' ∨ (c = '-' ∧ cm = false)) :
    parseBody P ⟨c :: cs, cm, e⟩ = Step.next ⟨cs, true, e.pushOperator c⟩ := by
  rcases h with rfl | rfl | rfl | rfl | ⟨rfl, rfl⟩ <;> simp [parseBody, peek, isDigit, isOperator]

theorem parseBody_minus_operator (P : Backend) (cs : List Char) (e : Expression)
    (h : isNumChar (peek cs 0) = false) :
    parseBody P ⟨'-' :: cs, true, e⟩ = Step.next ⟨cs, true, e.pushOperator '-'⟩ := by
  simp only [isNumChar, Bool.or_eq_false_iff, beq_eq_false_iff_ne, ne_eq] at h
  simp [parseBody, peek_zero_cons, h.1, h.2]

theorem parseBody_minus_sign (P : Backend) (cs : List Char) (e : Expression)
    (h : isNumChar (peek cs 0) = true) :
    parseBody P ⟨'-' :: cs, true, e⟩ =
      match scanNumber cs 0 false 1 with
      | Scan.multipleDots => Step.fail e
      | Scan.ok num rest => Step.next ⟨rest, false, e.pushNumber (num * (-1))⟩ := by
  have h9 : ¬ ((!isDigit (peek cs 0) && peek cs 0 != '.') = true) := by
    simp only [isNumChar, Bool.or_eq_true, beq_iff_eq] at h
    rcases h with h | h <;> simp [h]
  simp [parseBody, peek_zero_cons, h9]

/-! ## Parser: the scanning loops -/

theorem scanNumber_doubleDot :
    ∀ (s : List Char) (num : ℚ) (df : Bool) (dp : ℚ),
      match scanNumber s num df dp with
      | Scan.multipleDots => doubleDot s (if df then 1 else 0) = true
      | Scan.ok _ rest => doubleDot s (if df then 1 else 0) = doubleDot rest 0 ∧ rest <:+ s := by
  intro s
  induction s with
  | nil => intro num df dp; simp [scanNumber, doubleDot]
  | cons c cs ih =>
    intro num df dp
    unfold scanNumber
    by_cases hn : (isDigit c || c == '.') = true
    · rw [if_pos hn]
      by_cases hd : c = '.'
      · rw [if_pos hd]
        cases df with
        | true => simp [doubleDot, hd]
        | false =>
          have h := ih num true dp
          simp only [Bool.false_eq_true, if_false]
          revert h
          cases scanNumber cs num true dp with
          | multipleDots => intro h; simpa [doubleDot, hd] using h
          | ok n rest =>
            intro h
            simp only [if_true] at h
            exact ⟨by simpa [doubleDot, hd] using h.1, h.2.trans (List.suffix_cons _ _)⟩
      · rw [if_neg hd]
        have hdig : isDigit c = true := by
          simp only [Bool.or_eq_true, beq_iff_eq] at hn
          tauto
        cases df with
        | true =>
          have h := ih (num + digitVal c / (dp * 10)) true (dp * 10)
          simp only [if_true]
          revert h
          cases scanNumber cs (num + digitVal c / (dp * 10)) true (dp * 10) with
          | multipleDots => intro h; simpa [doubleDot, hd, hdig] using h
          | ok n rest =>
            intro h
            simp only [if_true] at h
            exact ⟨by simpa [doubleDot, hd, hdig] using h.1, h.2.trans (List.suffix_cons _ _)⟩
        | false =>
          have h := ih (num * 10 + digitVal c) false dp
          simp only [Bool.false_eq_true, if_false]
          revert h
          cases scanNumber cs (num * 10 + digitVal c) false dp with
          | multipleDots => intro h; simpa [doubleDot, hd, hdig] using h
          | ok n rest =>
            intro h
            simp only [Bool.false_eq_true, if_false] at h
            exact ⟨by simpa [doubleDot, hd, hdig] using h.1, h.2.trans (List.suffix_cons _ _)⟩
    · rw [if_neg hn]
      simp only [Bool.or_eq_true, beq_iff_eq, not_or] at hn
      refine ⟨?_, List.suffix_refl _⟩
      cases df <;> simp [doubleDot, hn.1, hn.2]

theorem scanNumber_cons (c : Char) (cs : List Char) (num dp : ℚ) (h : isNumChar c = true) :
    scanNumber (c :: cs) num false dp =
      if c = '.' then scanNumber cs num true dp
      else scanNumber cs (num * 10 + digitVal c) false dp := by
  have h9 : (isDigit c || c == '.') = true := h
  rw [scanNumber, if_pos h9]
  simp

theorem doubleDot_cons_numChar (c : Char) (cs : List Char) (h : isNumChar c = true) :
    doubleDot (c :: cs) 0 = doubleDot cs (if c = '.' then 1 else 0) := by
  by_cases hd : c = '.'
  · simp [doubleDot, hd]
  · have hdig : isDigit c = true := by
      simp only [isNumChar, Bool.or_eq_true, beq_iff_eq] at h
      tauto
    simp [doubleDot, hd, hdig]

/-- Scanning a number that starts with a digit or a decimal point. -/
theorem scanNumber_start (c : Char) (cs : List Char) (h : isNumChar c = true) :
    match scanNumber (c :: cs) 0 false 1 with
    | Scan.multipleDots => doubleDot (c :: cs) 0 = true
    | Scan.ok _ rest => doubleDot (c :: cs) 0 = doubleDot rest 0 ∧ rest <:+ cs := by
  rw [scanNumber_cons c cs 0 1 h, doubleDot_cons_numChar c cs h]
  by_cases hd : c = '.'
  · rw [if_pos hd, if_pos hd]
    exact scanNumber_doubleDot cs 0 true 1
  · rw [if_neg hd, if_neg hd]
    exact scanNumber_doubleDot cs (0 * 10 + digitVal c) false 1

theorem scanDigits_doubleDot :
    ∀ (s : List Char) (num : ℚ),
      doubleDot s 0 = doubleDot (scanDigits s num).2 0 ∧ (scanDigits s num).2 <:+ s := by
  intro s
  induction s with
  | nil => intro num; simp [scanDigits]
  | cons c cs ih =>
    intro num
    unfold scanDigits
    by_cases hdig : isDigit c = true
    · rw [if_pos hdig]
      have hd : c ≠ '.' := isDigit_ne hdig (by decide)
      have h := ih (num * 10 + digitVal c)
      exact ⟨by simpa [doubleDot, hd, hdig] using h.1, h.2.trans (List.suffix_cons _ _)⟩
    · rw [if_neg hdig]
      exact ⟨rfl, List.suffix_refl _⟩

theorem plainChar_cases {c : Char} (h : plainChar c = true) :
    c = ' ' ∨ isNumChar c = true ∨ c = '!' ∨ c = '-' ∨ c = '+' ∨ c = '*' ∨ c = '/' ∨ c = '^' := by
  simp only [plainChar, isOperator, isNumChar, Bool.or_eq_true, beq_iff_eq] at h ⊢
  tauto

theorem doubleDot_cons_other (c : Char) (cs : List Char) (n : Nat)
    (h : isNumChar c = false) : doubleDot (c :: cs) n = doubleDot cs 0 := by
  simp only [isNumChar, Bool.or_eq_false_iff, beq_eq_false_iff_ne, ne_eq] at h
  simp [doubleDot, h.1, h.2]

theorem plainChar_ne_NUL {c : Char} (h : plainChar c = true) : c ≠ NUL := by
  rintro rfl
  exact absurd h (by decide)

theorem parseLoop_cons (P : Backend) (fuel : Nat) (c : Char) (cs : List Char) (cm : Bool)
    (e : Expression) (h : c ≠ NUL) :
    parseLoop P (fuel + 1) ⟨c :: cs, cm, e⟩ =
      match parseBody P ⟨c :: cs, cm, e⟩ with
      | Step.next st1 => parseLoop P fuel st1
      | Step.fail e1 => ⟨e1, some SENTINEL⟩ := by
  rw [parseLoop]
  simp only [peek_zero_cons, h, if_false]

theorem parseLoop_nil (P : Backend) (fuel : Nat) (cm : Bool) (e : Expression) :
    parseLoop P fuel ⟨[], cm, e⟩ = ⟨e, none⟩ := by
  cases fuel <;> simp [parseLoop, peek_nil]

theorem parseLoop_doubleDot (P : Backend) (fuel : Nat) :
    ∀ (s : List Char) (cm : Bool) (e : Expression), s.length < fuel →
      (∀ c ∈ s, plainChar c = true) →
      ((parseLoop P fuel ⟨s, cm, e⟩).ret = some SENTINEL ↔ doubleDot s 0 = true) := by
  induction fuel with
  | zero => intro s cm e h; omega
  | succ n ih =>
    intro s cm e hlen hplain
    cases s with
    | nil => simp [parseLoop_nil, doubleDot]
    | cons c cs =>
      have hc := hplain c (List.mem_cons_self _ _)
      have hcs : ∀ x ∈ cs, plainChar x = true := fun x hx => hplain x (List.mem_cons_of_mem _ hx)
      have hl : cs.length < n := by simpa using hlen
      have hsuf : ∀ rest : List Char, rest <:+ cs →
          rest.length < n ∧ ∀ x ∈ rest, plainChar x = true := fun rest hr =>
        ⟨lt_of_le_of_lt hr.length_le hl, fun x hx => hcs x (hr.subset hx)⟩
      rw [parseLoop_cons P n c cs cm e (plainChar_ne_NUL hc)]
      have hop : ∀ x : Char, x = '+' ∨ x = '*' ∨ x = '/' ∨ x = '^' ∨ (x = '-' ∧ cm = false) →
          c = x → ((match parseBody P ⟨c :: cs, cm, e⟩ with
            | Step.next st1 => parseLoop P n st1
            | Step.fail e1 => ⟨e1, some SENTINEL⟩).ret = some SENTINEL ↔
            doubleDot (c :: cs) 0 = true) := by
        intro x hx hcx
        subst hcx
        rw [parseBody_operator P c cs cm e hx]
        have hnc : isNumChar c = false := by
          rcases hx with rfl | rfl | rfl | rfl | ⟨rfl, _⟩ <;> decide
        rw [doubleDot_cons_other c cs 0 hnc]
        exact ih cs true _ hl hcs
      rcases plainChar_cases hc with rfl | hnum | rfl | rfl | rfl | rfl | rfl | rfl
      · rw [parseBody_space, doubleDot_cons_other _ cs 0 (by decide)]
        exact ih cs cm e hl hcs
      · rw [parseBody_number P c cs cm e hnum]
        have h := scanNumber_start c cs hnum
        revert h
        cases scanNumber (c :: cs) 0 false 1 with
        | multipleDots => intro h; simp [h]
        | ok num rest =>
          intro h
          simp only at h ⊢
          rw [h.1]
          exact ih rest false _ (hsuf rest h.2).1 (hsuf rest h.2).2
      · rw [parseBody_factorial, doubleDot_cons_other _ cs 0 (by decide)]
        have h := scanDigits_doubleDot cs 0
        rw [h.1]
        exact ih _ cm _ (hsuf _ h.2).1 (hsuf _ h.2).2
      · cases cm with
        | false => exact hop '-' (by simp) rfl
        | true =>
          rw [doubleDot_cons_other _ cs 0 (by decide)]
          by_cases hnx : isNumChar (peek cs 0) = true
          · rw [parseBody_minus_sign P cs e hnx]
            have h := scanNumber_doubleDot cs 0 false 1
            revert h
            cases scanNumber cs 0 false 1 with
            | multipleDots => intro h; simpa using h
            | ok num rest =>
              intro h
              simp only [Bool.false_eq_true, if_false] at h ⊢
              rw [h.1]
              exact ih rest false _ (hsuf rest h.2).1 (hsuf rest h.2).2
          · rw [parseBody_minus_operator P cs e (by simpa using hnx)]
            exact ih cs true _ hl hcs
      · exact hop '+' (by simp) rfl
      · exact hop '*' (by simp) rfl
      · exact hop '/' (by simp) rfl
      · exact hop '^' (by simp) rfl

/-! ## Runs with two decimal points -/

theorem not_dotAhead_nil : ¬ DotAhead [] := by
  rintro ⟨mid, post, h, _⟩
  cases mid <;> simp at h

theorem not_twoDots_nil : ¬ TwoDots [] := by
  rintro ⟨pre, post, h, _⟩
  cases pre <;> simp at h

theorem dotAhead_dot (cs : List Char) : DotAhead ('.' :: cs) :=
  ⟨[], cs, rfl, by simp⟩

theorem dotAhead_cons_digit (c : Char) (cs : List Char) (h : isDigit c = true) :
    DotAhead (c :: cs) ↔ DotAhead cs := by
  constructor
  · rintro ⟨mid, post, he, hm⟩
    cases mid with
    | nil =>
      simp only [List.nil_append, List.cons.injEq] at he
      exact absurd he.1 (isDigit_ne h (by decide))
    | cons m ms =>
      simp only [List.cons_append, List.cons.injEq] at he
      exact ⟨ms, post, he.2, fun x hx => hm x (List.mem_cons_of_mem _ hx)⟩
  · rintro ⟨mid, post, he, hm⟩
    refine ⟨c :: mid, post, by simp [he], ?_⟩
    intro x hx
    rcases List.mem_cons.1 hx with rfl | hx
    · exact h
    · exact hm x hx

theorem not_dotAhead_cons_other (c : Char) (cs : List Char) (h : isNumChar c = false) :
    ¬ DotAhead (c :: cs) := by
  simp only [isNumChar, Bool.or_eq_false_iff, beq_eq_false_iff_ne, ne_eq] at h
  rintro ⟨mid, post, he, hm⟩
  cases mid with
  | nil =>
    simp only [List.nil_append, List.cons.injEq] at he
    exact h.2 he.1
  | cons m ms =>
    simp only [List.cons_append, List.cons.injEq] at he
    have := hm m (List.mem_cons_self _ _)
    rw [← he.1, h.1] at this
    exact absurd this (by decide)

theorem twoDots_dot (cs : List Char) : TwoDots ('.' :: cs) ↔ DotAhead cs ∨ TwoDots cs := by
  constructor
  · rintro ⟨pre, post, he, hd⟩
    cases pre with
    | nil =>
      simp only [List.nil_append, List.cons.injEq, true_and] at he
      exact Or.inl (he ▸ hd)
    | cons p ps =>
      simp only [List.cons_append, List.cons.injEq] at he
      exact Or.inr ⟨ps, post, he.2, hd⟩
  · rintro (h | ⟨pre, post, he, hd⟩)
    · exact ⟨[], cs, rfl, h⟩
    · exact ⟨'.' :: pre, post, by simp [he], hd⟩

theorem twoDots_cons_ne (c : Char) (cs : List Char) (h : c ≠ '.') :
    TwoDots (c :: cs) ↔ TwoDots cs := by
  constructor
  · rintro ⟨pre, post, he, hd⟩
    cases pre with
    | nil =>
      simp only [List.nil_append, List.cons.injEq] at he
      exact absurd he.1 h
    | cons p ps =>
      simp only [List.cons_append, List.cons.injEq] at he
      exact ⟨ps, post, he.2, hd⟩
  · rintro ⟨pre, post, he, hd⟩
    exact ⟨c :: pre, post, by simp [he], hd⟩

theorem doubleDot_iff :
    ∀ s : List Char, (doubleDot s 0 = true ↔ TwoDots s) ∧
      (∀ n, 1 ≤ n → (doubleDot s n = true ↔ DotAhead s ∨ TwoDots s)) := by
  intro s
  induction s with
  | nil => simp [doubleDot, not_dotAhead_nil, not_twoDots_nil]
  | cons c cs ih =>
    by_cases hd : c = '.'
    · subst hd
      constructor
      · rw [twoDots_dot]
        simpa [doubleDot] using ih.2 1 (le_refl 1)
      · intro n hn
        simp [doubleDot, hn, dotAhead_dot]
    · by_cases hdig : isDigit c = true
      · constructor
        · rw [twoDots_cons_ne c cs hd]
          simpa [doubleDot, hd, hdig] using ih.1
        · intro n hn
          rw [twoDots_cons_ne c cs hd, dotAhead_cons_digit c cs hdig]
          simpa [doubleDot, hd, hdig] using ih.2 n hn
      · have hnc : isNumChar c = false := by simp [isNumChar, hd, hdig]
        constructor
        · rw [twoDots_cons_ne c cs hd]
          simpa [doubleDot, hd, hdig] using ih.1
        · intro n _
          rw [twoDots_cons_ne c cs hd]
          have := not_dotAhead_cons_other c cs hnc
          simpa [doubleDot, hd, hdig, this] using ih.1

theorem dotAhead_of_count :
    ∀ l : List Char, (∀ c ∈ l, isNumChar c = true) → 1 ≤ l.count '.' → DotAhead l := by
  intro l
  induction l with
  | nil => intro _ h; simp at h
  | cons c cs ih =>
    intro hall hc
    by_cases hd : c = '.'
    · subst hd; exact dotAhead_dot cs
    · have hdig : isDigit c = true := by
        have := hall c (List.mem_cons_self _ _)
        simp only [isNumChar, Bool.or_eq_true, beq_iff_eq] at this
        tauto
      rw [dotAhead_cons_digit c cs hdig]
      apply ih (fun x hx => hall x (List.mem_cons_of_mem _ hx))
      rw [List.count_cons_of_ne (Ne.symm hd)] at hc
      exact hc

theorem twoDots_of_count :
    ∀ l : List Char, (∀ c ∈ l, isNumChar c = true) → 2 ≤ l.count '.' → TwoDots l := by
  intro l
  induction l with
  | nil => intro _ h; simp at h
  | cons c cs ih =>
    intro hall hc
    have hcs : ∀ x ∈ cs, isNumChar x = true := fun x hx => hall x (List.mem_cons_of_mem _ hx)
    by_cases hd : c = '.'
    · subst hd
      rw [twoDots_dot]
      left
      apply dotAhead_of_count cs hcs
      rw [List.count_cons_self] at hc
      omega
    · rw [twoDots_cons_ne c cs hd]
      apply ih hcs
      rw [List.count_cons_of_ne (Ne.symm hd)] at hc
      exact hc

theorem twoDots_append (pre l post : List Char) (h : TwoDots l) : TwoDots (pre ++ l ++ post) := by
  obtain ⟨p, q, he, mid, r, hq, hm⟩ := h
  refine ⟨pre ++ p, q ++ post, by simp [he], mid, r ++ post, by simp [hq], hm⟩

theorem extend_left (post : List Char) :
    ∀ (pre run : List Char), (∀ c ∈ run, isNumChar c = true) → 2 ≤ run.count '.' →
      ∃ pre1 run1 : List Char, pre ++ run ++ post = pre1 ++ run1 ++ post ∧
        (∀ c ∈ run1, isNumChar c = true) ∧ 2 ≤ run1.count '.' ∧
        (∀ c, pre1.getLast? = some c → isNumChar c = false) := by
  intro pre
  induction pre using List.reverseRecOn with
  | nil =>
    intro run h1 h2
    exact ⟨[], run, rfl, h1, h2, by simp⟩
  | append_singleton p x ih =>
    intro run h1 h2
    by_cases hx : isNumChar x = true
    · obtain ⟨pre1, run1, he, ha, hb, hc⟩ := ih (x :: run)
        (by
          intro c hc
          rcases List.mem_cons.1 hc with rfl | hc
          · exact hx
          · exact h1 c hc)
        (by
          have := List.count_le_count_cons (a := '.') (b := x) (l := run)
          omega)
      exact ⟨pre1, run1, by simpa using he, ha, hb, hc⟩
    · refine ⟨p ++ [x], run, rfl, h1, h2, ?_⟩
      intro c hc
      rw [List.getLast?_append, List.getLast?_singleton] at hc
      simp only [Option.or, Option.some.injEq] at hc
      subst hc
      simpa using hx

theorem extend_right (pre : List Char) :
    ∀ (post run : List Char), (∀ c ∈ run, isNumChar c = true) → 2 ≤ run.count '.' →
      ∃ run1 post1 : List Char, pre ++ run ++ post = pre ++ run1 ++ post1 ∧
        (∀ c ∈ run1, isNumChar c = true) ∧ 2 ≤ run1.count '.' ∧
        (∀ c, post1.head? = some c → isNumChar c = false) := by
  intro post
  induction post with
  | nil =>
    intro run h1 h2
    exact ⟨run, [], rfl, h1, h2, by simp⟩
  | cons x po ih =>
    intro run h1 h2
    by_cases hx : isNumChar x = true
    · obtain ⟨run1, post1, he, ha, hb, hc⟩ := ih (run ++ [x])
        (by
          intro c hc
          rcases List.mem_append.1 hc with hc | hc
          · exact h1 c hc
          · simp only [List.mem_singleton] at hc
            subst hc
            exact hx)
        (by
          rw [List.count_append]
          omega)
      exact ⟨run1, post1, by simpa using he, ha, hb, hc⟩
    · refine ⟨run, x :: po, rfl, h1, h2, ?_⟩
      intro c hc
      simp only [List.head?_cons, Option.some.injEq] at hc
      subst hc
      simpa using hx

theorem twoDots_iff_hasDoubleDotRun (s : List Char) : TwoDots s ↔ HasDoubleDotRun s := by
  constructor
  · rintro ⟨pre, post, he, mid, r, hq, hm⟩
    have hrun : ∀ c ∈ '.' :: (mid ++ ['.']), isNumChar c = true := by
      intro c hc
      simp only [List.mem_cons, List.mem_append, List.mem_singleton, List.not_mem_nil,
        or_false] at hc
      rcases hc with rfl | hc | rfl
      · decide
      · simp [isNumChar, hm c hc]
      · decide
    have hcount : 2 ≤ ('.' :: (mid ++ ['.'])).count '.' := by
      rw [List.count_cons_self, List.count_append]
      simp
    obtain ⟨pre1, run1, h1, h2, h3, h4⟩ := extend_left r pre _ hrun hcount
    obtain ⟨run2, post2, h5, h6, h7, h8⟩ := extend_right pre1 r run1 h2 h3
    refine ⟨pre1, run2, post2, ?_, h6, h4, h8, h7⟩
    rw [← h5, ← h1, he, hq]
    simp
  · rintro ⟨pre, run, post, he, h1, _, _, h2⟩
    rw [he]
    exact twoDots_append pre run post (twoDots_of_count run h1 h2)

/-- C7: on an input made only of digits, `.`, spaces and the characters `+ - * / ^ !`,
`parseInput` returns the error sentinel if and only if some maximal run of consecutive
digit-or-`.` characters contains two or more `.` characters. -/
theorem parseInput_multiple_decimal_points (P : Backend) (input : List Char)
    (exp : Expression) (h : ∀ c ∈ input, plainChar c = true) :
    (parseInput P input exp).ret = some SENTINEL ↔ HasDoubleDotRun input := by
  rw [← twoDots_iff_hasDoubleDotRun, ← (doubleDot_iff input).1]
  exact parseLoop_doubleDot P (input.length + 1) input true exp (Nat.lt_succ_self _) h

/-- Witness of C7: `1.2.3` is rejected and has a run with two decimal points;
`1.2+3.4` is accepted and has none. -/
theorem parseInput_multiple_decimal_points_witness :
    (∀ c ∈ "1.2.3".toList, plainChar c = true) ∧
    (parseInput exactBackend "1.2.3".toList Expression.blank).ret = some SENTINEL ∧
    HasDoubleDotRun "1.2.3".toList ∧
    (parseInput exactBackend "1.2+3.4".toList Expression.blank).ret = none ∧
    ¬ HasDoubleDotRun "1.2+3.4".toList := by
  have h1 : (parseInput exactBackend "1.2.3".toList Expression.blank).ret = some SENTINEL := by
    decide!
  have h2 : (parseInput exactBackend "1.2+3.4".toList Expression.blank).ret = none := by
    decide!
  refine ⟨by decide!, h1, ?_, h2, ?_⟩
  · exact (parseInput_multiple_decimal_points exactBackend "1.2.3".toList Expression.blank
      (by decide!)).1 h1
  · intro hr
    have h3 := (parseInput_multiple_decimal_points exactBackend "1.2+3.4".toList
      Expression.blank (by decide!)).2 hr
    rw [h2] at h3
    exact absurd h3 (by simp)

/-! ## Parser: every iteration consumes input -/

theorem scanNumber_suffix (s : List Char) (num : ℚ) (df : Bool) (dp : ℚ) (n : ℚ)
    (rest : List Char) (h : scanNumber s num df dp = Scan.ok n rest) : rest <:+ s := by
  have h1 := scanNumber_doubleDot s num df dp
  rw [h] at h1
  exact h1.2

theorem scanNumber_suffix_tail (c : Char) (cs : List Char) (n : ℚ) (rest : List Char)
    (hc : isNumChar c = true) (h : scanNumber (c :: cs) 0 false 1 = Scan.ok n rest) :
    rest <:+ cs := by
  have h1 := scanNumber_start c cs hc
  rw [h] at h1
  exact h1.2

theorem parseBody_progress (P : Backend) (c : Char) (cs : List Char) (cm : Bool)
    (e : Expression) (st1 : ParseState)
    (h : parseBody P ⟨c :: cs, cm, e⟩ = Step.next st1) : st1.rest <:+ cs := by
  unfold parseBody at h
  simp only [peek_zero_cons] at h
  split_ifs at h with h1 h2 h3 h4 h5 h6 h7 h8 h9
  · cases h; exact List.suffix_refl _
  · cases hs : scanNumber (List.drop 3 (c :: cs)) 0 false 1 with
    | multipleDots => rw [hs] at h; cases h
    | ok n rest =>
      rw [hs] at h
      cases h
      exact (scanNumber_suffix _ _ _ _ _ _ hs).trans (List.drop_suffix 2 cs)
  · cases h
    exact (scanDigits_doubleDot cs 0).2
  · cases hs : scanNumber (List.drop 2 (c :: cs)) 0 false 1 with
    | multipleDots => rw [hs] at h; cases h
    | ok n rest =>
      rw [hs] at h
      cases h
      exact (scanNumber_suffix _ _ _ _ _ _ hs).trans (List.drop_suffix 1 cs)
  · cases hs : scanNumber (List.drop 3 (c :: cs)) 0 false 1 with
    | multipleDots => rw [hs] at h; cases h
    | ok n rest =>
      rw [hs] at h
      cases h
      exact (scanNumber_suffix _ _ _ _ _ _ hs).trans (List.drop_suffix 2 cs)
  · cases h; exact List.suffix_refl _
  · cases hs : scanNumber (List.drop 1 (c :: cs)) 0 false 1 with
    | multipleDots => rw [hs] at h; cases h
    | ok n rest =>
      rw [hs] at h
      cases h
      exact scanNumber_suffix _ _ _ _ _ _ hs
  · cases hs : scanNumber (c :: cs) 0 false 1 with
    | multipleDots => rw [hs] at h; cases h
    | ok n rest =>
      rw [hs] at h
      cases h
      exact scanNumber_suffix_tail c cs n rest h8 hs
  · cases h; exact List.suffix_refl _

theorem peek_ne_NUL {s : List Char} (h : peek s 0 ≠ NUL) :
    ∃ c cs, s = c :: cs ∧ c ≠ NUL := by
  cases s with
  | nil => exact absurd (peek_nil 0) h
  | cons c cs => exact ⟨c, cs, rfl, h⟩

/-- More fuel than the length of the unread input never changes the outcome of the
loop of `parseInput`. -/
theorem parseLoop_fuel (P : Backend) (fuel : Nat) :
    ∀ (extra : Nat) (st : ParseState), st.rest.length < fuel →
      parseLoop P (fuel + extra) st = parseLoop P fuel st := by
  induction fuel with
  | zero => intro extra st h; omega
  | succ n ih =>
    intro extra st h
    have hx : n + 1 + extra = (n + extra) + 1 := by omega
    rw [hx]
    obtain ⟨s, cm, e⟩ := st
    cases s with
    | nil => rw [parseLoop_nil, parseLoop_nil]
    | cons c cs =>
      by_cases hc : c = NUL
      · simp [parseLoop, peek_zero_cons, hc]
      · rw [parseLoop_cons P _ c cs cm e hc, parseLoop_cons P _ c cs cm e hc]
        cases hb : parseBody P ⟨c :: cs, cm, e⟩ with
        | fail e1 => rfl
        | next st1 =>
          have hs := (parseBody_progress P c cs cm e st1 hb).length_le
          simp only [List.length_cons] at h
          exact ih extra st1 (by omega)

theorem stateAfter_succ (P : Backend) (st0 st : ParseState) (n : Nat)
    (h : stateAfter P st0 (n + 1) = some st) :
    ∃ s c cs, stateAfter P st0 n = some s ∧ s.rest = c :: cs ∧ c ≠ NUL ∧
      parseBody P s = Step.next st := by
  rw [stateAfter] at h
  cases hs : stateAfter P st0 n with
  | none => rw [hs] at h; cases h
  | some s =>
    rw [hs] at h
    simp only at h
    by_cases hn : peek s.rest 0 = NUL
    · rw [if_pos hn] at h; cases h
    · rw [if_neg hn] at h
      obtain ⟨c, cs, hr, hc⟩ := peek_ne_NUL hn
      cases hb : parseBody P s with
      | fail e1 => rw [hb] at h; cases h
      | next st1 =>
        rw [hb] at h
        cases h
        exact ⟨s, c, cs, rfl, hr, hc, hb⟩

theorem stateAfter_length (P : Backend) (st0 : ParseState) (n : Nat) :
    ∀ st, stateAfter P st0 n = some st → st.rest.length + n ≤ st0.rest.length := by
  induction n with
  | zero => intro st h; cases h; simp
  | succ n ih =>
    intro st h
    obtain ⟨s, c, cs, hs, hr, _, hb⟩ := stateAfter_succ P st0 st n h
    have h1 := ih s hs
    obtain ⟨sr, scm, se⟩ := s
    simp only at hr
    subst hr
    have h2 := (parseBody_progress P c cs scm se st hb).length_le
    simp only [List.length_cons] at h1
    omega

theorem parseLoop_stateAfter (P : Backend) (st0 : ParseState) (n : Nat) :
    ∀ st, stateAfter P st0 n = some st →
      ∀ fuel, parseLoop P (fuel + n) st0 = parseLoop P fuel st := by
  induction n with
  | zero => intro st h fuel; cases h; rfl
  | succ n ih =>
    intro st h fuel
    obtain ⟨s, c, cs, hs, hr, hc, hb⟩ := stateAfter_succ P st0 st n h
    have h1 := ih s hs (fuel + 1)
    have hx : fuel + (n + 1) = fuel + 1 + n := by omega
    rw [hx, h1]
    obtain ⟨sr, scm, se⟩ := s
    simp only at hr
    subst hr
    rw [parseLoop_cons P fuel c cs scm se hc, hb]

theorem keywordAt_iff (s : List Char) :
    keywordAt s ↔
      (peek s 0 = 's' ∧ peek s 1 = 'i' ∧ peek s 2 = 'n') ∨
      (peek s 0 = 'c' ∧ peek s 1 = 'o' ∧ peek s 2 = 's') ∨
      (peek s 0 = 't' ∧ peek s 1 = 'a' ∧ peek s 2 = 'n') ∨
      (peek s 0 = 'l' ∧ peek s 1 = 'n') ∨
      (peek s 0 = 'e' ∧ peek s 1 = 'x' ∧ peek s 2 = 'p') := by
  rcases s with _ | ⟨a, _ | ⟨b, _ | ⟨c, s⟩⟩⟩ <;>
    simp [keywordAt, peek, NUL, List.prefix_cons_inj, List.cons_prefix_cons,
      eq_comm (a := 's'), eq_comm (a := 'i'), eq_comm (a := 'n'), eq_comm (a := 'c'),
      eq_comm (a := 'o'), eq_comm (a := 't'), eq_comm (a := 'a'), eq_comm (a := 'l'),
      eq_comm (a := 'e'), eq_comm (a := 'x'), eq_comm (a := 'p')]

theorem parseBody_invalid (P : Backend) (c : Char) (cs : List Char) (cm : Bool)
    (e : Expression) (hplain : plainChar c = false) (hkw : ¬ keywordAt (c :: cs)) :
    parseBody P ⟨c :: cs, cm, e⟩ = Step.fail e := by
  rw [keywordAt_iff] at hkw
  simp only [not_or, peek_zero_cons] at hkw
  simp only [plainChar, isOperator, Bool.or_eq_false_iff, beq_eq_false_iff_ne, ne_eq] at hplain
  obtain ⟨⟨⟨hdig, hdot⟩, hsp⟩, ⟨⟨⟨⟨hplus, hminus⟩, hmul⟩, hdiv⟩, hpow⟩, hbang⟩ := hplain
  have hop : isOperator c = false := by simp [isOperator, *]
  have htrig : ¬ ((c = 's' ∧ peek (c :: cs) 1 = 'i' ∧ peek (c :: cs) 2 = 'n') ∨
      (c = 'c' ∧ peek (c :: cs) 1 = 'o' ∧ peek (c :: cs) 2 = 's') ∨
      (c = 't' ∧ peek (c :: cs) 1 = 'a' ∧ peek (c :: cs) 2 = 'n')) := by
    rintro (h | h | h)
    · exact hkw.1 h
    · exact hkw.2.1 h
    · exact hkw.2.2.1 h
  unfold parseBody
  simp only [peek_zero_cons]
  rw [if_neg hsp, if_neg htrig, if_neg hbang, if_neg hkw.2.2.2.1, if_neg hkw.2.2.2.2,
    if_neg (fun h => hminus h.1), if_neg (by simp [hdig, hdot]), if_neg (by simp [hop])]

theorem parseInput_invalid_first (P : Backend) (c : Char) (cs : List Char) (exp : Expression)
    (hnul : c ≠ NUL) (hplain : plainChar c = false) (hkw : ¬ keywordAt (c :: cs)) :
    parseInput P (c :: cs) exp = ⟨exp, some SENTINEL⟩ := by
  unfold parseInput
  rw [parseLoop_cons P _ c cs true exp hnul, parseBody_invalid P c cs true exp hplain hkw]

/-- C8: when the scan of `parseInput` reaches, at the start of a token, a character
that is not a space, a digit, `.`, one of `+ - * / ^ !`, or the first letter of an
exactly matched lower-case keyword, `parseInput` returns the error sentinel there,
leaving the expression as it was at that point; in particular every spelling of a
keyword with a letter in upper case, whatever follows it, and every proper part of a
keyword on a line of its own, is rejected. -/
theorem parseInput_invalid_character (P : Backend) (exp : Expression) :
    (∀ (input : List Char) (n : Nat) (st : ParseState) (c : Char) (cs : List Char),
      stateAfter P ⟨input, true, exp⟩ n = some st → st.rest = c :: cs → c ≠ NUL →
      plainChar c = false → ¬ keywordAt (c :: cs) →
      parseInput P input exp = ⟨st.exp, some SENTINEL⟩) ∧
    (∀ kw ∈ keywords, ∀ w ∈ caseVariants kw, w ≠ kw → ∀ rest : List Char,
      parseInput P (w ++ rest) exp = ⟨exp, some SENTINEL⟩) ∧
    (∀ kw ∈ keywords, ∀ p : List Char, p <+: kw → p ≠ [] → p ≠ kw →
      parseInput P p exp = ⟨exp, some SENTINEL⟩) := by
  refine ⟨?_, ?_, ?_⟩
  · intro input n st c cs hreach hrest hnul hplain hkw
    have hlen := stateAfter_length P ⟨input, true, exp⟩ n st hreach
    simp only at hlen
    have hfuel : input.length + 1 = (input.length - n) + 1 + n := by omega
    unfold parseInput
    rw [hfuel, parseLoop_stateAfter P _ n st hreach]
    obtain ⟨sr, scm, se⟩ := st
    simp only at hrest
    subst hrest
    rw [parseLoop_cons P _ c cs scm se hnul, parseBody_invalid P c cs scm se hplain hkw]
  · intro kw hkw w hw hne rest
    simp only [keywords, List.mem_cons, List.mem_singleton, List.not_mem_nil, or_false] at hkw
    rcases hkw with rfl | rfl | rfl | rfl | rfl <;>
      (simp only [String.toList, caseVariants, List.map, List.append, List.cons_append,
          List.nil_append, List.mem_cons, List.not_mem_nil, or_false] at hw
       rcases hw with rfl | rfl | rfl | rfl | rfl | rfl | rfl | rfl <;>
         first
         | exact absurd rfl hne
         | (apply parseInput_invalid_first
            · decide
            · decide
            · rw [keywordAt_iff]; simp [peek]; try decide))
  · intro kw hkw p hp hne hne2
    simp only [keywords, List.mem_cons, List.mem_singleton, List.not_mem_nil, or_false] at hkw
    rcases hkw with rfl | rfl | rfl | rfl | rfl
    · rcases p with _ | ⟨a, _ | ⟨b, _ | ⟨c, _ | ⟨d, p⟩⟩⟩⟩ <;>
        simp only [String.toList, List.cons_prefix_cons, List.prefix_nil, List.nil_prefix,
          and_true, and_false, reduceCtorEq] at hp
      · exact absurd rfl hne
      · subst hp
        exact parseInput_invalid_first P _ _ exp (by decide) (by decide)
          (by rw [keywordAt_iff]; simp [peek]; decide)
      · obtain ⟨rfl, rfl⟩ := hp
        exact parseInput_invalid_first P _ _ exp (by decide) (by decide)
          (by rw [keywordAt_iff]; simp [peek]; decide)
      · obtain ⟨rfl, rfl, rfl⟩ := hp
        exact absurd rfl hne2
    · rcases p with _ | ⟨a, _ | ⟨b, _ | ⟨c, _ | ⟨d, p⟩⟩⟩⟩ <;>
        simp only [String.toList, List.cons_prefix_cons, List.prefix_nil, List.nil_prefix,
          and_true, and_false, reduceCtorEq] at hp
      · exact absurd rfl hne
      · subst hp
        exact parseInput_invalid_first P _ _ exp (by decide) (by decide)
          (by rw [keywordAt_iff]; simp [peek]; decide)
      · obtain ⟨rfl, rfl⟩ := hp
        exact parseInput_invalid_first P _ _ exp (by decide) (by decide)
          (by rw [keywordAt_iff]; simp [peek]; decide)
      · obtain ⟨rfl, rfl, rfl⟩ := hp
        exact absurd rfl hne2
    · rcases p with _ | ⟨a, _ | ⟨b, _ | ⟨c, _ | ⟨d, p⟩⟩⟩⟩ <;>
        simp only [String.toList, List.cons_prefix_cons, List.prefix_nil, List.nil_prefix,
          and_true, and_false, reduceCtorEq] at hp
      · exact absurd rfl hne
      · subst hp
        exact parseInput_invalid_first P _ _ exp (by decide) (by decide)
          (by rw [keywordAt_iff]; simp [peek]; decide)
      · obtain ⟨rfl, rfl⟩ := hp
        exact parseInput_invalid_first P _ _ exp (by decide) (by decide)
          (by rw [keywordAt_iff]; simp [peek]; decide)
      · obtain ⟨rfl, rfl, rfl⟩ := hp
        exact absurd rfl hne2
    · rcases p with _ | ⟨a, _ | ⟨b, _ | ⟨c, p⟩⟩⟩ <;>
        simp only [String.toList, List.cons_prefix_cons, List.prefix_nil, List.nil_prefix,
          and_true, and_false, reduceCtorEq] at hp
      · exact absurd rfl hne
      · subst hp
        exact parseInput_invalid_first P _ _ exp (by decide) (by decide)
          (by rw [keywordAt_iff]; simp [peek]; decide)
      · obtain ⟨rfl, rfl⟩ := hp
        exact absurd rfl hne2
    · rcases p with _ | ⟨a, _ | ⟨b, _ | ⟨c, _ | ⟨d, p⟩⟩⟩⟩ <;>
        simp only [String.toList, List.cons_prefix_cons, List.prefix_nil, List.nil_prefix,
          and_true, and_false, reduceCtorEq] at hp
      · exact absurd rfl hne
      · subst hp
        exact parseInput_invalid_first P _ _ exp (by decide) (by decide)
          (by rw [keywordAt_iff]; simp [peek]; decide)
      · obtain ⟨rfl, rfl⟩ := hp
        exact parseInput_invalid_first P _ _ exp (by decide) (by decide)
          (by rw [keywordAt_iff]; simp [peek]; decide)
      · obtain ⟨rfl, rfl, rfl⟩ := hp
        exact absurd rfl hne2

/-- Witness of C8: `SIN90`, `Ln1`, `Exp0`, `si` and `e` are rejected at their first
character, and `2+x` at the `x` reached after two iterations. -/
theorem parseInput_invalid_character_witness :
    parseInput exactBackend "SIN90".toList Expression.blank =
      ⟨Expression.blank, some SENTINEL⟩ ∧
    parseInput exactBackend "Ln1".toList Expression.blank =
      ⟨Expression.blank, some SENTINEL⟩ ∧
    parseInput exactBackend "Exp0".toList Expression.blank =
      ⟨Expression.blank, some SENTINEL⟩ ∧
    parseInput exactBackend "si".toList Expression.blank =
      ⟨Expression.blank, some SENTINEL⟩ ∧
    parseInput exactBackend "e".toList Expression.blank =
      ⟨Expression.blank, some SENTINEL⟩ ∧
    (parseInput exactBackend "2+x".toList Expression.blank).ret = some SENTINEL ∧
    (parseInput exactBackend "2+x".toList Expression.blank).exp.numCount = 1 ∧
    (parseInput exactBackend "2+x".toList Expression.blank).exp.opCount = 1 := by
  have h := (parseInput_invalid_character exactBackend Expression.blank).1
  have h2 := h "2+x".toList 2
    ⟨['x'], true, (Expression.blank.pushNumber (0 * 10 + digitVal '2')).pushOperator '+'⟩
    'x' [] rfl rfl (by decide) (by decide) (by rw [keywordAt_iff]; simp [peek])
  refine ⟨?_, ?_, ?_, ?_, ?_, ?_, ?_, ?_⟩
  · exact h "SIN90".toList 0 ⟨"SIN90".toList, true, Expression.blank⟩ 'S' "IN90".toList
      rfl rfl (by decide) (by decide) (by rw [keywordAt_iff]; simp [peek])
  · exact h "Ln1".toList 0 ⟨"Ln1".toList, true, Expression.blank⟩ 'L' "n1".toList
      rfl rfl (by decide) (by decide) (by rw [keywordAt_iff]; simp [peek])
  · exact h "Exp0".toList 0 ⟨"Exp0".toList, true, Expression.blank⟩ 'E' "xp0".toList
      rfl rfl (by decide) (by decide) (by rw [keywordAt_iff]; simp [peek])
  · exact h "si".toList 0 ⟨"si".toList, true, Expression.blank⟩ 's' "i".toList
      rfl rfl (by decide) (by decide) (by rw [keywordAt_iff]; simp [peek]; decide)
  · exact h "e".toList 0 ⟨"e".toList, true, Expression.blank⟩ 'e' []
      rfl rfl (by decide) (by decide) (by rw [keywordAt_iff]; simp [peek]; decide)
  · rw [h2]
  · rw [h2]; rfl
  · rw [h2]; rfl

/-! ## Parser: composing iterations -/

theorem stateAfter_add (P : Backend) (a b c : ParseState) (n : Nat)
    (h1 : stateAfter P a n = some b) :
    ∀ m, stateAfter P b m = some c → stateAfter P a (n + m) = some c := by
  intro m
  induction m generalizing c with
  | zero => intro h; cases h; exact h1
  | succ m ih =>
    intro h
    obtain ⟨s, x, xs, hs, hr, hx, hb⟩ := stateAfter_succ P b c m h
    have h2 := ih s hs
    have hp : peek s.rest 0 ≠ NUL := by rw [hr]; exact hx
    show stateAfter P a (n + m + 1) = some c
    rw [stateAfter, h2]
    simp only [hp, if_false, hb]

theorem Reaches.refl (P : Backend) (a : ParseState) : Reaches P a a := ⟨0, rfl⟩

theorem Reaches.trans {P : Backend} {a b c : ParseState} (h1 : Reaches P a b)
    (h2 : Reaches P b c) : Reaches P a c := by
  obtain ⟨n, hn⟩ := h1
  obtain ⟨m, hm⟩ := h2
  exact ⟨n + m, stateAfter_add P a b c n hn m hm⟩

theorem Reaches.step {P : Backend} {c : Char} {cs : List Char} {cm : Bool} {e : Expression}
    {b : ParseState} (hc : c ≠ NUL) (h : parseBody P ⟨c :: cs, cm, e⟩ = Step.next b) :
    Reaches P ⟨c :: cs, cm, e⟩ b := by
  refine ⟨1, ?_⟩
  show (match stateAfter P ⟨c :: cs, cm, e⟩ 0 with
    | none => none
    | some s => if peek s.rest 0 = NUL then none else
      match parseBody P s with
      | Step.next s1 => some s1
      | Step.fail _ => none) = some b
  simp only [stateAfter, peek_zero_cons, hc, if_false, h]

/-- A run that ends with all input read makes `parseInput` leave its loop without a
`return`, with the expression of the last state. -/
theorem parseInput_of_reaches_nil (P : Backend) (input : List Char) (exp : Expression)
    (cm : Bool) (e : Expression) (h : Reaches P ⟨input, true, exp⟩ ⟨[], cm, e⟩) :
    parseInput P input exp = ⟨e, none⟩ := by
  obtain ⟨n, hn⟩ := h
  have hlen := stateAfter_length P _ n _ hn
  simp only [List.length_nil] at hlen
  have hfuel : input.length + 1 = (input.length - n) + 1 + n := by omega
  unfold parseInput
  rw [hfuel, parseLoop_stateAfter P _ n _ hn, parseLoop_nil]

theorem reaches_spaces (P : Backend) (n : Nat) (s : List Char) (cm : Bool) (e : Expression) :
    Reaches P ⟨List.replicate n ' ' ++ s, cm, e⟩ ⟨s, cm, e⟩ := by
  induction n with
  | zero => exact Reaches.refl P _
  | succ n ih =>
    have h1 : List.replicate (n + 1) ' ' ++ s = ' ' :: (List.replicate n ' ' ++ s) := rfl
    rw [h1]
    exact (Reaches.step (by decide) (parseBody_space P _ cm e)).trans ih

theorem reaches_operator (P : Backend) (c : Char) (s : List Char) (e : Expression)
    (h : isBinary c = true) :
    Reaches P ⟨c :: s, false, e⟩ ⟨s, true, e.pushOperator c⟩ := by
  have hc : c = '+' ∨ c = '*' ∨ c = '/' ∨ c = '^' ∨ (c = '-' ∧ false = false) := by
    simp only [isBinary, Bool.or_eq_true, beq_iff_eq] at h
    tauto
  have hnul : c ≠ NUL := by
    rcases hc with rfl | rfl | rfl | rfl | ⟨rfl, _⟩ <;> decide
  exact Reaches.step hnul (parseBody_operator P c s false e hc)

/-! ## Parser: scanning a literal -/

theorem scanNumber_append (t : List Char) (ht : isNumChar (peek t 0) = false) :
    ∀ (l : List Char) (num : ℚ) (df : Bool) (dp : ℚ),
      (∀ c ∈ l, isNumChar c = true) → l.count '.' + (if df then 1 else 0) ≤ 1 →
      ∃ v, scanNumber (l ++ t) num df dp = Scan.ok v t ∧ scanNumber l num df dp = Scan.ok v [] := by
  intro l
  induction l with
  | nil =>
    intro num df dp _ _
    refine ⟨num, ?_, rfl⟩
    cases t with
    | nil => rfl
    | cons x xs =>
      have hx : (isDigit x || x == '.') = false := ht
      simp [scanNumber, hx]
  | cons c cs ih =>
    intro num df dp hall hcount
    have hc : (isDigit c || c == '.') = true := hall c (List.mem_cons_self _ _)
    have hcs : ∀ x ∈ cs, isNumChar x = true := fun x hx => hall x (List.mem_cons_of_mem _ hx)
    simp only [List.cons_append, scanNumber, hc, if_true]
    by_cases hd : c = '.'
    · subst hd
      rw [List.count_cons_self] at hcount
      have hdf : df = false := by
        cases df with
        | false => rfl
        | true => simp at hcount
      subst hdf
      simp only [Bool.false_eq_true, if_false, if_true]
      exact ih num true dp hcs (by simp only [if_true]; omega)
    · rw [List.count_cons_of_ne (Ne.symm hd)] at hcount
      simp only [hd, if_false]
      cases df with
      | true => exact ih _ true _ hcs hcount
      | false => exact ih _ false _ hcs hcount

theorem scanNumber_literal (l t : List Char) (hl : isNumber l = true)
    (ht : isNumChar (peek t 0) = false) :
    scanNumber (l ++ t) 0 false 1 = Scan.ok (literalValue l) t := by
  simp only [isNumber, Bool.and_eq_true, List.all_eq_true, decide_eq_true_eq] at hl
  obtain ⟨v, h1, h2⟩ := scanNumber_append t ht l 0 false 1 hl.1 (by simpa using hl.2)
  rw [h1]
  simp only [literalValue, h2]

theorem isNumChar_ne_NUL {c : Char} (h : isNumChar c = true) : c ≠ NUL := by
  rintro rfl
  exact absurd h (by decide)

theorem parseBody_trig (P : Backend) (a b c : Char) (s : List Char) (cm : Bool)
    (e : Expression)
    (h : (a = 's' ∧ b = 'i' ∧ c = 'n') ∨ (a = 'c' ∧ b = 'o' ∧ c = 's') ∨
      (a = 't' ∧ b = 'a' ∧ c = 'n')) :
    parseBody P ⟨a :: b :: c :: s, cm, e⟩ =
      match scanNumber s 0 false 1 with
      | Scan.multipleDots => Step.fail e
      | Scan.ok num rest =>
        Step.next ⟨rest, false, e.pushNumber (performTrigFunction P num a b c)⟩ := by
  rcases h with ⟨rfl, rfl, rfl⟩ | ⟨rfl, rfl, rfl⟩ | ⟨rfl, rfl, rfl⟩ <;> simp [parseBody, peek]

theorem parseBody_ln (P : Backend) (s : List Char) (cm : Bool) (e : Expression) :
    parseBody P ⟨'l' :: 'n' :: s, cm, e⟩ =
      match scanNumber s 0 false 1 with
      | Scan.multipleDots => Step.fail e
      | Scan.ok num rest => Step.next ⟨rest, false, e.pushNumber (performLnFunction P num)⟩ := by
  simp [parseBody, peek]

theorem parseBody_exp (P : Backend) (s : List Char) (cm : Bool) (e : Expression) :
    parseBody P ⟨'e' :: 'x' :: 'p' :: s, cm, e⟩ =
      match scanNumber s 0 false 1 with
      | Scan.multipleDots => Step.fail e
      | Scan.ok num rest => Step.next ⟨rest, false, e.pushNumber (performExpFunction P num)⟩ := by
  simp [parseBody, peek]

/-- Reading one well-formed operand, in sign position, followed by something that
does not continue a number: its value is stored and `checkMinus` is cleared. -/
theorem reaches_operand (P : Backend) (o : Operand) (t : List Char) (e : Expression)
    (ho : o.wf) (ht : isNumChar (peek t 0) = false) :
    Reaches P ⟨o.text ++ t, true, e⟩ ⟨t, false, e.pushNumber (o.value P)⟩ := by
  cases o with
  | number neg lit =>
    obtain ⟨hne, hnum⟩ := ho
    have hall : ∀ c ∈ lit, isNumChar c = true := by
      simp only [isNumber, Bool.and_eq_true, List.all_eq_true] at hnum
      exact hnum.1
    cases lit with
    | nil => exact absurd rfl hne
    | cons c l =>
      have hc := hall c (List.mem_cons_self _ _)
      cases neg with
      | false =>
        apply Reaches.step (isNumChar_ne_NUL hc)
        show parseBody P ⟨c :: (l ++ t), true, e⟩ = _
        rw [parseBody_number P c _ true e hc]
        have hs := scanNumber_literal (c :: l) t hnum ht
        rw [List.cons_append] at hs
        rw [hs]
        rfl
      | true =>
        apply Reaches.step (c := '-') (by decide)
        show parseBody P ⟨'-' :: (c :: l ++ t), true, e⟩ = _
        rw [parseBody_minus_sign P _ e (by simpa [peek_zero_cons] using hc),
          scanNumber_literal (c :: l) t hnum ht]
        rfl
  | call kw lit =>
    obtain ⟨hkw, hnum⟩ := ho
    have hs := scanNumber_literal lit t hnum ht
    simp only [keywords, List.mem_cons, List.mem_singleton, List.not_mem_nil, or_false] at hkw
    rcases hkw with rfl | rfl | rfl | rfl | rfl
    · apply Reaches.step (c := 's') (by decide)
      show parseBody P ⟨'s' :: 'i' :: 'n' :: (lit ++ t), true, e⟩ = _
      rw [parseBody_trig P _ _ _ _ _ _ (by simp), hs]
      rfl
    · apply Reaches.step (c := 'c') (by decide)
      show parseBody P ⟨'c' :: 'o' :: 's' :: (lit ++ t), true, e⟩ = _
      rw [parseBody_trig P _ _ _ _ _ _ (by simp), hs]
      rfl
    · apply Reaches.step (c := 't') (by decide)
      show parseBody P ⟨'t' :: 'a' :: 'n' :: (lit ++ t), true, e⟩ = _
      rw [parseBody_trig P _ _ _ _ _ _ (by simp), hs]
      rfl
    · apply Reaches.step (c := 'l') (by decide)
      show parseBody P ⟨'l' :: 'n' :: (lit ++ t), true, e⟩ = _
      rw [parseBody_ln, hs]
      rfl
    · apply Reaches.step (c := 'e') (by decide)
      show parseBody P ⟨'e' :: 'x' :: 'p' :: (lit ++ t), true, e⟩ = _
      rw [parseBody_exp, hs]
      rfl

theorem isBinary_not_numChar {c : Char} (h : isBinary c = true) : isNumChar c = false := by
  simp only [isBinary, Bool.or_eq_true, beq_iff_eq] at h
  rcases h with (((rfl | rfl) | rfl) | rfl) | rfl <;> decide

theorem peek_replicate_space (n : Nat) (s : List Char)
    (hs : isNumChar (peek s 0) = false) :
    isNumChar (peek (List.replicate n ' ' ++ s) 0) = false := by
  cases n with
  | zero => simpa using hs
  | succ n => rfl

theorem peek_renderItems (items : List Item) (trail : Nat)
    (h : ∀ it ∈ items, isBinary it.op = true ∧ it.operand.wf) :
    isNumChar (peek (renderItems items ++ List.replicate trail ' ') 0) = false := by
  cases items with
  | nil =>
    have := peek_replicate_space trail [] (by decide)
    simpa [renderItems] using this
  | cons it r =>
    have hop := (h it (List.mem_cons_self _ _)).1
    simp only [renderItems, List.append_assoc, List.cons_append]
    exact peek_replicate_space _ _ (by simpa [peek_zero_cons] using isBinary_not_numChar hop)

theorem reaches_items (P : Backend) (trail : Nat) :
    ∀ (items : List Item) (e : Expression) (k : Nat),
      (∀ it ∈ items, isBinary it.op = true ∧ it.operand.wf) →
      e.numCount = (k : Int) + 1 → e.opCount = (k : Int) →
      ∃ e1 : Expression,
        Reaches P ⟨renderItems items ++ List.replicate trail ' ', false, e⟩ ⟨[], false, e1⟩ ∧
        e1.opCount = (k : Int) + (items.length : Int) ∧
        e1.numCount = e1.opCount + 1 ∧
        (∀ j, j ≤ k → e1.numbers j = e.numbers j) ∧
        (∀ j, j < k → e1.operators j = e.operators j) ∧
        e1.pairsFrom k items.length = items.map (fun it => (it.op, it.operand.value P)) := by
  intro items
  induction items with
  | nil =>
    intro e k _ hn ho
    refine ⟨e, ?_, by simpa using ho, by rw [hn, ho], fun _ _ => rfl, fun _ _ => rfl, rfl⟩
    have := reaches_spaces P trail [] false e
    simpa [renderItems] using this
  | cons it r ih =>
    intro e k h hn ho
    have hit := h it (List.mem_cons_self _ _)
    have hr : ∀ x ∈ r, isBinary x.op = true ∧ x.operand.wf :=
      fun x hx => h x (List.mem_cons_of_mem _ hx)
    obtain ⟨e1, hreach, h1, h2, h3, h4, h5⟩ :=
      ih ((e.pushOperator it.op).pushNumber (it.operand.value P)) (k + 1) hr
        (by simp [Expression.pushNumber, Expression.pushOperator, hn])
        (by simp [Expression.pushNumber, Expression.pushOperator, ho])
    have htext : renderItems (it :: r) ++ List.replicate trail ' ' =
        List.replicate it.before ' ' ++ (it.op :: (List.replicate it.after ' ' ++
          (it.operand.text ++ (renderItems r ++ List.replicate trail ' ')))) := by
      simp [renderItems]
    have hnk : e.numCount.toNat = k + 1 := by omega
    have hok : e.opCount.toNat = k := by omega
    refine ⟨e1, ?_, ?_, h2, ?_, ?_, ?_⟩
    · rw [htext]
      exact (reaches_spaces P _ _ false e).trans
        ((reaches_operator P it.op _ e hit.1).trans
          ((reaches_spaces P _ _ true _).trans
            ((reaches_operand P it.operand _ _ hit.2 (peek_renderItems r trail hr)).trans
              hreach)))
    · rw [h1]; simp; omega
    · intro j hj
      rw [h3 j (by omega)]
      have hne : j ≠ k + 1 := by omega
      simp [Expression.pushNumber, Expression.pushOperator, hnk, hne]
    · intro j hj
      rw [h4 j (by omega)]
      have hne : j ≠ k := by omega
      simp [Expression.pushNumber, Expression.pushOperator, hok, hne]
    · have ha : e1.operators k = it.op := by
        rw [h4 k (by omega)]
        simp [Expression.pushNumber, Expression.pushOperator, hok]
      have hb : e1.numbers (k + 1) = it.operand.value P := by
        rw [h3 (k + 1) (le_refl _)]
        simp [Expression.pushNumber, Expression.pushOperator, hnk]
      simp only [List.length_cons, Expression.pairsFrom, List.map_cons, ha, hb, h5]

/-- C9 (as amended): on a line `operand (operator operand)*`, with optional spaces
around the tokens, operands that are unsigned or negative literals or a keyword with
its argument, and operators among `+ - * / ^`, `parseInput` started on a fresh
expression reports no error and leaves `numCount == opCount + 1`, at least one
operand, and the operators interleaved between the operands in the order written. -/
theorem parseInput_well_formed_line (P : Backend) (nums : Nat → ℚ) (ops : Nat → Char)
    (lead : Nat) (first : Operand) (items : List Item) (trail : Nat)
    (hfirst : first.wf)
    (hitems : ∀ it ∈ items, isBinary it.op = true ∧ it.operand.wf) :
    (parseInput P (renderLine lead first items trail) (Expression.fresh nums ops)).ret = none ∧
    (parseInput P (renderLine lead first items trail) (Expression.fresh nums ops)).exp.numCount =
      (parseInput P (renderLine lead first items trail) (Expression.fresh nums ops)).exp.opCount
        + 1 ∧
    1 ≤ (parseInput P (renderLine lead first items trail) (Expression.fresh nums ops)).exp.numCount ∧
    (parseInput P (renderLine lead first items trail) (Expression.fresh nums ops)).exp.opCount =
      (items.length : Int) ∧
    (parseInput P (renderLine lead first items trail) (Expression.fresh nums ops)).exp.numbers 0 =
      first.value P ∧
    (parseInput P (renderLine lead first items trail) (Expression.fresh nums ops)).exp.pairs =
      items.map (fun it => (it.op, it.operand.value P)) := by
  obtain ⟨e1, hreach, h1, h2, h3, _, h5⟩ :=
    reaches_items P trail items ((Expression.fresh nums ops).pushNumber (first.value P)) 0
      hitems (by simp [Expression.pushNumber, Expression.fresh])
      (by simp [Expression.pushNumber, Expression.fresh])
  have hparse : parseInput P (renderLine lead first items trail) (Expression.fresh nums ops) =
      ⟨e1, none⟩ := by
    apply parseInput_of_reaches_nil P _ _ false
    unfold renderLine
    exact (reaches_spaces P _ _ true _).trans
      ((reaches_operand P first _ _ hfirst (peek_renderItems items trail hitems)).trans hreach)
  rw [hparse]
  simp only [Nat.cast_zero, zero_add] at h1
  refine ⟨rfl, h2, by simp only []; omega, h1, ?_, ?_⟩
  · simp only []
    rw [h3 0 (le_refl _)]
    simp [Expression.pushNumber, Expression.fresh]
  · simp only [Expression.pairs, h1, Int.toNat_ofNat]
    exact h5

/-- Witness of C9 (as amended): the line ` 12.5 - -3 /sin90` has the required form and
parses to three operands and the two operators `-` and `/`. -/
theorem parseInput_well_formed_line_witness :
    renderLine 1 (Operand.number false "12.5".toList)
      [⟨1, '-', 1, Operand.number true "3".toList⟩,
        ⟨1, '/', 0, Operand.call "sin".toList "90".toList⟩] 0 = " 12.5 - -3 /sin90".toList ∧
    (parseInput exactBackend " 12.5 - -3 /sin90".toList Expression.blank).ret = none ∧
    (parseInput exactBackend " 12.5 - -3 /sin90".toList Expression.blank).exp.numCount = 3 ∧
    (parseInput exactBackend " 12.5 - -3 /sin90".toList Expression.blank).exp.opCount = 2 ∧
    (parseInput exactBackend " 12.5 - -3 /sin90".toList Expression.blank).exp.operators 0 = '-' ∧
    (parseInput exactBackend " 12.5 - -3 /sin90".toList Expression.blank).exp.operators 1 = '/' := by
  have h := parseInput_well_formed_line exactBackend (fun _ => 0) (fun _ => NUL) 1
    (Operand.number false "12.5".toList)
    [⟨1, '-', 1, Operand.number true "3".toList⟩,
      ⟨1, '/', 0, Operand.call "sin".toList "90".toList⟩] 0
    ⟨by decide, by decide⟩
    (by
      intro it hit
      simp only [List.mem_cons, List.mem_singleton, List.not_mem_nil, or_false] at hit
      rcases hit with rfl | rfl
      · exact ⟨by decide, by decide, by decide⟩
      · exact ⟨by decide, by decide, by decide⟩)
  have hline : renderLine 1 (Operand.number false "12.5".toList)
      [⟨1, '-', 1, Operand.number true "3".toList⟩,
        ⟨1, '/', 0, Operand.call "sin".toList "90".toList⟩] 0 = " 12.5 - -3 /sin90".toList := by
    decide
  rw [hline] at h
  have hc : (parseInput exactBackend " 12.5 - -3 /sin90".toList Expression.blank).exp.opCount = 2 :=
    h.2.2.2.1
  refine ⟨hline, h.1, ?_, hc, by decide!, by decide!⟩
  have := h.2.1
  change (parseInput exactBackend " 12.5 - -3 /sin90".toList Expression.blank).exp.numCount =
    (parseInput exactBackend " 12.5 - -3 /sin90".toList Expression.blank).exp.opCount + 1 at this
  rw [this, hc]
  rfl

/-- Counterexample to C9 as stated: on the line `3+` `parseInput` reports no error and
leaves one operand and one operator, so `numCount == opCount + 1` fails. -/
theorem parseInput_dangling_operator :
    (parseInput exactBackend "3+".toList Expression.blank).ret = none ∧
    (parseInput exactBackend "3+".toList Expression.blank).exp.numCount = 1 ∧
    (parseInput exactBackend "3+".toList Expression.blank).exp.opCount = 1 ∧
    ¬ ((parseInput exactBackend "3+".toList Expression.blank).exp.numCount =
      (parseInput exactBackend "3+".toList Expression.blank).exp.opCount + 1) := by
  decide!

/-! ## Parser: the factorial branch -/

theorem digitVal_of_isDigit {c : Char} (h : isDigit c = true) :
    digitVal c = ((c.toNat - '0'.toNat : Nat) : ℚ) := by
  simp only [isDigit, Bool.and_eq_true, decide_eq_true_eq] at h
  unfold digitVal
  rw [← Int.cast_natCast, Nat.cast_sub h.1]
  push_cast
  rfl

theorem scanDigits_append (t : List Char) (ht : isDigit (peek t 0) = false) :
    ∀ (ds : List Char) (n : Nat), (∀ c ∈ ds, isDigit c = true) →
      scanDigits (ds ++ t) (n : ℚ) =
        (((ds.foldl (fun n c => n * 10 + (c.toNat - '0'.toNat)) n : Nat) : ℚ), t) := by
  intro ds
  induction ds with
  | nil =>
    intro n _
    cases t with
    | nil => rfl
    | cons x xs =>
      have hx : isDigit x = false := ht
      simp [scanDigits, hx]
  | cons c cs ih =>
    intro n h
    have hc := h c (List.mem_cons_self _ _)
    simp only [List.cons_append, scanDigits, hc, if_true, List.foldl_cons]
    rw [digitVal_of_isDigit hc]
    have := ih (n * 10 + (c.toNat - '0'.toNat)) (fun x hx => h x (List.mem_cons_of_mem _ hx))
    rw [← this]
    push_cast
    rfl

theorem scanNumber_digits :
    ∀ (ds : List Char) (n : Nat) (dp : ℚ), (∀ c ∈ ds, isDigit c = true) →
      scanNumber ds (n : ℚ) false dp =
        Scan.ok ((ds.foldl (fun n c => n * 10 + (c.toNat - '0'.toNat)) n : Nat) : ℚ) [] := by
  intro ds
  induction ds with
  | nil => intro n dp _; rfl
  | cons c cs ih =>
    intro n dp h
    have hc := h c (List.mem_cons_self _ _)
    have hd : c ≠ '.' := isDigit_ne hc (by decide)
    simp only [scanNumber, hc, Bool.true_or, if_true, hd, if_false, Bool.false_eq_true,
      List.foldl_cons]
    rw [digitVal_of_isDigit hc]
    have := ih (n * 10 + (c.toNat - '0'.toNat)) dp (fun x hx => h x (List.mem_cons_of_mem _ hx))
    rw [← this]
    push_cast
    rfl

theorem literalValue_digits (ds : List Char) (h : ∀ c ∈ ds, isDigit c = true) :
    literalValue ds = (digitsNat ds : ℚ) := by
  have := scanNumber_digits ds 0 1 h
  simp only [Nat.cast_zero] at this
  simp only [literalValue, this, digitsNat]

theorem truncate_natCast (n : Nat) : truncate (n : ℚ) = (n : Int) := by
  simp [truncate]

theorem truncToInt_of_range (P : Backend) (x : ℚ) (h1 : INT_MIN ≤ truncate x)
    (h2 : truncate x ≤ INT_MAX) : truncToInt P x = truncate x := by
  unfold truncToInt
  rw [if_pos ⟨h1, h2⟩]

theorem truncToInt_natCast (P : Backend) (n : Nat) (h : n ≤ 2147483647) :
    truncToInt P (n : ℚ) = (n : Int) := by
  rw [truncToInt_of_range P _ (by rw [truncate_natCast]; unfold INT_MIN; omega)
    (by rw [truncate_natCast]; unfold INT_MAX; omega), truncate_natCast]

theorem performFactorial_natCast (P : Backend) (n : Nat) (h : n ≤ 2147483647) :
    performFactorial P (n : ℚ) = P.factorial (n : Int) := by
  unfold performFactorial
  rw [truncToInt_natCast P n h]

theorem reaches_factorial (P : Backend) (ds t : List Char) (cm : Bool) (e : Expression)
    (hds : ∀ c ∈ ds, isDigit c = true) (ht : isDigit (peek t 0) = false) :
    Reaches P ⟨'!' :: (ds ++ t), cm, e⟩
      ⟨t, cm, e.pushNumber ((performFactorial P (digitsNat ds : ℚ) : Int) : ℚ)⟩ := by
  apply Reaches.step (c := '!') (by decide)
  rw [parseBody_factorial]
  have h := scanDigits_append t ht ds 0 hds
  simp only [Nat.cast_zero] at h
  rw [h]
  rfl

/-- C10 (as amended): on a line made of `!` followed by digits only, the number written
being at most 16777216 (up to there the scan is exact in a 32-bit float, and the value
is an `int`), `parseInput` stores exactly one operand, the external factorial of that
number, and no operator. The factorial branch reads digits only: when a decimal point
and further digits follow, the operand stored first is the factorial of the integer
part and the fractional part is stored as a second operand, still without operator, so
that evaluation returns the factorial. -/
theorem parseInput_factorial (P : Backend) (nums : Nat → ℚ) (ops : Nat → Char)
    (ds frac : List Char) (hds : ∀ c ∈ ds, isDigit c = true)
    (hfrac : ∀ c ∈ frac, isDigit c = true) (hsmall : digitsNat ds ≤ 16777216) :
    ((parseInput P ('!' :: ds) (Expression.fresh nums ops)).ret = none ∧
      (parseInput P ('!' :: ds) (Expression.fresh nums ops)).exp.numCount = 1 ∧
      (parseInput P ('!' :: ds) (Expression.fresh nums ops)).exp.opCount = 0 ∧
      (parseInput P ('!' :: ds) (Expression.fresh nums ops)).exp.numbers 0 =
        ((P.factorial (digitsNat ds : Int) : Int) : ℚ) ∧
      performFactorial P (literalValue ds) = P.factorial (digitsNat ds : Int)) ∧
    ((parseInput P ('!' :: (ds ++ '.' :: frac)) (Expression.fresh nums ops)).ret = none ∧
      (parseInput P ('!' :: (ds ++ '.' :: frac)) (Expression.fresh nums ops)).exp.numCount = 2 ∧
      (parseInput P ('!' :: (ds ++ '.' :: frac)) (Expression.fresh nums ops)).exp.opCount = 0 ∧
      (parseInput P ('!' :: (ds ++ '.' :: frac)) (Expression.fresh nums ops)).exp.numbers 0 =
        ((P.factorial (digitsNat ds : Int) : Int) : ℚ) ∧
      (parseInput P ('!' :: (ds ++ '.' :: frac)) (Expression.fresh nums ops)).exp.numbers 1 =
        literalValue ('.' :: frac) ∧
      evaluateExpression P
        (parseInput P ('!' :: (ds ++ '.' :: frac)) (Expression.fresh nums ops)).exp =
        ((P.factorial (digitsNat ds : Int) : Int) : ℚ)) := by
  have hf : performFactorial P (digitsNat ds : ℚ) = P.factorial (digitsNat ds : Int) :=
    performFactorial_natCast P _ (by omega)
  constructor
  · have hr := reaches_factorial P ds [] true (Expression.fresh nums ops) hds (by decide)
    rw [List.append_nil, hf] at hr
    rw [parseInput_of_reaches_nil P _ _ true _ hr]
    refine ⟨rfl, rfl, rfl, ?_, ?_⟩
    · simp [Expression.pushNumber, Expression.fresh]
    · rw [literalValue_digits ds hds, hf]
  · have hr1 := reaches_factorial P ds ('.' :: frac) true (Expression.fresh nums ops) hds
      (by rw [peek_zero_cons]; decide)
    rw [hf] at hr1
    have hwf : (Operand.number false ('.' :: frac)).wf := by
      refine ⟨by simp, ?_⟩
      have hc : frac.count '.' = 0 := by
        rw [List.count_eq_zero]
        intro hmem
        exact absurd (hfrac _ hmem) (by decide)
      simp only [isNumber, Bool.and_eq_true, List.all_eq_true, decide_eq_true_eq,
        List.count_cons_self, hc]
      refine ⟨?_, by omega⟩
      intro c hc
      rcases List.mem_cons.1 hc with rfl | hc
      · decide
      · simp [isNumChar, hfrac c hc]
    have hr2 := reaches_operand P (Operand.number false ('.' :: frac)) []
      ((Expression.fresh nums ops).pushNumber ((P.factorial (digitsNat ds : Int) : Int) : ℚ))
      hwf (by decide)
    simp only [Operand.text, Bool.false_eq_true, if_false, List.nil_append, List.append_nil,
      Operand.value] at hr2
    rw [parseInput_of_reaches_nil P _ _ false _ (hr1.trans hr2)]
    refine ⟨rfl, rfl, rfl, ?_, ?_, ?_⟩
    · simp [Expression.pushNumber, Expression.fresh]
    · simp [Expression.pushNumber, Expression.fresh]
    · simp [evaluateExpression, powerPass, mulDivPass, reducePass, addSubLoop,
        Expression.pushNumber, Expression.fresh]

/-- Witness of C10 (as amended): `!5` stores the single operand `factorial(5) = 120`;
`!5.5` stores 120 and then 0.5, and evaluates to 120. -/
theorem parseInput_factorial_witness :
    digitsNat "5".toList ≤ 16777216 ∧
    (parseInput exactBackend "!5".toList Expression.blank).ret = none ∧
    (parseInput exactBackend "!5".toList Expression.blank).exp.numCount = 1 ∧
    (parseInput exactBackend "!5".toList Expression.blank).exp.opCount = 0 ∧
    (parseInput exactBackend "!5".toList Expression.blank).exp.numbers 0 = 120 ∧
    (parseInput exactBackend "!5.5".toList Expression.blank).exp.numCount = 2 ∧
    (parseInput exactBackend "!5.5".toList Expression.blank).exp.numbers 0 = 120 ∧
    (parseInput exactBackend "!5.5".toList Expression.blank).exp.numbers 1 = 1 / 2 ∧
    evaluateExpression exactBackend
      (parseInput exactBackend "!5.5".toList Expression.blank).exp = 120 := by
  have h := parseInput_factorial exactBackend (fun _ => 0) (fun _ => NUL) "5".toList "5".toList
    (by decide) (by decide) (by decide)
  exact ⟨by decide, h.1.1, h.1.2.1, h.1.2.2.1, h.1.2.2.2.1.trans (by decide!), h.2.2.1,
    h.2.2.2.2.1.trans (by decide!), h.2.2.2.2.2.1.trans (by decide!),
    h.2.2.2.2.2.2.trans (by decide!)⟩

/-- Counterexample to C10 as stated: for the literal with a fractional part in `!5.7`
`parseInput` stores two operands, not exactly one: first `factorial(5) = 120`, then the
operand scanned from `.7`; no operator is stored. -/
theorem factorial_fraction_second_operand :
    (parseInput exactBackend "!5.7".toList Expression.blank).ret = none ∧
    (parseInput exactBackend "!5.7".toList Expression.blank).exp.numCount = 2 ∧
    (parseInput exactBackend "!5.7".toList Expression.blank).exp.opCount = 0 ∧
    (parseInput exactBackend "!5.7".toList Expression.blank).exp.numbers 0 = 120 ∧
    (parseInput exactBackend "!5.7".toList Expression.blank).exp.numbers 1 ≠ 0 := by
  decide!

/-! ## Parser: what one iteration does to the expression -/

theorem isBinary_of_isOperator {c : Char} (h : isOperator c = true) (hb : c ≠ '!') :
    isBinary c = true := by
  simp only [isOperator, Bool.or_eq_true, beq_iff_eq] at h
  simp only [isBinary, Bool.or_eq_true, beq_iff_eq]
  tauto

/-- One iteration of the loop of `parseInput` either returns the sentinel, leaving the
expression as it was, or continues on a proper part of the unread input after making
at most one store: none when it skipped a space, else one operand or one of the
operators `+ - * / ^`. -/
theorem parseBody_effect (P : Backend) (c : Char) (cs : List Char) (cm : Bool)
    (e : Expression) :
    parseBody P ⟨c :: cs, cm, e⟩ = Step.fail e ∨
    ∃ st1, parseBody P ⟨c :: cs, cm, e⟩ = Step.next st1 ∧ st1.rest <:+ cs ∧
      ((c = ' ' ∧ st1.exp = e) ∨
        (c ≠ ' ' ∧ ((∃ v, st1.exp = e.pushNumber v) ∨
          (∃ o, isBinary o = true ∧ st1.exp = e.pushOperator o)))) := by
  cases hb : parseBody P ⟨c :: cs, cm, e⟩ with
  | fail e1 =>
    left
    unfold parseBody at hb
    simp only [peek_zero_cons] at hb
    split_ifs at hb <;>
      first
      | (cases hb; rfl)
      | (split at hb <;> first | (cases hb; rfl) | cases hb)
  | next st1 =>
    right
    refine ⟨st1, rfl, parseBody_progress P c cs cm e st1 hb, ?_⟩
    unfold parseBody at hb
    simp only [peek_zero_cons] at hb
    split_ifs at hb with h1 h2 h3 h4 h5 h6 h7 h8 h9
    · cases hb; exact Or.inl ⟨h1, rfl⟩
    · right
      refine ⟨h1, Or.inl ?_⟩
      split at hb
      · cases hb
      · cases hb; exact ⟨_, rfl⟩
    · cases hb; exact Or.inr ⟨h1, Or.inl ⟨_, rfl⟩⟩
    · right
      refine ⟨h1, Or.inl ?_⟩
      split at hb
      · cases hb
      · cases hb; exact ⟨_, rfl⟩
    · right
      refine ⟨h1, Or.inl ?_⟩
      split at hb
      · cases hb
      · cases hb; exact ⟨_, rfl⟩
    · cases hb; exact Or.inr ⟨h1, Or.inr ⟨'-', by decide, rfl⟩⟩
    · right
      refine ⟨h1, Or.inl ?_⟩
      split at hb
      · cases hb
      · cases hb; exact ⟨_, rfl⟩
    · right
      refine ⟨h1, Or.inl ?_⟩
      split at hb
      · cases hb
      · cases hb; exact ⟨_, rfl⟩
    · cases hb
      exact Or.inr ⟨h1, Or.inr ⟨c, isBinary_of_isOperator h9 h3, rfl⟩⟩

/-- The loop of `parseInput` ends in a state it reached: either all input is read and
there is no `return`, or the body returned the sentinel there. -/
theorem parseLoop_final (P : Backend) (fuel : Nat) :
    ∀ st0 : ParseState, st0.rest.length < fuel →
      ∃ st, Reaches P st0 st ∧ (parseLoop P fuel st0).exp = st.exp ∧
        ((peek st.rest 0 = NUL ∧ (parseLoop P fuel st0).ret = none) ∨
          (peek st.rest 0 ≠ NUL ∧ parseBody P st = Step.fail st.exp ∧
            (parseLoop P fuel st0).ret = some SENTINEL)) := by
  induction fuel with
  | zero => intro st0 h; omega
  | succ n ih =>
    intro st0 h
    obtain ⟨s, cm, e⟩ := st0
    cases s with
    | nil =>
      exact ⟨⟨[], cm, e⟩, Reaches.refl P _, by rw [parseLoop_nil], Or.inl ⟨rfl, by rw [parseLoop_nil]⟩⟩
    | cons c cs =>
      by_cases hc : c = NUL
      · refine ⟨⟨c :: cs, cm, e⟩, Reaches.refl P _, ?_, Or.inl ⟨hc, ?_⟩⟩ <;>
          simp [parseLoop, peek_zero_cons, hc]
      · rw [parseLoop_cons P n c cs cm e hc]
        rcases parseBody_effect P c cs cm e with hf | ⟨st1, hn, hsuf, _⟩
        · rw [hf]
          exact ⟨⟨c :: cs, cm, e⟩, Reaches.refl P _, rfl, Or.inr ⟨hc, hf, rfl⟩⟩
        · rw [hn]
          simp only [List.length_cons] at h
          obtain ⟨st, hr, he, hfin⟩ := ih st1 (lt_of_le_of_lt hsuf.length_le (by omega))
          exact ⟨st, (Reaches.step hc hn).trans hr, he, hfin⟩

theorem parseInput_final (P : Backend) (input : List Char) (exp : Expression) :
    ∃ st, Reaches P ⟨input, true, exp⟩ st ∧ (parseInput P input exp).exp = st.exp ∧
      ((peek st.rest 0 = NUL ∧ (parseInput P input exp).ret = none) ∨
        (peek st.rest 0 ≠ NUL ∧ parseBody P st = Step.fail st.exp ∧
          (parseInput P input exp).ret = some SENTINEL)) :=
  parseLoop_final P (input.length + 1) ⟨input, true, exp⟩ (Nat.lt_succ_self _)

/-- A property of parser states kept by every iteration holds in every state reached. -/
theorem reaches_invariant (P : Backend) (Inv : ParseState → Prop)
    (hstep : ∀ (c : Char) (cs : List Char) (cm : Bool) (e : Expression) (st1 : ParseState),
      c ≠ NUL → Inv ⟨c :: cs, cm, e⟩ → parseBody P ⟨c :: cs, cm, e⟩ = Step.next st1 → Inv st1)
    (a b : ParseState) (h : Reaches P a b) (ha : Inv a) : Inv b := by
  obtain ⟨n, hn⟩ := h
  induction n generalizing b with
  | zero => cases hn; exact ha
  | succ n ih =>
    obtain ⟨s, c, cs, hs, hr, hc, hb⟩ := stateAfter_succ P a b n hn
    have h1 := ih s hs
    obtain ⟨sr, scm, se⟩ := s
    simp only at hr
    subst hr
    exact hstep c cs scm se b hc h1 hb

theorem operatorsBinary_pushNumber (e : Expression) (v : ℚ) (h : operatorsBinary e) :
    operatorsBinary (e.pushNumber v) := h

theorem operatorsBinary_pushOperator (e : Expression) (o : Char) (h : operatorsBinary e)
    (h0 : 0 ≤ e.opCount) (ho : isBinary o = true) : operatorsBinary (e.pushOperator o) := by
  intro i hi
  simp only [Expression.pushOperator] at hi ⊢
  by_cases hio : i = e.opCount.toNat
  · rw [hio, Function.update_same]
    exact ho
  · rw [Function.update_noteq hio]
    exact h i (by omega)

theorem parse_operatorsBinary (P : Backend) (a b : ParseState) (h : Reaches P a b)
    (ha : 0 ≤ a.exp.opCount ∧ operatorsBinary a.exp) :
    0 ≤ b.exp.opCount ∧ operatorsBinary b.exp := by
  refine reaches_invariant P (fun st => 0 ≤ st.exp.opCount ∧ operatorsBinary st.exp) ?_ a b h ha
  intro c cs cm e st1 _ hinv hb
  rcases parseBody_effect P c cs cm e with hf | ⟨st2, hn, _, heff⟩
  · rw [hf] at hb; cases hb
  · rw [hn] at hb
    cases hb
    rcases heff with ⟨_, he⟩ | ⟨_, ⟨v, he⟩ | ⟨o, ho, he⟩⟩
    · rw [he]; exact hinv
    · rw [he]; exact ⟨hinv.1, operatorsBinary_pushNumber e v hinv.2⟩
    · rw [he]
      refine ⟨?_, operatorsBinary_pushOperator e o hinv.2 hinv.1 ho⟩
      simp only [Expression.pushOperator]
      have := hinv.1
      simp only at this
      omega

/-- C11: every character `parseInput` stores in the operators sequence is one of
`+ - * / ^`, on every input and also when the parse ends with an error; `!`, which
`isOperator` accepts, is never stored: at the start of a token it is always taken by the
factorial branch, which stores an operand. -/
theorem parseInput_operator_alphabet (P : Backend) (input : List Char) (nums : Nat → ℚ)
    (ops : Nat → Char) (i : Nat)
    (hi : (i : Int) < (parseInput P input (Expression.fresh nums ops)).exp.opCount) :
    ((parseInput P input (Expression.fresh nums ops)).exp.operators i = '+' ∨
      (parseInput P input (Expression.fresh nums ops)).exp.operators i = '-' ∨
      (parseInput P input (Expression.fresh nums ops)).exp.operators i = '*' ∨
      (parseInput P input (Expression.fresh nums ops)).exp.operators i = '/' ∨
      (parseInput P input (Expression.fresh nums ops)).exp.operators i = '^') ∧
    (parseInput P input (Expression.fresh nums ops)).exp.operators i ≠ '!' ∧
    isOperator '!' = true ∧
    (∀ (cs : List Char) (cm : Bool) (e : Expression),
      parseBody P ⟨'!' :: cs, cm, e⟩ =
        Step.next ⟨(scanDigits cs 0).2, cm,
          e.pushNumber ((performFactorial P (scanDigits cs 0).1 : Int) : ℚ)⟩) := by
  obtain ⟨st, hr, he, _⟩ := parseInput_final P input (Expression.fresh nums ops)
  have hinv := parse_operatorsBinary P _ st hr
    ⟨le_refl _, fun j hj => absurd hj (by simp [Expression.fresh])⟩
  rw [he] at hi ⊢
  have hb := hinv.2 i hi
  refine ⟨?_, ?_, by decide, fun cs cm e => parseBody_factorial P cs cm e⟩
  · simp only [isBinary, Bool.or_eq_true, beq_iff_eq] at hb
    tauto
  · intro hbang
    rw [hbang] at hb
    exact absurd hb (by decide)

/-- Witness of C11: on the line `2+!3*4` two operators are stored, `+` and `*`, and
no `!`. -/
theorem parseInput_operator_alphabet_witness :
    (parseInput exactBackend "2+!3*4".toList Expression.blank).exp.opCount = 2 ∧
    (parseInput exactBackend "2+!3*4".toList Expression.blank).exp.operators 0 = '+' ∧
    (parseInput exactBackend "2+!3*4".toList Expression.blank).exp.operators 1 = '*' ∧
    (parseInput exactBackend "2+!3*4".toList Expression.blank).exp.operators 0 ≠ '!' ∧
    (parseInput exactBackend "2+!3*4".toList Expression.blank).exp.operators 1 ≠ '!' :=
  ⟨by decide!, by decide!, by decide!,
    (parseInput_operator_alphabet exactBackend "2+!3*4".toList (fun _ => 0) (fun _ => NUL) 0
      (by decide!)).2.1,
    (parseInput_operator_alphabet exactBackend "2+!3*4".toList (fun _ => 0) (fun _ => NUL) 1
      (by decide!)).2.1⟩

/-! ## Parser: capacity -/

theorem nonSpace_append (a b : List Char) : nonSpace (a ++ b) = nonSpace a + nonSpace b := by
  simp [nonSpace]

theorem nonSpace_cons_le (c : Char) (s : List Char) (h : c ≠ ' ') :
    1 ≤ nonSpace (c :: s) := by
  simp [nonSpace, List.filter_cons, h]

theorem nonSpace_le_length (s : List Char) : nonSpace s ≤ s.length :=
  List.length_filter_le _ _

theorem parse_capacity (P : Backend) (input : List Char) (a b : ParseState)
    (h : Reaches P a b)
    (ha : ∃ consumed, input = consumed ++ a.rest ∧ 0 ≤ a.exp.numCount ∧ 0 ≤ a.exp.opCount ∧
      a.exp.numCount + a.exp.opCount ≤ (nonSpace consumed : Int)) :
    ∃ consumed, input = consumed ++ b.rest ∧ 0 ≤ b.exp.numCount ∧ 0 ≤ b.exp.opCount ∧
      b.exp.numCount + b.exp.opCount ≤ (nonSpace consumed : Int) := by
  refine reaches_invariant P (fun st => ∃ consumed, input = consumed ++ st.rest ∧
    0 ≤ st.exp.numCount ∧ 0 ≤ st.exp.opCount ∧
    st.exp.numCount + st.exp.opCount ≤ (nonSpace consumed : Int)) ?_ a b h ha
  intro c cs cm e st1 _ hinv hb
  obtain ⟨consumed, hin, hn, ho, hle⟩ := hinv
  simp only at hin hn ho hle
  rcases parseBody_effect P c cs cm e with hf | ⟨st2, hnx, ⟨mid, hmid⟩, heff⟩
  · rw [hf] at hb; cases hb
  · rw [hnx] at hb
    cases hb
    refine ⟨consumed ++ c :: mid, by rw [hin, ← hmid]; simp, ?_⟩
    rw [nonSpace_append]
    rcases heff with ⟨_, he⟩ | ⟨hc, ⟨v, he⟩ | ⟨o, _, he⟩⟩
    · rw [he]
      exact ⟨hn, ho, by push_cast; omega⟩
    · have h1 := nonSpace_cons_le c mid hc
      rw [he]
      simp only [Expression.pushNumber]
      exact ⟨by omega, ho, by push_cast; omega⟩
    · have h1 := nonSpace_cons_le c mid hc
      rw [he]
      simp only [Expression.pushOperator]
      exact ⟨hn, by omega, by push_cast; omega⟩

/-- C20: when `parseInput`, started on a fresh expression, finishes (with or without an
error), `numCount + opCount` is at most the number of non-space characters it has
consumed, hence at most the length of the input; every iteration consumes at least one
character and stores at most one operand or operator; so on a line of at most 99
characters every iteration finds both `numCount` and `opCount`, the only slots it can
write, below `MAX_SIZE`. -/
theorem parseInput_capacity (P : Backend) (input : List Char) (nums : Nat → ℚ)
    (ops : Nat → Char) :
    (∃ (st : ParseState) (consumed : List Char),
      Reaches P ⟨input, true, Expression.fresh nums ops⟩ st ∧
      (parseInput P input (Expression.fresh nums ops)).exp = st.exp ∧
      input = consumed ++ st.rest ∧
      (parseInput P input (Expression.fresh nums ops)).exp.numCount +
        (parseInput P input (Expression.fresh nums ops)).exp.opCount ≤
          (nonSpace consumed : Int)) ∧
    0 ≤ (parseInput P input (Expression.fresh nums ops)).exp.numCount ∧
    0 ≤ (parseInput P input (Expression.fresh nums ops)).exp.opCount ∧
    (parseInput P input (Expression.fresh nums ops)).exp.numCount +
      (parseInput P input (Expression.fresh nums ops)).exp.opCount ≤ (input.length : Int) ∧
    (∀ (c : Char) (cs : List Char) (cm : Bool) (e : Expression),
      parseBody P ⟨c :: cs, cm, e⟩ = Step.fail e ∨
      ∃ st1, parseBody P ⟨c :: cs, cm, e⟩ = Step.next st1 ∧
        st1.rest.length < (c :: cs).length ∧
        (st1.exp = e ∨ (∃ v, st1.exp = e.pushNumber v) ∨ (∃ o, st1.exp = e.pushOperator o))) ∧
    (input.length < MAX_SIZE →
      ∀ st : ParseState, Reaches P ⟨input, true, Expression.fresh nums ops⟩ st →
        peek st.rest 0 ≠ NUL →
        0 ≤ st.exp.numCount ∧ st.exp.numCount.toNat < MAX_SIZE ∧
        0 ≤ st.exp.opCount ∧ st.exp.opCount.toNat < MAX_SIZE) := by
  have hinit : ∃ consumed, input = consumed ++ input ∧
      0 ≤ (Expression.fresh nums ops).numCount ∧ 0 ≤ (Expression.fresh nums ops).opCount ∧
      (Expression.fresh nums ops).numCount + (Expression.fresh nums ops).opCount ≤
        (nonSpace consumed : Int) := ⟨[], rfl, le_refl _, le_refl _, by simp [Expression.fresh]⟩
  obtain ⟨st, hr, he, _⟩ := parseInput_final P input (Expression.fresh nums ops)
  obtain ⟨consumed, hin, hn, ho, hle⟩ :=
    parse_capacity P input ⟨input, true, Expression.fresh nums ops⟩ st hr hinit
  have hlen : nonSpace consumed ≤ input.length := by
    have h1 := nonSpace_le_length consumed
    have h2 : input.length = consumed.length + st.rest.length := by
      rw [hin, List.length_append]
    omega
  refine ⟨⟨st, consumed, hr, he, hin, by rw [he]; exact hle⟩, by rw [he]; exact hn,
    by rw [he]; exact ho, by rw [he]; omega, ?_, ?_⟩
  · intro c cs cm e
    rcases parseBody_effect P c cs cm e with hf | ⟨st1, hnx, hsuf, heff⟩
    · exact Or.inl hf
    · refine Or.inr ⟨st1, hnx, ?_, ?_⟩
      · have := hsuf.length_le
        simp only [List.length_cons]
        omega
      · rcases heff with ⟨_, h1⟩ | ⟨_, ⟨v, h1⟩ | ⟨o, _, h1⟩⟩
        · exact Or.inl h1
        · exact Or.inr (Or.inl ⟨v, h1⟩)
        · exact Or.inr (Or.inr ⟨o, h1⟩)
  · intro hcap st2 hr2 hpk
    obtain ⟨consumed2, hin2, hn2, ho2, hle2⟩ :=
      parse_capacity P input ⟨input, true, Expression.fresh nums ops⟩ st2 hr2 hinit
    obtain ⟨c, cs, hrest, _⟩ := peek_ne_NUL hpk
    have h1 := nonSpace_le_length consumed2
    have h2 : input.length = consumed2.length + st2.rest.length := by
      rw [hin2, List.length_append]
    rw [hrest, List.length_cons] at h2
    refine ⟨hn2, ?_, ho2, ?_⟩ <;> omega

/-- Witness of C20: a line of 99 `+` characters stores 99 operators and no operand, the
bound of an input of that length; the line `1 + 2` stores three items in five
characters. -/
theorem parseInput_capacity_witness :
    (List.replicate 99 '+').length < MAX_SIZE ∧
    (parseInput exactBackend (List.replicate 99 '+') Expression.blank).exp.opCount = 99 ∧
    (parseInput exactBackend (List.replicate 99 '+') Expression.blank).exp.numCount +
      (parseInput exactBackend (List.replicate 99 '+') Expression.blank).exp.opCount ≤
        ((List.replicate 99 '+').length : Int) ∧
    (parseInput exactBackend "1 + 2".toList Expression.blank).exp.numCount +
      (parseInput exactBackend "1 + 2".toList Expression.blank).exp.opCount = 3 :=
  ⟨by decide, by decide!,
    (parseInput_capacity exactBackend (List.replicate 99 '+') (fun _ => 0)
      (fun _ => NUL)).2.2.2.1, by decide!⟩

/-! ## Truncation toward zero -/

theorem truncate_of_nonneg (x : ℚ) (h : 0 ≤ x) : truncate x = ⌊x⌋ := by
  unfold truncate
  rw [Rat.floor_def, Int.tdiv_eq_ediv (Rat.num_nonneg.2 h) (Int.natCast_nonneg _)]

theorem truncate_neg (x : ℚ) : truncate (-x) = -truncate x := by
  unfold truncate
  rw [Rat.neg_num, Rat.neg_den, Int.neg_tdiv]

theorem truncate_of_nonpos (x : ℚ) (h : x ≤ 0) : truncate x = ⌈x⌉ := by
  have h1 := truncate_of_nonneg (-x) (neg_nonneg.2 h)
  rw [truncate_neg] at h1
  rw [Int.floor_neg] at h1
  exact neg_injective h1

theorem truncate_eq_truncTowardZero (x : ℚ) : truncate x = truncTowardZero x := by
  unfold truncTowardZero
  split
  · rename_i h; exact truncate_of_nonneg x h
  · rename_i h; exact truncate_of_nonpos x (le_of_lt (not_le.1 h))

theorem truncToInt_eq_truncTowardZero (P : Backend) (x : ℚ)
    (h1 : INT_MIN ≤ truncTowardZero x) (h2 : truncTowardZero x ≤ INT_MAX) :
    truncToInt P x = truncTowardZero x := by
  rw [← truncate_eq_truncTowardZero] at h1 h2 ⊢
  exact truncToInt_of_range P x h1 h2

/-- C18 (as amended): for every `a` and every `b` other than 0.5 whose values truncated
toward zero are values of `int`, `performOperation(a, b, '^')` is the external integer
power of `a` and `b`, each truncated toward zero (the floor of a non-negative value, the
ceiling of a negative one), converted back to a float; `2.9^2` is computed as
`power(2, 2)` and `2^0.7` as `power(2, 0)`. -/
theorem performOperation_power_truncates (P : Backend) (a b : ℚ) (nums : Nat → ℚ)
    (ops : Nat → Char) (hb : b ≠ 1 / 2)
    (ha1 : INT_MIN ≤ truncTowardZero a) (ha2 : truncTowardZero a ≤ INT_MAX)
    (hb1 : INT_MIN ≤ truncTowardZero b) (hb2 : truncTowardZero b ≤ INT_MAX) :
    performOperation P a b '^' =
      ((P.power (truncTowardZero a) (truncTowardZero b) : Int) : ℚ) ∧
    performOperation P (29 / 10) 2 '^' = ((P.power 2 2 : Int) : ℚ) ∧
    performOperation P 2 (7 / 10) '^' = ((P.power 2 0 : Int) : ℚ) ∧
    performOperation P (-29 / 10) 2 '^' = ((P.power (-2) 2 : Int) : ℚ) ∧
    evaluateExpression P (parseInput P "2.9^2".toList (Expression.fresh nums ops)).exp =
      ((P.power 2 2 : Int) : ℚ) ∧
    evaluateExpression P (parseInput P "2^0.7".toList (Expression.fresh nums ops)).exp =
      ((P.power 2 0 : Int) : ℚ) := by
  have e1 : truncToInt P (29 / 10) = 2 := by
    rw [truncToInt_of_range P _ (by decide!) (by decide!)]; decide!
  have e2 : truncToInt P 2 = 2 := by
    rw [truncToInt_of_range P _ (by decide!) (by decide!)]; decide!
  have e3 : truncToInt P (7 / 10) = 0 := by
    rw [truncToInt_of_range P _ (by decide!) (by decide!)]; decide!
  have e4 : truncToInt P (-29 / 10) = -2 := by
    rw [truncToInt_of_range P _ (by decide!) (by decide!)]; decide!
  refine ⟨?_, ?_, ?_, ?_, ?_, ?_⟩
  · rw [performOperation_power, if_neg hb]
    unfold generalPower
    rw [truncToInt_eq_truncTowardZero P a ha1 ha2, truncToInt_eq_truncTowardZero P b hb1 hb2]
  · rw [performOperation_power, if_neg (by norm_num)]; simp only [generalPower, e1, e2]
  · rw [performOperation_power, if_neg (by norm_num)]; simp only [generalPower, e2, e3]
  · rw [performOperation_power, if_neg (by norm_num)]; simp only [generalPower, e4, e2]
  · simp [parseInput, parseLoop, parseBody, peek, NUL, isDigit, isOperator, scanNumber,
      Expression.fresh, Expression.pushNumber, Expression.pushOperator, digitVal,
      evaluateExpression, mulDivPass, powerPass, reducePass, reduceAt, shiftLoop, addSubLoop,
      isPower, isMulDiv, performOperation, Function.update]
    norm_num [e1, e2]
  · simp [parseInput, parseLoop, parseBody, peek, NUL, isDigit, isOperator, scanNumber,
      Expression.fresh, Expression.pushNumber, Expression.pushOperator, digitVal,
      evaluateExpression, mulDivPass, powerPass, reducePass, reduceAt, shiftLoop, addSubLoop,
      isPower, isMulDiv, performOperation, Function.update]
    norm_num [e2, e3]

/-- Witness of C18 (as amended): 2.9 and 2 truncate to the `int` values 2 and 2, 0.7
to 0; with the exact back end `2.9^2` evaluates to 4 and `2^0.7` to 1. -/
theorem performOperation_power_truncates_witness :
    ((2 : ℚ) ≠ 1 / 2 ∧ INT_MIN ≤ truncTowardZero (29 / 10) ∧
      truncTowardZero (29 / 10) ≤ INT_MAX ∧ INT_MIN ≤ truncTowardZero 2 ∧
      truncTowardZero 2 ≤ INT_MAX) ∧
    truncTowardZero (29 / 10) = 2 ∧ truncTowardZero (7 / 10) = 0 ∧
    truncTowardZero (-29 / 10) = -2 ∧
    performOperation exactBackend (29 / 10) 2 '^' = 4 ∧
    performOperation exactBackend 2 (7 / 10) '^' = 1 :=
  ⟨⟨by norm_num, by decide!, by decide!, by decide!, by decide!⟩, by decide!, by decide!,
    by decide!,
    (performOperation_power_truncates exactBackend (29 / 10) 2 (fun _ => 0) (fun _ => NUL)
      (by norm_num) (by decide!) (by decide!) (by decide!) (by decide!)).1.trans (by decide!),
    (performOperation_power_truncates exactBackend 2 (7 / 10) (fun _ => 0) (fun _ => NUL)
      (by norm_num) (by decide!) (by decide!) (by decide!) (by decide!)).1.trans (by decide!)⟩

/-- Counterexample to C18 as stated: 3000000000 truncated toward zero is 3000000000,
which is no `int`, so `static_cast<int>` does not yield it, whatever `int` the
conversion gives; with the value of the x86 conversion, `3000000000^1` is computed as
`power(-2147483648, 1)`, not as `power(3000000000, 1)`. -/
theorem power_base_beyond_int :
    truncTowardZero 3000000000 = 3000000000 ∧
    ((exactBackend.power (truncTowardZero 3000000000) (truncTowardZero 1) : Int) : ℚ) =
      3000000000 ∧
    performOperation exactBackend 3000000000 1 '^' = -2147483648 ∧
    evaluateExpression exactBackend
      (parseInput exactBackend "3000000000^1".toList Expression.blank).exp = -2147483648 ∧
    (∀ P : Backend, performOperation P 3000000000 1 '^' =
      ((P.power (P.castOverflow 3000000000) 1 : Int) : ℚ)) ∧
    (∀ P : Backend, INT_MIN ≤ P.castOverflow 3000000000 →
      P.castOverflow 3000000000 ≤ INT_MAX →
      truncToInt P 3000000000 ≠ truncTowardZero 3000000000) := by
  have ht : truncate 3000000000 = 3000000000 := by decide!
  have hz : truncTowardZero 3000000000 = 3000000000 := by
    rw [← truncate_eq_truncTowardZero]; exact ht
  have hc : ∀ P : Backend, truncToInt P 3000000000 = P.castOverflow 3000000000 := by
    intro P
    unfold truncToInt
    rw [ht, if_neg (by unfold INT_MAX; omega)]
  have h1 : ∀ P : Backend, truncToInt P 1 = 1 := by
    intro P
    rw [truncToInt_of_range P _ (by decide!) (by decide!)]; decide!
  refine ⟨hz, ?_, by decide!, by decide!, ?_, ?_⟩
  · rw [hz]; decide!
  · intro P
    rw [performOperation_power, if_neg (by norm_num)]
    simp only [generalPower, hc P, h1 P]
  · intro P hmin hmax
    rw [hc P, hz]
    unfold INT_MAX at hmax
    omega

/-! ## Parser: the value of a literal -/

theorem digitVal_eq_digitNat {c : Char} (h : isDigit c = true) :
    digitVal c = (digitNat c : ℚ) := digitVal_of_isDigit h

theorem scanNumber_int :
    ∀ (ds rest : List Char) (v dp : ℚ), (∀ c ∈ ds, isDigit c = true) →
      scanNumber (ds ++ rest) v false dp =
        scanNumber rest (v * 10 ^ ds.length + intPart ds) false dp := by
  intro ds
  induction ds with
  | nil => intro rest v dp _; simp [intPart]
  | cons c cs ih =>
    intro rest v dp h
    have hc := h c (List.mem_cons_self _ _)
    have hd : c ≠ '.' := isDigit_ne hc (by decide)
    rw [List.cons_append, scanNumber]
    simp only [hc, Bool.true_or, if_true, hd, if_false, Bool.false_eq_true]
    rw [ih rest _ dp (fun x hx => h x (List.mem_cons_of_mem _ hx)), digitVal_eq_digitNat hc]
    congr 1
    simp only [intPart, List.length_cons]
    ring

theorem scanNumber_frac :
    ∀ (fs : List Char) (v : ℚ) (k : Nat), (∀ c ∈ fs, isDigit c = true) →
      scanNumber fs v true (10 ^ k) = Scan.ok (v + fracPart (k + 1) fs) [] := by
  intro fs
  induction fs with
  | nil => intro v k _; simp [scanNumber, fracPart]
  | cons c cs ih =>
    intro v k h
    have hc := h c (List.mem_cons_self _ _)
    have hd : c ≠ '.' := isDigit_ne hc (by decide)
    rw [scanNumber]
    simp only [hc, Bool.true_or, if_true, hd, if_false]
    have hp : (10 : ℚ) ^ k * 10 = 10 ^ (k + 1) := by ring
    rw [hp, ih _ (k + 1) (fun x hx => h x (List.mem_cons_of_mem _ hx)),
      digitVal_eq_digitNat hc]
    congr 1
    simp only [fracPart]
    ring

theorem literalValue_int (ds : List Char) (hds : ∀ c ∈ ds, isDigit c = true) :
    literalValue ds = decimalValue ds [] := by
  have h := scanNumber_int ds [] 0 1 hds
  rw [List.append_nil] at h
  simp only [literalValue, h, scanNumber, decimalValue, fracPart]
  ring

theorem literalValue_decimal (ds fs : List Char) (hds : ∀ c ∈ ds, isDigit c = true)
    (hfs : ∀ c ∈ fs, isDigit c = true) :
    literalValue (ds ++ '.' :: fs) = decimalValue ds fs := by
  have h := scanNumber_int ds ('.' :: fs) 0 1 hds
  have h2 := scanNumber_frac fs (0 * 10 ^ ds.length + intPart ds) 0 hfs
  simp only [pow_zero] at h2
  have h3 : scanNumber ('.' :: fs) (0 * 10 ^ ds.length + intPart ds) false 1 =
      scanNumber fs (0 * 10 ^ ds.length + intPart ds) true 1 := by
    rw [scanNumber]
    simp
  simp only [literalValue, h, h3, h2, decimalValue]
  ring

theorem isNumber_int (ds : List Char) (hds : ∀ c ∈ ds, isDigit c = true) :
    isNumber ds = true := by
  have hc : ds.count '.' = 0 := by
    rw [List.count_eq_zero]
    intro hmem
    exact absurd (hds _ hmem) (by decide)
  simp only [isNumber, Bool.and_eq_true, List.all_eq_true, decide_eq_true_eq, hc]
  exact ⟨fun c hc => by simp [isNumChar, hds c hc], by omega⟩

theorem isNumber_decimal (ds fs : List Char) (hds : ∀ c ∈ ds, isDigit c = true)
    (hfs : ∀ c ∈ fs, isDigit c = true) : isNumber (ds ++ '.' :: fs) = true := by
  have hc1 : ds.count '.' = 0 := by
    rw [List.count_eq_zero]
    intro hmem
    exact absurd (hds _ hmem) (by decide)
  have hc2 : fs.count '.' = 0 := by
    rw [List.count_eq_zero]
    intro hmem
    exact absurd (hfs _ hmem) (by decide)
  simp only [isNumber, Bool.and_eq_true, List.all_eq_true, decide_eq_true_eq,
    List.count_append, List.count_cons_self, hc1, hc2]
  refine ⟨?_, by omega⟩
  intro c hc
  rcases List.mem_append.1 hc with h | h
  · simp [isNumChar, hds c h]
  · rcases List.mem_cons.1 h with rfl | h
    · decide
    · simp [isNumChar, hfs c h]

/-- Reading an unsigned literal at the start of a token, whatever `checkMinus` is. -/
theorem reaches_literal (P : Backend) (lit t : List Char) (cm : Bool) (e : Expression)
    (hne : lit ≠ []) (hnum : isNumber lit = true) (ht : isNumChar (peek t 0) = false) :
    Reaches P ⟨lit ++ t, cm, e⟩ ⟨t, false, e.pushNumber (literalValue lit)⟩ := by
  have hall : ∀ c ∈ lit, isNumChar c = true := by
    simp only [isNumber, Bool.and_eq_true, List.all_eq_true] at hnum
    exact hnum.1
  cases lit with
  | nil => exact absurd rfl hne
  | cons c l =>
    have hc := hall c (List.mem_cons_self _ _)
    apply Reaches.step (isNumChar_ne_NUL hc)
    show parseBody P ⟨c :: (l ++ t), cm, e⟩ = _
    rw [parseBody_number P c _ cm e hc]
    have hs := scanNumber_literal (c :: l) t hnum ht
    rw [List.cons_append] at hs
    rw [hs]

theorem reaches_negative (P : Backend) (lit t : List Char) (e : Expression) (v : ℚ)
    (hne : lit ≠ []) (hnum : isNumber lit = true) (ht : isNumChar (peek t 0) = false)
    (hv : literalValue lit = v) :
    Reaches P ⟨'-' :: (lit ++ t), true, e⟩ ⟨t, false, e.pushNumber (-v)⟩ := by
  have h := reaches_operand P (Operand.number true lit) t e ⟨hne, hnum⟩ ht
  simp only [Operand.text, if_true, Operand.value, hv, mul_neg, mul_one] at h
  exact h

/-- C16: for integer digits `ds` and fractional digits `fs`, the scanning loop reads
from the literal `ds` or `ds.fs` its decimal value `sum (d_i * 10 ^ (m - i)) +
sum (f_j / 10 ^ j)` in exact arithmetic; `parseInput` stores that value as the operand,
and its negation when a `-` in sign position (`checkMinus` set) precedes the literal; a
literal consisting only of `.` stores 0. -/
theorem parseInput_decimal_value (P : Backend) (nums : Nat → ℚ) (ops : Nat → Char)
    (ds fs : List Char) (hds : ∀ c ∈ ds, isDigit c = true)
    (hfs : ∀ c ∈ fs, isDigit c = true) :
    literalValue ds = decimalValue ds [] ∧
    literalValue (ds ++ '.' :: fs) = decimalValue ds fs ∧
    (∀ (t : List Char) (cm : Bool) (e : Expression), isNumChar (peek t 0) = false →
      Reaches P ⟨(ds ++ '.' :: fs) ++ t, cm, e⟩
        ⟨t, false, e.pushNumber (decimalValue ds fs)⟩ ∧
      Reaches P ⟨'-' :: ((ds ++ '.' :: fs) ++ t), true, e⟩
        ⟨t, false, e.pushNumber (-decimalValue ds fs)⟩ ∧
      (ds ≠ [] →
        Reaches P ⟨ds ++ t, cm, e⟩ ⟨t, false, e.pushNumber (decimalValue ds [])⟩ ∧
        Reaches P ⟨'-' :: (ds ++ t), true, e⟩
          ⟨t, false, e.pushNumber (-decimalValue ds [])⟩)) ∧
    (parseInput P (ds ++ '.' :: fs) (Expression.fresh nums ops)).ret = none ∧
    (parseInput P (ds ++ '.' :: fs) (Expression.fresh nums ops)).exp.numCount = 1 ∧
    (parseInput P (ds ++ '.' :: fs) (Expression.fresh nums ops)).exp.numbers 0 =
      decimalValue ds fs ∧
    (parseInput P ('-' :: (ds ++ '.' :: fs)) (Expression.fresh nums ops)).exp.numbers 0 =
      -decimalValue ds fs ∧
    (ds ≠ [] →
      (parseInput P ds (Expression.fresh nums ops)).exp.numbers 0 = decimalValue ds [] ∧
      (parseInput P ('-' :: ds) (Expression.fresh nums ops)).exp.numbers 0 =
        -decimalValue ds []) ∧
    (parseInput P ['.'] (Expression.fresh nums ops)).exp.numbers 0 = 0 := by
  have hi := literalValue_int ds hds
  have hd := literalValue_decimal ds fs hds hfs
  have hni := isNumber_int ds hds
  have hnd := isNumber_decimal ds fs hds hfs
  have hne : ds ++ '.' :: fs ≠ [] := by simp
  have hnil : isNumChar (peek [] 0) = false := by decide
  have r1 := reaches_literal P (ds ++ '.' :: fs) [] true (Expression.fresh nums ops) hne hnd hnil
  have r2 := reaches_negative P (ds ++ '.' :: fs) [] (Expression.fresh nums ops) _ hne hnd
    hnil hd
  rw [List.append_nil, hd] at r1
  rw [List.append_nil] at r2
  have p1 := parseInput_of_reaches_nil P _ _ false _ r1
  have p2 := parseInput_of_reaches_nil P _ _ false _ r2
  refine ⟨hi, hd, ?_, by rw [p1], by rw [p1]; rfl, ?_, ?_, ?_, ?_⟩
  · intro t cm e ht
    refine ⟨?_, reaches_negative P _ t e _ hne hnd ht hd, ?_⟩
    · have := reaches_literal P (ds ++ '.' :: fs) t cm e hne hnd ht
      rw [hd] at this
      exact this
    · intro hds0
      refine ⟨?_, reaches_negative P ds t e _ hds0 hni ht hi⟩
      have := reaches_literal P ds t cm e hds0 hni ht
      rw [hi] at this
      exact this
  · rw [p1]; simp [Expression.pushNumber, Expression.fresh]
  · rw [p2]; simp [Expression.pushNumber, Expression.fresh]
  · intro hds0
    have r3 := reaches_literal P ds [] true (Expression.fresh nums ops) hds0 hni hnil
    have r4 := reaches_negative P ds [] (Expression.fresh nums ops) _ hds0 hni hnil hi
    rw [List.append_nil, hi] at r3
    rw [List.append_nil] at r4
    rw [parseInput_of_reaches_nil P _ _ false _ r3, parseInput_of_reaches_nil P _ _ false _ r4]
    simp [Expression.pushNumber, Expression.fresh]
  · simp [parseInput, parseLoop, parseBody, peek, NUL, isDigit, isOperator, scanNumber,
      Expression.fresh, Expression.pushNumber, Function.update]

/-- Witness of C16: `12.5` stores 25/2, `-12.5` stores -25/2, `007` stores 7. -/
theorem parseInput_decimal_value_witness :
    decimalValue "12".toList "5".toList = 25 / 2 ∧
    (parseInput exactBackend "12.5".toList Expression.blank).exp.numbers 0 = 25 / 2 ∧
    (parseInput exactBackend "-12.5".toList Expression.blank).exp.numbers 0 = -(25 / 2) ∧
    (parseInput exactBackend "007".toList Expression.blank).exp.numbers 0 = 7 := by
  have h := parseInput_decimal_value exactBackend (fun _ => 0) (fun _ => NUL) "12".toList
    "5".toList (by decide) (by decide)
  have h7 := parseInput_decimal_value exactBackend (fun _ => 0) (fun _ => NUL) "007".toList
    [] (by decide) (by simp)
  have hv : decimalValue "12".toList "5".toList = 25 / 2 := by decide!
  have hv7 : decimalValue "007".toList [] = 7 := by decide!
  refine ⟨hv, ?_, ?_, ?_⟩
  · exact h.2.2.2.2.2.1.trans hv
  · exact h.2.2.2.2.2.2.1.trans (by rw [hv])
  · exact (h7.2.2.2.2.2.2.2.1 (by decide)).1.trans hv7

/-! ## Parser: trigonometric and logarithm operands -/

theorem parseInput_call (P : Backend) (nums : Nat → ℚ) (ops : Nat → Char) (kw lit : List Char)
    (hkw : kw ∈ keywords) (hlit : isNumber lit = true) :
    parseInput P (kw ++ lit) (Expression.fresh nums ops) =
      ⟨(Expression.fresh nums ops).pushNumber (Operand.value P (Operand.call kw lit)), none⟩ := by
  have h := reaches_operand P (Operand.call kw lit) [] (Expression.fresh nums ops)
    ⟨hkw, hlit⟩ (by decide)
  simp only [Operand.text, List.append_nil] at h
  exact parseInput_of_reaches_nil P _ _ false _ h

/-- C13: for `ln` followed by a literal, `parseInput` reports no parse error and stores
one operand: the sentinel, whatever the logarithm primitive is, exactly when the scanned
argument is `<= 0`, and the external natural logarithm of the argument otherwise. `ln0`
takes the domain-error path; so does `ln-5`, whose scanned argument is 0 because the
scan stops at the `-` (the `-` and the 5 are then stored as operator and operand); `ln1`
stores `ln(1)`. -/
theorem parseInput_ln (P : Backend) (nums : Nat → ℚ) (ops : Nat → Char) (lit : List Char)
    (hlit : isNumber lit = true) :
    (parseInput P ("ln".toList ++ lit) (Expression.fresh nums ops)).ret = none ∧
    (parseInput P ("ln".toList ++ lit) (Expression.fresh nums ops)).exp.numCount = 1 ∧
    (parseInput P ("ln".toList ++ lit) (Expression.fresh nums ops)).exp.numbers 0 =
      (if literalValue lit ≤ 0 then SENTINEL else P.performLn (literalValue lit)) ∧
    (literalValue lit ≤ 0 → ∀ f : ℚ → ℚ,
      (parseInput { P with performLn := f } ("ln".toList ++ lit)
        (Expression.fresh nums ops)).exp.numbers 0 = SENTINEL) ∧
    (P.performLn (literalValue lit) ≠ SENTINEL →
      ((parseInput P ("ln".toList ++ lit) (Expression.fresh nums ops)).exp.numbers 0 =
        SENTINEL ↔ literalValue lit ≤ 0)) ∧
    (parseInput P "ln0".toList (Expression.fresh nums ops)).exp.numbers 0 = SENTINEL ∧
    (parseInput P "ln1".toList (Expression.fresh nums ops)).exp.numbers 0 = P.performLn 1 ∧
    (parseInput P "ln-5".toList (Expression.fresh nums ops)).ret = none ∧
    (parseInput P "ln-5".toList (Expression.fresh nums ops)).exp.numCount = 2 ∧
    (parseInput P "ln-5".toList (Expression.fresh nums ops)).exp.opCount = 1 ∧
    (parseInput P "ln-5".toList (Expression.fresh nums ops)).exp.numbers 0 = SENTINEL ∧
    (parseInput P "ln-5".toList (Expression.fresh nums ops)).exp.operators 0 = '-' ∧
    (parseInput P "ln-5".toList (Expression.fresh nums ops)).exp.numbers 1 = 5 := by
  have hl : ∀ Q : Backend, parseInput Q ("ln".toList ++ lit) (Expression.fresh nums ops) =
      ⟨(Expression.fresh nums ops).pushNumber
        (Operand.value Q (Operand.call "ln".toList lit)), none⟩ :=
    fun Q => parseInput_call Q nums ops "ln".toList lit (by decide) hlit
  have hv : ∀ Q : Backend, Operand.value Q (Operand.call "ln".toList lit) =
      if literalValue lit ≤ 0 then SENTINEL else Q.performLn (literalValue lit) := by
    intro Q
    simp [Operand.value, performLnFunction]
  have hn0 : ∀ v : ℚ, ((Expression.fresh nums ops).pushNumber v).numbers 0 = v := by
    intro v
    simp [Expression.pushNumber, Expression.fresh]
  refine ⟨by rw [hl P], by rw [hl P]; rfl, by rw [hl P, hn0, hv P], ?_, ?_, ?_, ?_, ?_, ?_,
    ?_, ?_, ?_, ?_⟩
  · intro h0 f
    rw [hl, hn0, hv, if_pos h0]
  · intro hne
    rw [hl P, hn0, hv P]
    by_cases h0 : literalValue lit ≤ 0
    · simp [h0]
    · simp [h0, hne]
  · simp [parseInput, parseLoop, parseBody, peek, NUL, isDigit, isOperator, scanNumber,
      Expression.fresh, Expression.pushNumber, Expression.pushOperator, digitVal,
      performLnFunction, Function.update]
  · simp [parseInput, parseLoop, parseBody, peek, NUL, isDigit, isOperator, scanNumber,
      Expression.fresh, Expression.pushNumber, Expression.pushOperator, digitVal,
      performLnFunction, Function.update]
  · simp [parseInput, parseLoop, parseBody, peek, NUL, isDigit, isOperator, scanNumber,
      Expression.fresh, Expression.pushNumber, Expression.pushOperator, digitVal]
  · simp [parseInput, parseLoop, parseBody, peek, NUL, isDigit, isOperator, scanNumber,
      Expression.fresh, Expression.pushNumber, Expression.pushOperator, digitVal]
  · simp [parseInput, parseLoop, parseBody, peek, NUL, isDigit, isOperator, scanNumber,
      Expression.fresh, Expression.pushNumber, Expression.pushOperator, digitVal]
  · simp [parseInput, parseLoop, parseBody, peek, NUL, isDigit, isOperator, scanNumber,
      Expression.fresh, Expression.pushNumber, Expression.pushOperator, digitVal,
      performLnFunction, Function.update]
  · simp [parseInput, parseLoop, parseBody, peek, NUL, isDigit, isOperator, scanNumber,
      Expression.fresh, Expression.pushNumber, Expression.pushOperator, digitVal,
      Function.update]
  · simp [parseInput, parseLoop, parseBody, peek, NUL, isDigit, isOperator, scanNumber,
      Expression.fresh, Expression.pushNumber, Expression.pushOperator, digitVal,
      Function.update]

/-- Witness of C13: `ln0` and `ln0.0` store the sentinel, `ln2.5` stores the value of
the primitive at 5/2. -/
theorem parseInput_ln_witness :
    (parseInput exactBackend "ln0".toList Expression.blank).exp.numbers 0 = SENTINEL ∧
    (parseInput exactBackend "ln0.0".toList Expression.blank).exp.numbers 0 = SENTINEL ∧
    (parseInput exactBackend "ln2.5".toList Expression.blank).exp.numbers 0 =
      exactBackend.performLn (5 / 2) := by
  have h0 := parseInput_ln exactBackend (fun _ => 0) (fun _ => NUL) "0".toList (by decide)
  have h00 := parseInput_ln exactBackend (fun _ => 0) (fun _ => NUL) "0.0".toList (by decide)
  have h25 := parseInput_ln exactBackend (fun _ => 0) (fun _ => NUL) "2.5".toList (by decide)
  have v0 : literalValue "0".toList = 0 := by decide!
  have v00 : literalValue "0.0".toList = 0 := by decide!
  have v25 : literalValue "2.5".toList = 5 / 2 := by decide!
  refine ⟨?_, ?_, ?_⟩
  · exact h0.2.2.1.trans (by rw [v0]; simp)
  · exact h00.2.2.1.trans (by rw [v00]; simp)
  · exact h25.2.2.1.trans (by rw [v25]; norm_num)

/-! ## Parser: the minus sign -/

/-- C14 (as amended): a `-` at the start of a token is recorded as a binary operator
when `checkMinus` is clear, whatever follows it, and when `checkMinus` is set and the
next character is neither a digit nor `.`; it begins a negative literal exactly when
`checkMinus` is set and the next character is a digit or `.`. `checkMinus` is set at the
start of the line and by every stored operator, kept by spaces, and cleared by every
literal and every `sin`, `cos`, `tan`, `ln`, `exp` operand; so a `-` right after such an
operand is binary even when a digit follows. -/
theorem parseBody_minus_rule (P : Backend) (cs : List Char) (e : Expression) :
    parseBody P ⟨'-' :: cs, false, e⟩ = Step.next ⟨cs, true, e.pushOperator '-'⟩ ∧
    (isNumChar (peek cs 0) = false →
      parseBody P ⟨'-' :: cs, true, e⟩ = Step.next ⟨cs, true, e.pushOperator '-'⟩) ∧
    (isNumChar (peek cs 0) = true →
      parseBody P ⟨'-' :: cs, true, e⟩ =
        match scanNumber cs 0 false 1 with
        | Scan.multipleDots => Step.fail e
        | Scan.ok num rest => Step.next ⟨rest, false, e.pushNumber (num * (-1))⟩) ∧
    (∀ input exp, parseInput P input exp = parseLoop P (input.length + 1) ⟨input, true, exp⟩) ∧
    (∀ cm, parseBody P ⟨' ' :: cs, cm, e⟩ = Step.next ⟨cs, cm, e⟩) ∧
    (∀ c cm, isBinary c = true → c ≠ '-' →
      parseBody P ⟨c :: cs, cm, e⟩ = Step.next ⟨cs, true, e.pushOperator c⟩) ∧
    (∀ (o : Operand) (t : List Char), o.wf →
      Reaches P ⟨o.text ++ '-' :: t, true, e⟩
        ⟨t, true, (e.pushNumber (o.value P)).pushOperator '-'⟩) ∧
    (∀ lit t : List Char, lit ≠ [] → isNumber lit = true → isNumChar (peek t 0) = false →
      Reaches P ⟨'-' :: (lit ++ t), true, e⟩
        ⟨t, false, e.pushNumber (literalValue lit * (-1))⟩) := by
  refine ⟨parseBody_operator P '-' cs false e (by simp), parseBody_minus_operator P cs e,
    parseBody_minus_sign P cs e, fun _ _ => rfl, fun cm => parseBody_space P cs cm e, ?_, ?_, ?_⟩
  · intro c cm hc hm
    apply parseBody_operator
    simp only [isBinary, Bool.or_eq_true, beq_iff_eq] at hc
    tauto
  · intro o t ho
    exact (reaches_operand P o ('-' :: t) e ho (by rw [peek_zero_cons]; decide)).trans
      (reaches_operator P '-' t _ (by decide))
  · intro lit t hne hnum ht
    exact reaches_operand P (Operand.number true lit) t e ⟨hne, hnum⟩ ht

/-- Witness of C14 (as amended): in `5-3` and `sin0-3` the `-` is stored as operator; in
`-3` and `2*-3` it starts the literal -3; in `- 3` it is stored as operator. -/
theorem parseBody_minus_rule_witness :
    (parseInput exactBackend "sin0-3".toList Expression.blank).exp.opCount = 1 ∧
    (parseInput exactBackend "sin0-3".toList Expression.blank).exp.operators 0 = '-' ∧
    (parseInput exactBackend "sin0-3".toList Expression.blank).exp.numbers 1 = 3 ∧
    (parseInput exactBackend "-3".toList Expression.blank).exp.opCount = 0 ∧
    (parseInput exactBackend "-3".toList Expression.blank).exp.numbers 0 = -3 ∧
    (parseInput exactBackend "2*-3".toList Expression.blank).exp.opCount = 1 ∧
    (parseInput exactBackend "2*-3".toList Expression.blank).exp.numbers 1 = -3 ∧
    (parseInput exactBackend "- 3".toList Expression.blank).exp.opCount = 1 ∧
    (parseInput exactBackend "- 3".toList Expression.blank).exp.numbers 0 = 3 ∧
    parseBody exactBackend ⟨"-3".toList, false, Expression.blank⟩ =
      Step.next ⟨"3".toList, true, Expression.blank.pushOperator '-'⟩ :=
  ⟨by decide!, by decide!, by decide!, by decide!, by decide!, by decide!, by decide!,
    by decide!, by decide!, (parseBody_minus_rule exactBackend "3".toList Expression.blank).1⟩

/-- Counterexample to C14 as stated: in `5-3` the `-` is immediately followed by the
digit 3, and yet it is recorded as the binary operator; the operands stored are 5 and
3, not 5 and -3. -/
theorem minus_before_digit_is_binary :
    "5-3".toList = ['5', '-', '3'] ∧ isDigit '3' = true ∧
    (parseInput exactBackend "5-3".toList Expression.blank).ret = none ∧
    (parseInput exactBackend "5-3".toList Expression.blank).exp.opCount = 1 ∧
    (parseInput exactBackend "5-3".toList Expression.blank).exp.operators 0 = '-' ∧
    (parseInput exactBackend "5-3".toList Expression.blank).exp.numCount = 2 ∧
    (parseInput exactBackend "5-3".toList Expression.blank).exp.numbers 0 = 5 ∧
    (parseInput exactBackend "5-3".toList Expression.blank).exp.numbers 1 = 3 := by
  decide!

/-- C15 (the code departs from the claim): the factorial branch stores its operand
without clearing `checkMinus`, so in `!5-3` the `-` is taken as the sign of the next
literal: the operands are `factorial(5)` and -3 and no operator is stored, and the line
evaluates to `factorial(5)`; after a literal (`5-3`) or a keyword operand (`sin0-3`) the
same `-` is stored as the operator of a subtraction. -/
theorem factorial_keeps_checkMinus (P : Backend) (nums : Nat → ℚ) (ops : Nat → Char)
    (cs : List Char) (e : Expression) :
    parseBody P ⟨'!' :: cs, true, e⟩ =
      Step.next ⟨(scanDigits cs 0).2, true,
        e.pushNumber ((performFactorial P (scanDigits cs 0).1 : Int) : ℚ)⟩ ∧
    (parseInput P "!5-3".toList (Expression.fresh nums ops)).ret = none ∧
    (parseInput P "!5-3".toList (Expression.fresh nums ops)).exp.numCount = 2 ∧
    (parseInput P "!5-3".toList (Expression.fresh nums ops)).exp.opCount = 0 ∧
    (parseInput P "!5-3".toList (Expression.fresh nums ops)).exp.numbers 0 =
      ((P.factorial 5 : Int) : ℚ) ∧
    (parseInput P "!5-3".toList (Expression.fresh nums ops)).exp.numbers 1 = -3 ∧
    evaluateExpression P (parseInput P "!5-3".toList (Expression.fresh nums ops)).exp =
      ((P.factorial 5 : Int) : ℚ) ∧
    (parseInput P "5-3".toList (Expression.fresh nums ops)).exp.opCount = 1 ∧
    (parseInput P "5-3".toList (Expression.fresh nums ops)).exp.operators 0 = '-' ∧
    (parseInput P "5-3".toList (Expression.fresh nums ops)).exp.numbers 1 = 3 ∧
    (parseInput P "sin0-3".toList (Expression.fresh nums ops)).exp.opCount = 1 ∧
    (parseInput P "sin0-3".toList (Expression.fresh nums ops)).exp.operators 0 = '-' ∧
    (parseInput P "sin0-3".toList (Expression.fresh nums ops)).exp.numbers 1 = 3 ∧
    mainLine exactBackend 0 nums ops "!5-3".toList = some 120 := by
  have e5 : ∀ Q : Backend, truncToInt Q 5 = 5 := fun Q => by
    have h := truncToInt_natCast Q 5 (by norm_num)
    simpa using h
  have hret : ∀ Q : Backend,
      (parseInput Q "!5-3".toList (Expression.fresh nums ops)).ret = none := by
    intro Q
    simp [parseInput, parseLoop, parseBody, peek, NUL, isDigit, isOperator, scanNumber,
      scanDigits, Expression.fresh, Expression.pushNumber, Expression.pushOperator, digitVal]
  have hev : ∀ Q : Backend, evaluateExpression Q
      (parseInput Q "!5-3".toList (Expression.fresh nums ops)).exp =
        ((Q.factorial 5 : Int) : ℚ) := by
    intro Q
    simp [parseInput, parseLoop, parseBody, peek, NUL, isDigit, isOperator, scanNumber,
      scanDigits, Expression.fresh, Expression.pushNumber, Expression.pushOperator, digitVal,
      performFactorial, Function.update, e5, evaluateExpression, mulDivPass, powerPass,
      reducePass, addSubLoop]
  refine ⟨parseBody_factorial P cs true e, hret P, ?_, ?_, ?_, ?_, hev P, ?_, ?_, ?_, ?_, ?_,
    ?_, ?_⟩
  · simp [parseInput, parseLoop, parseBody, peek, NUL, isDigit, isOperator, scanNumber,
      scanDigits, Expression.fresh, Expression.pushNumber, Expression.pushOperator, digitVal]
  · simp [parseInput, parseLoop, parseBody, peek, NUL, isDigit, isOperator, scanNumber,
      scanDigits, Expression.fresh, Expression.pushNumber, Expression.pushOperator, digitVal]
  · simp [parseInput, parseLoop, parseBody, peek, NUL, isDigit, isOperator, scanNumber,
      scanDigits, Expression.fresh, Expression.pushNumber, Expression.pushOperator, digitVal,
      performFactorial, Function.update, e5]
  · simp [parseInput, parseLoop, parseBody, peek, NUL, isDigit, isOperator, scanNumber,
      scanDigits, Expression.fresh, Expression.pushNumber, Expression.pushOperator, digitVal,
      Function.update]
  · simp [parseInput, parseLoop, parseBody, peek, NUL, isDigit, isOperator, scanNumber,
      Expression.fresh, Expression.pushNumber, Expression.pushOperator, digitVal]
  · simp [parseInput, parseLoop, parseBody, peek, NUL, isDigit, isOperator, scanNumber,
      Expression.fresh, Expression.pushNumber, Expression.pushOperator, digitVal,
      Function.update]
  · simp [parseInput, parseLoop, parseBody, peek, NUL, isDigit, isOperator, scanNumber,
      Expression.fresh, Expression.pushNumber, Expression.pushOperator, digitVal,
      Function.update]
  · simp [parseInput, parseLoop, parseBody, peek, NUL, isDigit, isOperator, scanNumber,
      Expression.fresh, Expression.pushNumber, Expression.pushOperator, digitVal]
  · simp [parseInput, parseLoop, parseBody, peek, NUL, isDigit, isOperator, scanNumber,
      Expression.fresh, Expression.pushNumber, Expression.pushOperator, digitVal,
      Function.update]
  · simp [parseInput, parseLoop, parseBody, peek, NUL, isDigit, isOperator, scanNumber,
      Expression.fresh, Expression.pushNumber, Expression.pushOperator, digitVal,
      Function.update]
  · have h120 : ((exactBackend.factorial 5 : Int) : ℚ) = 120 := by decide!
    unfold mainLine
    simp only [hret exactBackend, hev exactBackend, h120, Option.getD_none]
    rw [if_pos ⟨by norm_num [SENTINEL], by norm_num [SENTINEL]⟩]

/-! ## Evaluator: the operators through the passes -/

theorem opsFrom_congr (e1 e2 : Expression) :
    ∀ (n i j : Nat), (∀ t, t < n → e1.operators (i + t) = e2.operators (j + t)) →
      e1.opsFrom i n = e2.opsFrom j n := by
  intro n
  induction n with
  | zero => intro i j _; rfl
  | succ n ih =>
    intro i j h
    have h0 := h 0 (Nat.succ_pos n)
    simp only [Nat.add_zero] at h0
    simp only [Expression.opsFrom, h0]
    congr 1
    apply ih
    intro t ht
    have := h (t + 1) (by omega)
    have e1 : i + 1 + t = i + (t + 1) := by omega
    have e2 : j + 1 + t = j + (t + 1) := by omega
    rw [e1, e2]
    exact this

theorem mem_opsFrom (e : Expression) (c : Char) :
    ∀ (n i : Nat), c ∈ e.opsFrom i n ↔ ∃ t, t < n ∧ c = e.operators (i + t) := by
  intro n
  induction n with
  | zero => intro i; simp [Expression.opsFrom]
  | succ n ih =>
    intro i
    simp only [Expression.opsFrom, List.mem_cons, ih]
    constructor
    · rintro (h | ⟨t, ht, hc⟩)
      · exact ⟨0, Nat.succ_pos n, by simpa using h⟩
      · exact ⟨t + 1, by omega, by rw [hc]; congr 1; omega⟩
    · rintro ⟨t, ht, hc⟩
      cases t with
      | zero => exact Or.inl (by simpa using hc)
      | succ t => exact Or.inr ⟨t, by omega, by rw [hc]; congr 1; omega⟩

theorem mem_ops (e : Expression) (c : Char) :
    c ∈ e.ops ↔ ∃ t : Nat, (t : Int) < e.opCount ∧ c = e.operators t := by
  unfold Expression.ops
  rw [mem_opsFrom]
  constructor
  · rintro ⟨t, ht, hc⟩
    exact ⟨t, by omega, by simpa using hc⟩
  · rintro ⟨t, ht, hc⟩
    exact ⟨t, by omega, by simpa using hc⟩

theorem reduceAt_opsFrom (P : Backend) (e : Expression) (i n : Nat)
    (hn : e.opCount = (i : Int) + (n : Int) + 1) :
    (reduceAt P e i).opsFrom i n = e.opsFrom (i + 1) n := by
  apply opsFrom_congr
  intro t ht
  rw [reduceAt_operators]
  have h : i ≤ i + t ∧ ((i + t : Nat) : Int) < e.opCount - 1 := by omega
  rw [if_pos h]
  congr 1
  omega

theorem reducePass_ops (P : Backend) (sel : Char → Bool) (fuel : Nat) :
    ∀ (i k : Nat) (e : Expression), e.opCount = (i : Int) + (k : Int) → k ≤ fuel →
      (reducePass P sel fuel i e).opCount =
        (i : Int) + ((((e.opsFrom i k).filter (fun c => !sel c)).length : Nat) : Int) ∧
      (reducePass P sel fuel i e).opsFrom i ((e.opsFrom i k).filter (fun c => !sel c)).length =
        (e.opsFrom i k).filter (fun c => !sel c) ∧
      (∀ j, j < i → (reducePass P sel fuel i e).operators j = e.operators j) ∧
      (reducePass P sel fuel i e).numCount - (reducePass P sel fuel i e).opCount =
        e.numCount - e.opCount := by
  induction fuel with
  | zero =>
    intro i k e hk hf
    have hk0 : k = 0 := by omega
    subst hk0
    simp [reducePass, Expression.opsFrom, hk]
  | succ n ih =>
    intro i k e hk hf
    cases k with
    | zero =>
      have hlt : ¬ (i : Int) < e.opCount := by omega
      simp [reducePass, hlt, Expression.opsFrom, hk]
    | succ k =>
      have hlt : (i : Int) < e.opCount := by omega
      unfold reducePass
      rw [if_pos hlt]
      by_cases hs : sel (e.operators i) = true
      · rw [if_pos hs]
        have h1 := ih i k (reduceAt P e i) (by rw [reduceAt_opCount]; omega) (by omega)
        rw [reduceAt_opsFrom P e i k (by omega)] at h1
        have hft : (e.opsFrom i (k + 1)).filter (fun c => !sel c) =
            (e.opsFrom (i + 1) k).filter (fun c => !sel c) := by
          simp [Expression.opsFrom, List.filter_cons, hs]
        rw [hft]
        refine ⟨h1.1, h1.2.1, ?_, ?_⟩
        · intro j hj
          rw [h1.2.2.1 j hj, reduceAt_operators]
          have hb : ¬ (i ≤ j ∧ (j : Int) < e.opCount - 1) := by omega
          rw [if_neg hb]
        · rw [h1.2.2.2, reduceAt_numCount, reduceAt_opCount]
          omega
      · rw [if_neg hs]
        have h1 := ih (i + 1) k e (by push_cast; omega) (by omega)
        have hft : (e.opsFrom i (k + 1)).filter (fun c => !sel c) =
            e.operators i :: (e.opsFrom (i + 1) k).filter (fun c => !sel c) := by
          simp [Expression.opsFrom, List.filter_cons, hs]
        rw [hft]
        refine ⟨?_, ?_, ?_, h1.2.2.2⟩
        · rw [h1.1]; simp; omega
        · simp only [List.length_cons, Expression.opsFrom]
          rw [h1.2.2.1 i (by omega), h1.2.1]
        · intro j hj
          exact h1.2.2.1 j (by omega)

/-- The operators left by one of the first two passes are the operators the test does
not select, in their original order; the difference of the two counts is unchanged. -/
theorem reducePass_ops_zero (P : Backend) (sel : Char → Bool) (e : Expression) :
    (reducePass P sel e.opCount.toNat 0 e).ops = e.ops.filter (fun c => !sel c) ∧
    (0 ≤ e.opCount → (reducePass P sel e.opCount.toNat 0 e).opCount =
      (((e.ops.filter (fun c => !sel c)).length : Nat) : Int)) ∧
    (reducePass P sel e.opCount.toNat 0 e).numCount -
      (reducePass P sel e.opCount.toNat 0 e).opCount = e.numCount - e.opCount := by
  by_cases h0 : 0 ≤ e.opCount
  · have h := reducePass_ops P sel e.opCount.toNat 0 e.opCount.toNat e (by omega) (le_refl _)
    refine ⟨?_, ?_, h.2.2.2⟩
    · have hc : (reducePass P sel e.opCount.toNat 0 e).opCount.toNat =
          ((e.opsFrom 0 e.opCount.toNat).filter (fun c => !sel c)).length := by
        rw [h.1]; omega
      unfold Expression.ops
      rw [hc]
      exact h.2.1
    · intro _
      rw [h.1]
      simp [Expression.ops]
  · have hz : e.opCount.toNat = 0 := by omega
    refine ⟨?_, fun h => absurd h h0, ?_⟩ <;>
      simp [Expression.ops, hz, reducePass, Expression.opsFrom]

theorem ops_length (e : Expression) : e.ops.length = e.opCount.toNat := by
  have : ∀ (n i : Nat), (e.opsFrom i n).length = n := by
    intro n
    induction n with
    | zero => intro i; rfl
    | succ n ih => intro i; simp [Expression.opsFrom, ih]
  exact this _ _

theorem addSubTrace_reads (e : Expression) (fuel : Nat) :
    ∀ (i : Nat) (a : Access), a ∈ addSubTrace e fuel i → a.isWrite = false := by
  induction fuel with
  | zero => intro i a h; simp [addSubTrace] at h
  | succ n ih =>
    intro i a h
    rw [addSubTrace] at h
    by_cases hlt : (i : Int) < e.opCount
    · rw [if_pos hlt] at h
      rcases List.mem_append.1 h with h1 | h1
      · split_ifs at h1 <;>
          (simp only [List.mem_cons, List.mem_singleton, List.not_mem_nil, or_false] at h1
           rcases h1 with rfl | rfl | rfl <;> rfl)
      · exact ih (i + 1) a h1
    · rw [if_neg hlt] at h
      simp at h

theorem filter_power_length (l : List Char) :
    ((l.filter (fun c => !isPower c)).length : Int) =
      (l.length : Int) - (l.count '^' : Int) := by
  induction l with
  | nil => rfl
  | cons c l ih =>
    by_cases h : c = '^'
    · subst h
      have h1 : isPower '^' = true := by decide
      simp only [List.filter_cons, h1, Bool.not_true, Bool.false_eq_true,
        if_false, List.length_cons, List.count_cons_self]
      push_cast
      omega
    · have h1 : isPower c = false := by simp [isPower, h]
      simp only [List.filter_cons, h1, Bool.not_false, if_true, List.length_cons,
        List.count_cons_of_ne (Ne.symm h)]
      push_cast
      omega

theorem filter_mulDiv_length (l : List Char) :
    ((l.filter (fun c => !isMulDiv c)).length : Int) =
      (l.length : Int) - ((l.count '*' : Int) + (l.count '/' : Int)) := by
  induction l with
  | nil => rfl
  | cons c l ih =>
    by_cases h : c = '*'
    · subst h
      have h1 : isMulDiv '*' = true := by decide
      simp only [List.filter_cons, h1, Bool.not_true, Bool.false_eq_true, if_false,
        List.length_cons, List.count_cons_self, List.count_cons_of_ne (by decide : '/' ≠ '*')]
      push_cast
      omega
    · by_cases h2 : c = '/'
      · subst h2
        have h1 : isMulDiv '/' = true := by decide
        simp only [List.filter_cons, h1, Bool.not_true, Bool.false_eq_true, if_false,
          List.length_cons, List.count_cons_self, List.count_cons_of_ne (by decide : '*' ≠ '/')]
        push_cast
        omega
      · have h1 : isMulDiv c = false := by simp [isMulDiv, h, h2]
        simp only [List.filter_cons, h1, Bool.not_false, if_true, List.length_cons,
          List.count_cons_of_ne (Ne.symm h), List.count_cons_of_ne (Ne.symm h2)]
        push_cast
        omega

theorem count_filter_power (l : List Char) (x : Char) (hx : x ≠ '^') :
    (l.filter (fun c => !(c == '^'))).count x = l.count x := by
  induction l with
  | nil => rfl
  | cons c l ih =>
    by_cases h : c = '^'
    · subst h
      simp only [List.filter_cons, beq_self_eq_true, Bool.not_true, Bool.false_eq_true,
        if_false, List.count_cons_of_ne hx, ih]
    · have h1 : (!(c == '^')) = true := by simp [h]
      simp only [List.filter_cons, h1, if_true, List.count_cons, ih]

/-- C19: on a well-formed expression (`numCount == opCount + 1`) whose operators are
among `+ - * / ^`: after the power pass no `^` remains and after the multiply/divide
pass no `*` or `/`; every fold lowers `numCount` and `opCount` by exactly one, so each
pass lowers both counts by the number of operators it folds and keeps
`numCount == opCount + 1`; the operators that survive both passes are the original `+`
and `-` in their original order; and the add/subtract tier only reads the arrays. -/
theorem evaluateExpression_tier_postconditions (P : Backend) (e : Expression)
    (hwf : e.numCount = e.opCount + 1) (hbin : operatorsBinary e) :
    (powerPass P e).ops = e.ops.filter (fun c => !(c == '^')) ∧
    (∀ i : Nat, (i : Int) < (powerPass P e).opCount → (powerPass P e).operators i ≠ '^') ∧
    (powerPass P e).numCount = (powerPass P e).opCount + 1 ∧
    (powerPass P e).opCount = e.opCount - (e.ops.count '^' : Int) ∧
    (mulDivPass P (powerPass P e)).ops = e.ops.filter (fun c => c == '+' || c == '-') ∧
    (∀ i : Nat, (i : Int) < (mulDivPass P (powerPass P e)).opCount →
      (mulDivPass P (powerPass P e)).operators i = '+' ∨
        (mulDivPass P (powerPass P e)).operators i = '-') ∧
    (mulDivPass P (powerPass P e)).numCount = (mulDivPass P (powerPass P e)).opCount + 1 ∧
    (mulDivPass P (powerPass P e)).opCount =
      (powerPass P e).opCount - ((e.ops.count '*' : Int) + (e.ops.count '/' : Int)) ∧
    (∀ (x : Expression) (i : Nat), (reduceAt P x i).numCount = x.numCount - 1 ∧
      (reduceAt P x i).opCount = x.opCount - 1) ∧
    (∀ a ∈ addSubTierTrace (mulDivPass P (powerPass P e)), a.isWrite = false) := by
  have h1 := reducePass_ops_zero P isPower e
  have h2 := reducePass_ops_zero P isMulDiv (powerPass P e)
  have hf1 : (powerPass P e).ops = e.ops.filter (fun c => !(c == '^')) := h1.1
  have hbin2 : ∀ c ∈ e.ops, isBinary c = true := by
    intro c hc
    obtain ⟨t, ht, rfl⟩ := (mem_ops e c).1 hc
    exact hbin t ht
  have hf2 : (mulDivPass P (powerPass P e)).ops =
      e.ops.filter (fun c => c == '+' || c == '-') := by
    have : (mulDivPass P (powerPass P e)).ops =
        (powerPass P e).ops.filter (fun c => !isMulDiv c) := h2.1
    rw [this, hf1, List.filter_filter]
    apply List.filter_congr
    intro c hc
    have hb := hbin2 c hc
    simp only [isBinary, Bool.or_eq_true, beq_iff_eq] at hb
    rcases hb with (((rfl | rfl) | rfl) | rfl) | rfl <;> decide
  have hlen : ∀ x : Expression, 0 ≤ x.opCount → ((x.ops.length : Nat) : Int) = x.opCount := by
    intro x hx
    rw [ops_length]
    omega
  have hc1 : (powerPass P e).opCount = e.opCount - (e.ops.count '^' : Int) := by
    by_cases h0 : 0 ≤ e.opCount
    · have := h1.2.1 h0
      unfold powerPass
      rw [this]
      rw [filter_power_length e.ops, hlen e h0]
    · have hz : e.opCount.toNat = 0 := by omega
      have : e.ops.count '^' = 0 := by simp [Expression.ops, hz, Expression.opsFrom]
      simp [powerPass, hz, reducePass, this]
  have hwf1 : (powerPass P e).numCount = (powerPass P e).opCount + 1 := by
    have := h1.2.2
    unfold powerPass
    omega
  have hwf2 : (mulDivPass P (powerPass P e)).numCount =
      (mulDivPass P (powerPass P e)).opCount + 1 := by
    have := h2.2.2
    unfold mulDivPass
    omega
  refine ⟨hf1, ?_, hwf1, hc1, hf2, ?_, hwf2, ?_, fun x i => ⟨rfl, rfl⟩, ?_⟩
  · intro i hi hpow
    have hm : (powerPass P e).operators i ∈ (powerPass P e).ops :=
      (mem_ops _ _).2 ⟨i, hi, rfl⟩
    rw [hf1, List.mem_filter, hpow] at hm
    exact absurd hm.2 (by decide)
  · intro i hi
    have hm : (mulDivPass P (powerPass P e)).operators i ∈ (mulDivPass P (powerPass P e)).ops :=
      (mem_ops _ _).2 ⟨i, hi, rfl⟩
    rw [hf2, List.mem_filter] at hm
    simpa using hm.2
  · have h0 : 0 ≤ (powerPass P e).opCount ∨ (powerPass P e).opCount < 0 := by omega
    rcases h0 with h0 | h0
    · have := h2.2.1 h0
      unfold mulDivPass
      rw [this, filter_mulDiv_length, hlen _ h0, hf1, count_filter_power _ _ (by decide),
        count_filter_power _ _ (by decide)]
    · have hz : (powerPass P e).opCount.toNat = 0 := by omega
      have hp : 0 ≤ e.opCount → (powerPass P e).opCount =
          (((e.ops.filter (fun c => !isPower c)).length : Nat) : Int) := h1.2.1
      have hz0 : e.opCount.toNat = 0 := by
        by_contra hne
        have := hp (by omega)
        omega
      have hc : e.ops.count '*' = 0 ∧ e.ops.count '/' = 0 := by
        simp [Expression.ops, hz0, Expression.opsFrom]
      simp [mulDivPass, hz, reducePass, hc.1, hc.2]
  · intro a ha
    rcases List.mem_cons.1 ha with rfl | ha
    · rfl
    · exact addSubTrace_reads _ _ _ a ha

/-- Witness of C19: the line `2+3^2*4-6/3` is well formed; the power pass leaves the
operators `+ * - /`, the multiply/divide pass leaves `+ -`, with 3 operands. -/
theorem evaluateExpression_tier_postconditions_witness :
    (parseInput exactBackend "2+3^2*4-6/3".toList Expression.blank).exp.ops =
      ['+', '^', '*', '-', '/'] ∧
    (powerPass exactBackend
      (parseInput exactBackend "2+3^2*4-6/3".toList Expression.blank).exp).ops =
      ['+', '*', '-', '/'] ∧
    (mulDivPass exactBackend (powerPass exactBackend
      (parseInput exactBackend "2+3^2*4-6/3".toList Expression.blank).exp)).ops = ['+', '-'] ∧
    (mulDivPass exactBackend (powerPass exactBackend
      (parseInput exactBackend "2+3^2*4-6/3".toList Expression.blank).exp)).numCount = 3 := by
  have hops : (parseInput exactBackend "2+3^2*4-6/3".toList Expression.blank).exp.ops =
      ['+', '^', '*', '-', '/'] := by decide!
  have h := evaluateExpression_tier_postconditions exactBackend
    (parseInput exactBackend "2+3^2*4-6/3".toList Expression.blank).exp (by decide!)
    (by
      intro i hi
      have h5 : (parseInput exactBackend "2+3^2*4-6/3".toList Expression.blank).exp.opCount = 5 := by
        decide!
      have hi5 : i < 5 := by omega
      interval_cases i <;> decide!)
  refine ⟨hops, ?_, ?_, by decide!⟩
  · rw [h.1, hops]; decide
  · rw [h.2.2.2.2.1, hops]; decide

/-! ## Evaluator: reads past the operands when an operator dangles -/

theorem reducePass_done (P : Backend) (sel : Char → Bool) (fuel i : Nat) (e : Expression)
    (h : ¬ (i : Int) < e.opCount) : reducePass P sel fuel i e = e := by
  cases fuel with
  | zero => rfl
  | succ n => rw [reducePass, if_neg h]

theorem reducePassTrace_dangling (P : Backend) (sel : Char → Bool)
    (test : Expression → Nat → List Access) (fuel : Nat) :
    ∀ (i : Nat) (e : Expression), e.numCount = e.opCount → (i : Int) < e.opCount →
      (e.opCount - (i : Int)).toNat ≤ fuel →
      (∃ idx cnt, Access.readNumber idx cnt ∈ reducePassTrace P sel test fuel i e ∧
        cnt ≤ (idx : Int)) ∨
      ((reducePass P sel fuel i e).numCount = (reducePass P sel fuel i e).opCount ∧
        1 ≤ (reducePass P sel fuel i e).opCount) := by
  induction fuel with
  | zero => intro i e _ hlt hf; omega
  | succ n ih =>
    intro i e heq hlt hf
    rw [reducePassTrace, reducePass, if_pos hlt, if_pos hlt]
    by_cases hs : sel (e.operators i) = true
    · rw [if_pos hs, if_pos hs]
      by_cases hlast : (i : Int) = e.opCount - 1
      · left
        refine ⟨i + 1, e.numCount, ?_, by push_cast; omega⟩
        apply List.mem_append_right
        apply List.mem_append_left
        simp [reduceAtTrace]
      · rcases ih i (reduceAt P e i) (by rw [reduceAt_numCount, reduceAt_opCount, heq])
          (by rw [reduceAt_opCount]; omega) (by rw [reduceAt_opCount]; omega) with
          ⟨idx, cnt, hm, hc⟩ | h
        · left
          exact ⟨idx, cnt, List.mem_append_right _ (List.mem_append_right _ hm), hc⟩
        · exact Or.inr h
    · rw [if_neg hs, if_neg hs]
      by_cases hnext : ((i + 1 : Nat) : Int) < e.opCount
      · rcases ih (i + 1) e heq hnext (by push_cast; omega) with ⟨idx, cnt, hm, hc⟩ | h
        · left
          exact ⟨idx, cnt, List.mem_append_right _ hm, hc⟩
        · exact Or.inr h
      · right
        rw [reducePass_done P sel n (i + 1) e hnext]
        exact ⟨heq, by omega⟩

theorem addSubTrace_read (e : Expression) (fuel : Nat) :
    ∀ (i j : Nat), i ≤ j → (j : Int) < e.opCount → (e.opCount - (i : Int)).toNat ≤ fuel →
      (e.operators j = '+' ∨ e.operators j = '-') →
      Access.readNumber (j + 1) e.numCount ∈ addSubTrace e fuel i := by
  induction fuel with
  | zero => intro i j hij hj hf; omega
  | succ n ih =>
    intro i j hij hj hf hop
    have hlt : (i : Int) < e.opCount := by omega
    rw [addSubTrace, if_pos hlt]
    by_cases heq : i = j
    · subst heq
      apply List.mem_append_left
      rcases hop with h | h
      · simp [h]
      · have hne : e.operators i ≠ '+' := by rw [h]; decide
        simp [h, hne]
    · exact List.mem_append_right _
        (ih (i + 1) j (by omega) hj (by push_cast; omega) hop)

/-- With as many operators as operands (at least one) and operators among `+ - * / ^`,
`evaluateExpression` reads `numbers` at an index that is not below `numCount`. -/
theorem evaluateTrace_dangling (P : Backend) (e : Expression) (heq : e.numCount = e.opCount)
    (h1 : 1 ≤ e.opCount) (hbin : operatorsBinary e) :
    ∃ idx cnt, Access.readNumber idx cnt ∈ evaluateTrace P e ∧ cnt ≤ (idx : Int) := by
  unfold evaluateTrace
  rcases reducePassTrace_dangling P isPower powerTest e.opCount.toNat 0 e heq (by omega)
    (by omega) with ⟨idx, cnt, hm, hc⟩ | ⟨ha, hb⟩
  · exact ⟨idx, cnt, List.mem_append_left _ hm, hc⟩
  · have ha1 : (powerPass P e).numCount = (powerPass P e).opCount := ha
    have hb1 : 1 ≤ (powerPass P e).opCount := hb
    rcases reducePassTrace_dangling P isMulDiv mulDivTest (powerPass P e).opCount.toNat 0
      (powerPass P e) ha1 (by omega) (by omega) with ⟨idx, cnt, hm, hc⟩ | ⟨hc2, hd2⟩
    · exact ⟨idx, cnt, List.mem_append_right _ (List.mem_append_left _ hm), hc⟩
    · have ha2 : (mulDivPass P (powerPass P e)).numCount =
          (mulDivPass P (powerPass P e)).opCount := hc2
      have hb2 : 1 ≤ (mulDivPass P (powerPass P e)).opCount := hd2
      have hops1 : (powerPass P e).ops = e.ops.filter (fun c => !isPower c) :=
        (reducePass_ops_zero P isPower e).1
      have hops2 : (mulDivPass P (powerPass P e)).ops =
          (powerPass P e).ops.filter (fun c => !isMulDiv c) :=
        (reducePass_ops_zero P isMulDiv (powerPass P e)).1
      obtain ⟨j, hj⟩ : ∃ j : Nat, (j : Int) = (mulDivPass P (powerPass P e)).opCount - 1 :=
        ⟨((mulDivPass P (powerPass P e)).opCount - 1).toNat, by omega⟩
      have hmem : (mulDivPass P (powerPass P e)).operators j ∈
          (mulDivPass P (powerPass P e)).ops := (mem_ops _ _).2 ⟨j, by omega, rfl⟩
      rw [hops2, List.mem_filter, hops1, List.mem_filter] at hmem
      obtain ⟨⟨hin, hnp⟩, hnm⟩ := hmem
      obtain ⟨t, ht, hct⟩ := (mem_ops e _).1 hin
      have hbt := hbin t ht
      rw [← hct] at hbt
      have hpm : (mulDivPass P (powerPass P e)).operators j = '+' ∨
          (mulDivPass P (powerPass P e)).operators j = '-' := by
        simp only [isBinary, Bool.or_eq_true, beq_iff_eq] at hbt
        simp only [isPower, isMulDiv, Bool.not_eq_true', beq_eq_false_iff_ne, ne_eq,
          Bool.or_eq_false_iff] at hnp hnm
        tauto
      refine ⟨j + 1, (mulDivPass P (powerPass P e)).numCount, ?_, by push_cast; omega⟩
      apply List.mem_append_right
      apply List.mem_append_right
      unfold addSubTierTrace
      exact List.mem_cons_of_mem _
        (addSubTrace_read _ _ 0 j (Nat.zero_le _) (by omega) (by omega) hpm)

theorem peek_renderItems_tail (items : List Item) (t : List Char)
    (h : ∀ it ∈ items, isBinary it.op = true ∧ it.operand.wf)
    (ht : isNumChar (peek t 0) = false) :
    isNumChar (peek (renderItems items ++ t) 0) = false := by
  cases items with
  | nil => simpa [renderItems] using ht
  | cons it r =>
    have hop := (h it (List.mem_cons_self _ _)).1
    simp only [renderItems, List.append_assoc, List.cons_append]
    exact peek_replicate_space _ _ (by simpa [peek_zero_cons] using isBinary_not_numChar hop)

theorem reaches_items_tail (P : Backend) (t : List Char) (ht : isNumChar (peek t 0) = false) :
    ∀ (items : List Item) (e : Expression),
      (∀ it ∈ items, isBinary it.op = true ∧ it.operand.wf) →
      ∃ e1 : Expression,
        Reaches P ⟨renderItems items ++ t, false, e⟩ ⟨t, false, e1⟩ ∧
        e1.numCount = e.numCount + (items.length : Int) ∧
        e1.opCount = e.opCount + (items.length : Int) := by
  intro items
  induction items with
  | nil =>
    intro e _
    exact ⟨e, by simpa [renderItems] using Reaches.refl P _, by simp, by simp⟩
  | cons it r ih =>
    intro e h
    have hit := h it (List.mem_cons_self _ _)
    have hr : ∀ x ∈ r, isBinary x.op = true ∧ x.operand.wf :=
      fun x hx => h x (List.mem_cons_of_mem _ hx)
    obtain ⟨e1, hreach, h1, h2⟩ :=
      ih ((e.pushOperator it.op).pushNumber (it.operand.value P)) hr
    have htext : renderItems (it :: r) ++ t =
        List.replicate it.before ' ' ++ (it.op :: (List.replicate it.after ' ' ++
          (it.operand.text ++ (renderItems r ++ t)))) := by
      simp [renderItems]
    refine ⟨e1, ?_, ?_, ?_⟩
    · rw [htext]
      exact (reaches_spaces P _ _ false e).trans
        ((reaches_operator P it.op _ e hit.1).trans
          ((reaches_spaces P _ _ true _).trans
            ((reaches_operand P it.operand _ _ hit.2 (peek_renderItems_tail r t hr ht)).trans
              hreach)))
    · rw [h1]
      simp only [Expression.pushNumber, Expression.pushOperator, List.length_cons]
      push_cast
      omega
    · rw [h2]
      simp only [Expression.pushNumber, Expression.pushOperator, List.length_cons]
      push_cast
      omega

theorem shiftTrace_mem (rd wr : Nat → Access) (fuel : Nat) :
    ∀ (j : Nat) (limit : Int) (a : Access), a ∈ shiftTrace rd wr fuel j limit →
      ∃ k, j ≤ k ∧ (k : Int) < limit ∧ (a = rd (k + 1) ∨ a = wr k) := by
  induction fuel with
  | zero => intro j limit a h; simp [shiftTrace] at h
  | succ fuel ih =>
    intro j limit a h
    unfold shiftTrace at h
    split at h
    · rename_i hj
      simp only [List.mem_cons] at h
      rcases h with h | h | h
      · exact ⟨j, le_refl _, hj, Or.inl h⟩
      · exact ⟨j, le_refl _, hj, Or.inr h⟩
      · obtain ⟨k, hk, hl, ha⟩ := ih _ _ _ h
        exact ⟨k, by omega, hl, ha⟩
    · simp at h

theorem reduceAtTrace_inBounds (e : Expression) (i : Nat) (hwf : e.numCount = e.opCount + 1)
    (hi : (i : Int) < e.opCount) (a : Access) (h : a ∈ reduceAtTrace e i) :
    (a.index : Int) < a.count ∧ a.count ≤ e.numCount := by
  unfold reduceAtTrace at h
  simp only [List.mem_append, List.mem_cons, List.mem_singleton, List.not_mem_nil,
    or_false] at h
  rcases h with (h | h | h | h) | h | h
  · subst h; simp only [Access.index, Access.count]; omega
  · subst h; simp only [Access.index, Access.count]; push_cast; omega
  · subst h; simp only [Access.index, Access.count]; omega
  · subst h; simp only [Access.index, Access.count]; omega
  · obtain ⟨k, hk, hl, ha | ha⟩ := shiftTrace_mem _ _ _ _ _ _ h
    · subst ha; simp only [Access.index, Access.count]; push_cast; omega
    · subst ha; simp only [Access.index, Access.count]; omega
  · obtain ⟨k, hk, hl, ha | ha⟩ := shiftTrace_mem _ _ _ _ _ _ h
    · subst ha; simp only [Access.index, Access.count]; push_cast; omega
    · subst ha; simp only [Access.index, Access.count]; omega

theorem powerTest_mem (e : Expression) (i : Nat) (a : Access) (h : a ∈ powerTest e i) :
    a = Access.readOperator i e.opCount := by
  simpa [powerTest] using h

theorem mulDivTest_mem (e : Expression) (i : Nat) (a : Access) (h : a ∈ mulDivTest e i) :
    a = Access.readOperator i e.opCount := by
  unfold mulDivTest at h
  split at h <;> simpa using h

theorem reducePass_counts (P : Backend) (sel : Char → Bool) (fuel : Nat) :
    ∀ (i : Nat) (e : Expression), e.numCount = e.opCount + 1 → 0 ≤ e.opCount →
      (reducePass P sel fuel i e).numCount = (reducePass P sel fuel i e).opCount + 1 ∧
      0 ≤ (reducePass P sel fuel i e).opCount ∧
      (reducePass P sel fuel i e).numCount ≤ e.numCount := by
  induction fuel with
  | zero => intro i e h h0; exact ⟨h, h0, le_refl _⟩
  | succ fuel ih =>
    intro i e h h0
    unfold reducePass
    split
    · rename_i hi
      split
      · have := ih i (reduceAt P e i)
          (by rw [reduceAt_numCount, reduceAt_opCount]; omega)
          (by rw [reduceAt_opCount]; omega)
        rw [reduceAt_numCount] at this
        exact ⟨this.1, this.2.1, by omega⟩
      · exact ih (i + 1) e h h0
    · exact ⟨h, h0, le_refl _⟩

theorem reducePassTrace_inBounds (P : Backend) (sel : Char → Bool)
    (test : Expression → Nat → List Access)
    (htest : ∀ e i a, a ∈ test e i → a = Access.readOperator i e.opCount) (fuel : Nat) :
    ∀ (i : Nat) (e : Expression), e.numCount = e.opCount + 1 →
      ∀ a ∈ reducePassTrace P sel test fuel i e,
        (a.index : Int) < a.count ∧ a.count ≤ e.numCount := by
  induction fuel with
  | zero => intro i e _ a h; simp [reducePassTrace] at h
  | succ fuel ih =>
    intro i e hwf a h
    unfold reducePassTrace at h
    split at h
    · rename_i hi
      rw [List.mem_append] at h
      rcases h with h | h
      · rw [htest e i a h]
        simp only [Access.index, Access.count]
        omega
      · split at h
        · rw [List.mem_append] at h
          rcases h with h | h
          · exact reduceAtTrace_inBounds e i hwf hi a h
          · have := ih i (reduceAt P e i)
              (by rw [reduceAt_numCount, reduceAt_opCount]; omega) a h
            rw [reduceAt_numCount] at this
            exact ⟨this.1, by omega⟩
        · exact ih (i + 1) e hwf a h
    · simp at h

theorem addSubTrace_inBounds (e : Expression) (hwf : e.numCount = e.opCount + 1) (fuel : Nat) :
    ∀ (i : Nat), ∀ a ∈ addSubTrace e fuel i,
      (a.index : Int) < a.count ∧ a.count ≤ e.numCount := by
  induction fuel with
  | zero => intro i a h; simp [addSubTrace] at h
  | succ fuel ih =>
    intro i a h
    unfold addSubTrace at h
    split at h
    · rename_i hi
      rw [List.mem_append] at h
      rcases h with h | h
      · have hcases : a = Access.readOperator i e.opCount ∨
            a = Access.readNumber (i + 1) e.numCount := by
          split at h
          · simpa using h
          · split at h
            · simp only [List.mem_cons, List.mem_singleton, List.not_mem_nil, or_false] at h
              rcases h with h | h | h
              · exact Or.inl h
              · exact Or.inl h
              · exact Or.inr h
            · simp only [List.mem_cons, List.mem_singleton, List.not_mem_nil, or_false] at h
              rcases h with h | h
              · exact Or.inl h
              · exact Or.inl h
        rcases hcases with h | h
        · subst h; simp only [Access.index, Access.count]; omega
        · subst h; simp only [Access.index, Access.count]; push_cast; omega
      · exact ih (i + 1) a h
    · simp at h

theorem evaluateTrace_inBounds (P : Backend) (e : Expression) (h1 : 1 ≤ e.numCount)
    (hwf : e.numCount = e.opCount + 1) :
    ∀ a ∈ evaluateTrace P e, (a.index : Int) < a.count ∧ a.count ≤ e.numCount := by
  have h0 : 0 ≤ e.opCount := by omega
  have hp := reducePass_counts P isPower e.opCount.toNat 0 e hwf h0
  have hm := reducePass_counts P isMulDiv (powerPass P e).opCount.toNat 0 (powerPass P e)
    hp.1 hp.2.1
  intro a ha
  unfold evaluateTrace at ha
  rw [List.mem_append, List.mem_append] at ha
  rcases ha with ha | ha | ha
  · exact reducePassTrace_inBounds P isPower powerTest powerTest_mem _ 0 e hwf a ha
  · have := reducePassTrace_inBounds P isMulDiv mulDivTest mulDivTest_mem _ 0
      (powerPass P e) hp.1 a ha
    exact ⟨this.1, le_trans this.2 hp.2.2⟩
  · unfold addSubTierTrace at ha
    rw [List.mem_cons] at ha
    have hle : (mulDivPass P (powerPass P e)).numCount ≤ e.numCount :=
      le_trans hm.2.2 hp.2.2
    rcases ha with ha | ha
    · subst ha
      have e1 : (mulDivPass P (powerPass P e)).numCount =
          (mulDivPass P (powerPass P e)).opCount + 1 := hm.1
      have e2 : 0 ≤ (mulDivPass P (powerPass P e)).opCount := hm.2.1
      simp only [Access.index, Access.count]
      push_cast
      omega
    · have := addSubTrace_inBounds (mulDivPass P (powerPass P e)) hm.1 _ 0 a ha
      exact ⟨this.1, le_trans this.2 hle⟩

/-- C21: for every expression with `1 <= numCount <= MAX_SIZE` and
`numCount == opCount + 1`, every read and write of `numbers` and `operators` made by
`evaluateExpression` uses an index strictly below `numCount`, respectively `opCount`,
as it is at the moment of the access, and hence below `MAX_SIZE`. -/
theorem evaluateExpression_index_safety (P : Backend) (e : Expression)
    (h1 : 1 ≤ e.numCount) (hmax : e.numCount ≤ (MAX_SIZE : Int))
    (hwf : e.numCount = e.opCount + 1) :
    ∀ a ∈ evaluateTrace P e, (a.index : Int) < a.count ∧ a.index < MAX_SIZE := by
  intro a ha
  have := evaluateTrace_inBounds P e h1 hwf a ha
  refine ⟨this.1, ?_⟩
  have h3 : (a.index : Int) < (MAX_SIZE : Int) := by omega
  exact_mod_cast h3

/-- Witness of C21: the expression parsed from `2^3*4+5` has four operands and three
operators, and every access of its evaluation is in bounds; the first fold reads
`numbers[1]` while `numCount` is 4. -/
theorem evaluateExpression_index_safety_witness :
    (parseInput exactBackend "2^3*4+5".toList Expression.blank).exp.numCount = 4 ∧
    (parseInput exactBackend "2^3*4+5".toList Expression.blank).exp.opCount = 3 ∧
    Access.readNumber 1 4 ∈ evaluateTrace exactBackend
      (parseInput exactBackend "2^3*4+5".toList Expression.blank).exp ∧
    ∀ a ∈ evaluateTrace exactBackend
        (parseInput exactBackend "2^3*4+5".toList Expression.blank).exp,
      (a.index : Int) < a.count ∧ a.index < MAX_SIZE :=
  ⟨by decide!, by decide!, by decide!,
    evaluateExpression_index_safety exactBackend
      (parseInput exactBackend "2^3*4+5".toList Expression.blank).exp
      (by decide!) (by decide!) (by decide!)⟩

theorem shiftRun_eq {α : Type} (fuel : Nat) :
    ∀ (j : Nat) (limit : Int) (a : Nat → α), (limit - (j : Int)).toNat ≤ fuel →
      shiftRun fuel j limit a = some (shiftLoop fuel j limit a) := by
  induction fuel with
  | zero =>
    intro j limit a h
    have : ¬ (j : Int) < limit := by omega
    simp [shiftRun, shiftLoop, this]
  | succ fuel ih =>
    intro j limit a h
    unfold shiftRun shiftLoop
    split
    · exact ih _ _ _ (by push_cast; omega)
    · rfl

theorem shiftLoop_fuel {α : Type} (fuel j : Nat) (limit : Int) (a : Nat → α)
    (h : (limit - (j : Int)).toNat ≤ fuel) :
    shiftLoop fuel j limit a = shiftLoop (limit - (j : Int)).toNat j limit a := by
  funext k
  rw [shiftLoop_apply fuel j limit a k h, shiftLoop_apply _ j limit a k (le_refl _)]

theorem reduceAtRun_eq (P : Backend) (budget : Nat) (e : Expression) (i : Nat)
    (hn : e.numCount.toNat ≤ budget) (ho : e.opCount.toNat ≤ budget) :
    reduceAtRun P budget e i = some (reduceAt P e i) := by
  unfold reduceAtRun reduceAt
  simp only
  rw [shiftRun_eq budget (i + 1) (e.numCount - 1) _ (by omega),
    shiftRun_eq budget i (e.opCount - 1) _ (by omega),
    shiftLoop_fuel budget (i + 1) (e.numCount - 1) _ (by omega),
    shiftLoop_fuel budget i (e.opCount - 1) _ (by omega)]

theorem reducePassRun_eq (P : Backend) (sel : Char → Bool) (budget fuel : Nat) :
    ∀ (i : Nat) (e : Expression), (e.opCount - (i : Int)).toNat ≤ fuel →
      e.numCount.toNat ≤ budget → e.opCount.toNat ≤ budget →
      reducePassRun P sel budget fuel i e =
        some (reducePass P sel fuel i e, (e.opCount - (i : Int)).toNat) := by
  induction fuel with
  | zero =>
    intro i e h _ _
    have : ¬ (i : Int) < e.opCount := by omega
    have hz : (e.opCount - (i : Int)).toNat = 0 := by omega
    simp [reducePassRun, reducePass, this, hz]
  | succ fuel ih =>
    intro i e h hn ho
    unfold reducePassRun reducePass
    split
    · rename_i hi
      split
      · rw [reduceAtRun_eq P budget e i hn ho]
        simp only
        rw [ih i (reduceAt P e i) (by rw [reduceAt_opCount]; omega)
          (by rw [reduceAt_numCount]; omega) (by rw [reduceAt_opCount]; omega)]
        simp only [Option.map_some', reduceAt_opCount]
        congr 2
        omega
      · rw [ih (i + 1) e (by push_cast; omega) hn ho]
        simp only [Option.map_some']
        congr 2
        push_cast
        omega
    · rename_i hi
      have hz : (e.opCount - (i : Int)).toNat = 0 := by omega
      rw [hz]

theorem addSubRun_eq (P : Backend) (e : Expression) (fuel : Nat) :
    ∀ (i : Nat) (r : ℚ), (e.opCount - (i : Int)).toNat ≤ fuel →
      addSubRun P e fuel i r = some (addSubLoop P e fuel i r) := by
  induction fuel with
  | zero =>
    intro i r h
    have : ¬ (i : Int) < e.opCount := by omega
    simp [addSubRun, addSubLoop, this]
  | succ fuel ih =>
    intro i r h
    unfold addSubRun addSubLoop
    split
    · split
      · exact ih _ _ (by push_cast; omega)
      · split
        · exact ih _ _ (by push_cast; omega)
        · exact ih _ _ (by push_cast; omega)
    · rfl

theorem addSubLoop_fuel (P : Backend) (e : Expression) (fuel : Nat) :
    ∀ (extra i : Nat) (r : ℚ), (e.opCount - (i : Int)).toNat ≤ fuel →
      addSubLoop P e (fuel + extra) i r = addSubLoop P e fuel i r := by
  induction fuel with
  | zero =>
    intro extra i r h
    have : ¬ (i : Int) < e.opCount := by omega
    cases extra with
    | zero => rfl
    | succ x =>
      rw [Nat.zero_add]
      unfold addSubLoop
      rw [if_neg this]
  | succ fuel ih =>
    intro extra i r h
    rw [Nat.add_right_comm]
    unfold addSubLoop
    split
    · split
      · exact ih _ _ _ (by push_cast; omega)
      · split
        · exact ih _ _ _ (by push_cast; omega)
        · exact ih _ _ _ (by push_cast; omega)
    · rfl

theorem reducePass_le (P : Backend) (sel : Char → Bool) (fuel : Nat) :
    ∀ (i : Nat) (e : Expression),
      (reducePass P sel fuel i e).numCount ≤ e.numCount ∧
      (reducePass P sel fuel i e).opCount ≤ e.opCount := by
  induction fuel with
  | zero => intro i e; exact ⟨le_refl _, le_refl _⟩
  | succ fuel ih =>
    intro i e
    unfold reducePass
    split
    · split
      · have := ih i (reduceAt P e i)
        rw [reduceAt_numCount, reduceAt_opCount] at this
        exact ⟨by omega, by omega⟩
      · exact ih (i + 1) e
    · exact ⟨le_refl _, le_refl _⟩

theorem evaluateRun_eq (P : Backend) (budget : Nat) (e : Expression)
    (ho : e.opCount.toNat ≤ budget) (hn : e.numCount.toNat ≤ budget) :
    evaluateRun P budget e =
      some (evaluateExpression P e, e.opCount.toNat, (powerPass P e).opCount.toNat) := by
  have hfuel : ∀ (sel : Char → Bool) (x : Expression), x.opCount.toNat ≤ budget →
      reducePass P sel budget 0 x = reducePass P sel x.opCount.toNat 0 x := by
    intro sel x hx
    obtain ⟨d, hd⟩ := Nat.exists_eq_add_of_le hx
    rw [hd]
    exact reducePass_fuel P sel _ d 0 x (by simp)
  have hp := reducePass_le P isPower e.opCount.toNat 0 e
  have hm := reducePass_le P isMulDiv (powerPass P e).opCount.toNat 0 (powerPass P e)
  have hp1 : (powerPass P e).numCount ≤ e.numCount := hp.1
  have hp2 : (powerPass P e).opCount ≤ e.opCount := hp.2
  have hm2 : (mulDivPass P (powerPass P e)).opCount ≤ (powerPass P e).opCount := hm.2
  unfold evaluateRun
  rw [reducePassRun_eq P isPower budget budget 0 e (by simpa using ho) hn ho, hfuel isPower e ho]
  simp only
  change (match reducePassRun P isMulDiv budget budget 0 (powerPass P e) with
    | none => none
    | some (e2, n2) =>
      match addSubRun P e2 budget 0 (e2.numbers 0) with
      | none => none
      | some result => some (result, (e.opCount - ((0 : Nat) : Int)).toNat, n2)) = _
  rw [reducePassRun_eq P isMulDiv budget budget 0 (powerPass P e) (by simp; omega)
    (by omega) (by omega), hfuel isMulDiv (powerPass P e) (by omega)]
  simp only
  change (match addSubRun P (mulDivPass P (powerPass P e)) budget 0
      ((mulDivPass P (powerPass P e)).numbers 0) with
    | none => none
    | some result => some (result, (e.opCount - ((0 : Nat) : Int)).toNat,
        ((powerPass P e).opCount - ((0 : Nat) : Int)).toNat)) = _
  rw [addSubRun_eq P _ budget 0 _ (by simp; omega)]
  simp only
  have hb : (mulDivPass P (powerPass P e)).opCount.toNat ≤ budget := by omega
  obtain ⟨d, hd⟩ := Nat.exists_eq_add_of_le hb
  have hadd : addSubLoop P (mulDivPass P (powerPass P e)) budget 0
      ((mulDivPass P (powerPass P e)).numbers 0) = evaluateExpression P e := by
    rw [hd]
    exact addSubLoop_fuel P _ _ d 0 _ (by simp)
  rw [hadd]
  simp

/-- C22: `evaluateExpression` terminates on every expression, well-formed or not: run
with any budget of loop iterations that is at least `opCount` and `numCount`, every
loop reaches its exit and the value of `evaluateExpression` is returned. The `for` loop
of the power pass makes exactly `opCount` iterations and that of the multiply/divide
pass at most as many, so each is bounded by twice the initial `opCount`. -/
theorem evaluateExpression_terminates (P : Backend) (e : Expression) (budget : Nat)
    (ho : e.opCount.toNat ≤ budget) (hn : e.numCount.toNat ≤ budget) :
    ∃ n1 n2, evaluateRun P budget e = some (evaluateExpression P e, n1, n2) ∧
      n1 = e.opCount.toNat ∧ n2 ≤ n1 ∧
      n1 ≤ 2 * e.opCount.toNat ∧ n2 ≤ 2 * e.opCount.toNat := by
  have hp : (powerPass P e).opCount ≤ e.opCount :=
    (reducePass_le P isPower e.opCount.toNat 0 e).2
  exact ⟨e.opCount.toNat, (powerPass P e).opCount.toNat, evaluateRun_eq P budget e ho hn, rfl,
    by omega, by omega, by omega⟩

/-- Witness of C22: on the expression parsed from `2^3*4+5` a budget of 4 iterations
is enough, the passes make 3 and 2 iterations and the value is 37; a budget of 2 is
used up. -/
theorem evaluateExpression_terminates_witness :
    ((parseInput exactBackend "2^3*4+5".toList Expression.blank).exp.opCount.toNat ≤ 4 ∧
      (parseInput exactBackend "2^3*4+5".toList Expression.blank).exp.numCount.toNat ≤ 4) ∧
    (∃ n1 n2, evaluateRun exactBackend 4
        (parseInput exactBackend "2^3*4+5".toList Expression.blank).exp =
        some (evaluateExpression exactBackend
          (parseInput exactBackend "2^3*4+5".toList Expression.blank).exp, n1, n2) ∧
      n1 = (parseInput exactBackend "2^3*4+5".toList Expression.blank).exp.opCount.toNat ∧
      n2 ≤ n1 ∧
      n1 ≤ 2 * (parseInput exactBackend "2^3*4+5".toList Expression.blank).exp.opCount.toNat ∧
      n2 ≤ 2 * (parseInput exactBackend "2^3*4+5".toList Expression.blank).exp.opCount.toNat) ∧
    evaluateRun exactBackend 4
      (parseInput exactBackend "2^3*4+5".toList Expression.blank).exp = some (37, 3, 2) ∧
    evaluateRun exactBackend 2
      (parseInput exactBackend "2^3*4+5".toList Expression.blank).exp = none :=
  ⟨⟨by decide!, by decide!⟩,
    evaluateExpression_terminates exactBackend
      (parseInput exactBackend "2^3*4+5".toList Expression.blank).exp 4
      (by decide!) (by decide!),
    by decide!, by decide!⟩

/-! ## Parser: no character beyond the terminator is read -/

theorem terminatorIndex_le_length : ∀ s : List Char, terminatorIndex s ≤ s.length := by
  intro s
  induction s with
  | nil => simp [terminatorIndex]
  | cons c cs ih =>
    unfold terminatorIndex
    split
    · exact Nat.zero_le _
    · simp only [List.length_cons]; omega

theorem le_terminatorIndex : ∀ (s : List Char) (k : Nat),
    (∀ j, j < k → peek s j ≠ NUL) → k ≤ terminatorIndex s := by
  intro s
  induction s with
  | nil =>
    intro k h
    cases k with
    | zero => exact Nat.zero_le _
    | succ k => exact absurd (peek_nil 0) (h 0 (Nat.succ_pos _))
  | cons c cs ih =>
    intro k h
    cases k with
    | zero => exact Nat.zero_le _
    | succ k =>
      have hc : c ≠ NUL := h 0 (Nat.succ_pos _)
      unfold terminatorIndex
      rw [if_neg hc]
      exact Nat.succ_le_succ (ih k (fun j hj => h (j + 1) (Nat.succ_lt_succ hj)))

theorem peek_of_lt_terminatorIndex : ∀ (s : List Char) (j : Nat),
    j < terminatorIndex s → peek s j ≠ NUL := by
  intro s
  induction s with
  | nil => intro j h; simp [terminatorIndex] at h
  | cons c cs ih =>
    intro j h
    unfold terminatorIndex at h
    split at h
    · omega
    · rename_i hc
      cases j with
      | zero => exact hc
      | succ j => exact ih j (by omega)

theorem terminatorIndex_drop : ∀ (s : List Char) (k : Nat), k ≤ terminatorIndex s →
    terminatorIndex (s.drop k) + k = terminatorIndex s := by
  intro s
  induction s with
  | nil => intro k h; simp [terminatorIndex] at h; subst h; simp
  | cons c cs ih =>
    intro k h
    cases k with
    | zero => simp
    | succ k =>
      unfold terminatorIndex at h
      split at h
      · omega
      · rename_i hc
        rw [List.drop_succ_cons]
        conv_rhs => unfold terminatorIndex
        rw [if_neg hc]
        have := ih k (by omega)
        omega

theorem numTestReads_mem (c : Char) (k p : Nat) (h : p ∈ numTestReads c k) : p = k := by
  unfold numTestReads at h
  split at h <;> simpa using h

theorem scanReads_le : ∀ (s : List Char) (df : Bool) (k : Nat),
    ∀ p ∈ scanReads s df k, p ≤ k + terminatorIndex s := by
  intro s
  induction s with
  | nil =>
    intro df k p h
    rw [numTestReads_mem _ _ _ h]
    omega
  | cons c cs ih =>
    intro df k p h
    unfold scanReads at h
    rw [List.mem_append] at h
    rcases h with h | h
    · rw [numTestReads_mem _ _ _ h]; omega
    · split at h
      · rename_i hc
        have hne : c ≠ NUL := isNumChar_ne_NUL hc
        have ht : terminatorIndex (c :: cs) = terminatorIndex cs + 1 := by
          simp [terminatorIndex, hne]
        rw [List.mem_cons] at h
        rcases h with h | h
        · omega
        · split at h
          · split at h
            · simp at h
            · have := ih true (k + 1) p h
              omega
          · rw [List.mem_cons] at h
            rcases h with h | h
            · omega
            · have := ih df (k + 1) p h
              omega
      · simp at h

theorem scanDigitsReads_le : ∀ (s : List Char) (k : Nat),
    ∀ p ∈ scanDigitsReads s k, p ≤ k + terminatorIndex s := by
  intro s
  induction s with
  | nil => intro k p h; simp [scanDigitsReads] at h; omega
  | cons c cs ih =>
    intro k p h
    unfold scanDigitsReads at h
    rw [List.mem_cons] at h
    rcases h with h | h
    · omega
    · split at h
      · rename_i hc
        have hne : c ≠ NUL := by
          rintro rfl
          exact absurd hc (by decide)
        have ht : terminatorIndex (c :: cs) = terminatorIndex cs + 1 := by
          simp [terminatorIndex, hne]
        rw [List.mem_cons] at h
        rcases h with h | h
        · omega
        · have := ih (k + 1) p h
          omega
      · simp at h

theorem scanReads_drop_le (s : List Char) (df : Bool) (k : Nat) (hk : k ≤ terminatorIndex s) :
    ∀ p ∈ scanReads (s.drop k) df k, p ≤ terminatorIndex s := by
  intro p h
  have h1 := scanReads_le _ _ _ p h
  have h2 := terminatorIndex_drop s k hk
  omega

theorem scanDigitsReads_drop_le (s : List Char) (k : Nat) (hk : k ≤ terminatorIndex s) :
    ∀ p ∈ scanDigitsReads (s.drop k) k, p ≤ terminatorIndex s := by
  intro p h
  have h1 := scanDigitsReads_le _ _ p h
  have h2 := terminatorIndex_drop s k hk
  omega

theorem terminatorIndex_pos (s : List Char) (h0 : peek s 0 ≠ NUL) : 1 ≤ terminatorIndex s :=
  le_terminatorIndex s 1 (fun j hj => by
    have : j = 0 := by omega
    subst this
    exact h0)

theorem terminatorIndex_two (s : List Char) (h0 : peek s 0 ≠ NUL) (h1 : peek s 1 ≠ NUL) :
    2 ≤ terminatorIndex s :=
  le_terminatorIndex s 2 (fun j hj => by
    have : j = 0 ∨ j = 1 := by omega
    rcases this with rfl | rfl
    · exact h0
    · exact h1)

theorem terminatorIndex_three (s : List Char) (h0 : peek s 0 ≠ NUL) (h1 : peek s 1 ≠ NUL)
    (h2 : peek s 2 ≠ NUL) : 3 ≤ terminatorIndex s :=
  le_terminatorIndex s 3 (fun j hj => by
    have : j = 0 ∨ j = 1 ∨ j = 2 := by omega
    rcases this with rfl | rfl | rfl
    · exact h0
    · exact h1
    · exact h2)

theorem reads_nil (n : Nat) : ∀ p ∈ ([] : List Nat), p ≤ n := by
  intro p h
  simp at h

theorem reads_cons {n k : Nat} {l : List Nat} (hk : k ≤ n) (hl : ∀ p ∈ l, p ≤ n) :
    ∀ p ∈ k :: l, p ≤ n := by
  intro p h
  rw [List.mem_cons] at h
  rcases h with h | h
  · omega
  · exact hl p h

theorem reads_append {n : Nat} {l1 l2 : List Nat} (h1 : ∀ p ∈ l1, p ≤ n)
    (h2 : ∀ p ∈ l2, p ≤ n) : ∀ p ∈ l1 ++ l2, p ≤ n := by
  intro p h
  rw [List.mem_append] at h
  rcases h with h | h
  · exact h1 p h
  · exact h2 p h

theorem reads_ite {n : Nat} {l1 l2 : List Nat} (c : Prop) [Decidable c]
    (h1 : c → ∀ p ∈ l1, p ≤ n) (h2 : ¬ c → ∀ p ∈ l2, p ≤ n) :
    ∀ p ∈ (if c then l1 else l2), p ≤ n := by
  split
  · rename_i h; exact h1 h
  · rename_i h; exact h2 h

theorem keywordReads_le (s : List Char) (a b : Char) (ha : a ≠ NUL) (hb : b ≠ NUL) :
    ∀ p ∈ keywordReads s a b, p ≤ terminatorIndex s := by
  unfold keywordReads
  refine reads_cons (Nat.zero_le _) (reads_ite _ (fun h0 => ?_) (fun _ => reads_nil _))
  have h0n : peek s 0 ≠ NUL := by rw [h0]; exact ha
  refine reads_cons (terminatorIndex_pos s h0n) (reads_ite _ (fun h1 => ?_) (fun _ => reads_nil _))
  have h1n : peek s 1 ≠ NUL := by rw [h1]; exact hb
  exact reads_cons (terminatorIndex_two s h0n h1n) (reads_nil _)

theorem numTestReads_le (c : Char) (k n : Nat) (hk : k ≤ n) :
    ∀ p ∈ numTestReads c k, p ≤ n := by
  intro p h
  rw [numTestReads_mem c k p h]
  exact hk

theorem keyword_three (s : List Char) (a b c : Char) (ha : a ≠ NUL) (hb : b ≠ NUL)
    (hc : c ≠ NUL) (h : peek s 0 = a ∧ peek s 1 = b ∧ peek s 2 = c) :
    3 ≤ terminatorIndex s :=
  terminatorIndex_three s (by rw [h.1]; exact ha) (by rw [h.2.1]; exact hb)
    (by rw [h.2.2]; exact hc)

theorem trig_three (s : List Char)
    (h : (peek s 0 = 's' ∧ peek s 1 = 'i' ∧ peek s 2 = 'n') ∨
      (peek s 0 = 'c' ∧ peek s 1 = 'o' ∧ peek s 2 = 's') ∨
      (peek s 0 = 't' ∧ peek s 1 = 'a' ∧ peek s 2 = 'n')) : 3 ≤ terminatorIndex s := by
  rcases h with h | h | h
  · exact keyword_three s _ _ _ (by decide) (by decide) (by decide) h
  · exact keyword_three s _ _ _ (by decide) (by decide) (by decide) h
  · exact keyword_three s _ _ _ (by decide) (by decide) (by decide) h

/-- Every offset read by one iteration of the loop of `parseInput` is at most the
offset of the terminator. -/
theorem bodyReads_le (st : ParseState) : ∀ p ∈ bodyReads st, p ≤ terminatorIndex st.rest := by
  simp only [bodyReads]
  refine reads_cons (Nat.zero_le _) (reads_ite _ (fun _ => reads_nil _) (fun _ => ?_))
  refine reads_append (reads_append (keywordReads_le _ _ _ (by decide) (by decide))
    (reads_ite _ (fun _ => reads_nil _) (fun _ =>
      reads_append (keywordReads_le _ _ _ (by decide) (by decide))
        (reads_ite _ (fun _ => reads_nil _)
          (fun _ => keywordReads_le _ _ _ (by decide) (by decide)))))) ?_
  refine reads_ite _ (fun h => ?_) (fun _ => ?_)
  · have h3 := trig_three st.rest h
    exact reads_append (reads_cons (Nat.zero_le _) (reads_cons (by omega)
      (reads_cons (by omega) (reads_nil _)))) (scanReads_drop_le _ _ 3 h3)
  refine reads_cons (Nat.zero_le _) (reads_ite _ (fun h => ?_) (fun _ => ?_))
  · exact scanDigitsReads_drop_le _ 1
      (terminatorIndex_pos _ (by rw [h]; decide))
  refine reads_append (reads_cons (Nat.zero_le _) (reads_ite _ (fun h => ?_)
    (fun _ => reads_nil _))) ?_
  · exact reads_cons (terminatorIndex_pos _ (by rw [h]; decide)) (reads_nil _)
  refine reads_ite _ (fun h => ?_) (fun _ => ?_)
  · exact scanReads_drop_le _ _ 2
      (terminatorIndex_two _ (by rw [h.1]; decide) (by rw [h.2]; decide))
  refine reads_append (keywordReads_le _ _ _ (by decide) (by decide)) ?_
  refine reads_ite _ (fun h => ?_) (fun _ => ?_)
  · exact scanReads_drop_le _ _ 3
      (keyword_three _ _ _ _ (by decide) (by decide) (by decide) h)
  refine reads_cons (Nat.zero_le _) (reads_ite _ (fun h => ?_) (fun _ => ?_))
  · have h1 : 1 ≤ terminatorIndex st.rest := terminatorIndex_pos _ (by rw [h.1]; decide)
    exact reads_append (numTestReads_le _ _ _ h1)
      (reads_ite _ (fun _ => reads_nil _) (fun _ => scanReads_drop_le _ _ 1 h1))
  refine reads_append (numTestReads_le _ _ _ (Nat.zero_le _)) ?_
  refine reads_ite _ (fun _ => ?_) (fun _ => ?_)
  · have := scanReads_drop_le st.rest false 0 (Nat.zero_le _)
    simpa using this
  exact reads_cons (Nat.zero_le _) (reads_ite _
    (fun _ => reads_cons (Nat.zero_le _) (reads_nil _)) (fun _ => reads_nil _))

theorem scanNumber_consumed : ∀ (s : List Char) (num : ℚ) (df : Bool) (dp : ℚ) (n : ℚ)
    (rest : List Char), scanNumber s num df dp = Scan.ok n rest →
    ∃ m, m ≤ terminatorIndex s ∧ rest = s.drop m := by
  intro s
  induction s with
  | nil =>
    intro num df dp n rest h
    simp only [scanNumber, Scan.ok.injEq] at h
    exact ⟨0, Nat.zero_le _, by rw [← h.2]; rfl⟩
  | cons c cs ih =>
    intro num df dp n rest h
    unfold scanNumber at h
    split at h
    · rename_i hc
      have hne : c ≠ NUL := isNumChar_ne_NUL hc
      have ht : terminatorIndex (c :: cs) = terminatorIndex cs + 1 := by
        simp [terminatorIndex, hne]
      have step : ∀ num1 df1 dp1, scanNumber cs num1 df1 dp1 = Scan.ok n rest →
          ∃ m, m ≤ terminatorIndex (c :: cs) ∧ rest = (c :: cs).drop m := by
        intro num1 df1 dp1 h1
        obtain ⟨m, hm, hr⟩ := ih num1 df1 dp1 n rest h1
        exact ⟨m + 1, by omega, by rw [List.drop_succ_cons]; exact hr⟩
      split at h
      · split at h
        · cases h
        · exact step _ _ _ h
      · split at h
        · exact step _ _ _ h
        · exact step _ _ _ h
    · simp only [Scan.ok.injEq] at h
      exact ⟨0, Nat.zero_le _, by rw [← h.2]; rfl⟩

theorem scanDigits_consumed : ∀ (s : List Char) (num : ℚ),
    ∃ m, m ≤ terminatorIndex s ∧ (scanDigits s num).2 = s.drop m := by
  intro s
  induction s with
  | nil => intro num; exact ⟨0, Nat.zero_le _, rfl⟩
  | cons c cs ih =>
    intro num
    unfold scanDigits
    split
    · rename_i hc
      have hne : c ≠ NUL := by
        rintro rfl
        exact absurd hc (by decide)
      have ht : terminatorIndex (c :: cs) = terminatorIndex cs + 1 := by
        simp [terminatorIndex, hne]
      obtain ⟨m, hm, hr⟩ := ih (num * 10 + digitVal c)
      exact ⟨m + 1, by omega, by rw [List.drop_succ_cons]; exact hr⟩
    · exact ⟨0, Nat.zero_le _, rfl⟩

theorem scanNumber_drop_consumed (s : List Char) (k : Nat) (hk : k ≤ terminatorIndex s)
    (num : ℚ) (df : Bool) (dp : ℚ) (n : ℚ) (rest : List Char)
    (h : scanNumber (s.drop k) num df dp = Scan.ok n rest) :
    ∃ m, m ≤ terminatorIndex s ∧ rest = s.drop m := by
  obtain ⟨m, hm, hr⟩ := scanNumber_consumed _ _ _ _ _ _ h
  have := terminatorIndex_drop s k hk
  exact ⟨k + m, by omega, by rw [hr, List.drop_drop]⟩

/-- An iteration of the loop of `parseInput` that continues has advanced `i` by some
`m` that does not pass the terminator. -/
theorem parseBody_consumed (P : Backend) (st st1 : ParseState)
    (h0 : peek st.rest 0 ≠ NUL) (h : parseBody P st = Step.next st1) :
    ∃ m, m ≤ terminatorIndex st.rest ∧ st1.rest = st.rest.drop m := by
  obtain ⟨s, cm, e⟩ := st
  simp only at h0
  have hpos : 1 ≤ terminatorIndex s := terminatorIndex_pos s h0
  unfold parseBody at h
  simp only at h
  split_ifs at h with h1 h2 h3 h4 h5 h6 h7 h8 h9
  · cases h; exact ⟨1, hpos, rfl⟩
  · cases hs : scanNumber (List.drop 3 s) 0 false 1 with
    | multipleDots => rw [hs] at h; cases h
    | ok n rest =>
      rw [hs] at h
      cases h
      exact scanNumber_drop_consumed s 3 (trig_three s h2) _ _ _ _ _ hs
  · cases h
    obtain ⟨m, hm, hr⟩ := scanDigits_consumed (List.drop 1 s) 0
    have := terminatorIndex_drop s 1 hpos
    refine ⟨1 + m, ?_, ?_⟩
    · show 1 + m ≤ terminatorIndex s
      omega
    · show (scanDigits (List.drop 1 s) 0).2 = List.drop (1 + m) s
      rw [hr, List.drop_drop]
  · cases hs : scanNumber (List.drop 2 s) 0 false 1 with
    | multipleDots => rw [hs] at h; cases h
    | ok n rest =>
      rw [hs] at h
      cases h
      exact scanNumber_drop_consumed s 2
        (terminatorIndex_two s h0 (by rw [h4.2]; decide)) _ _ _ _ _ hs
  · cases hs : scanNumber (List.drop 3 s) 0 false 1 with
    | multipleDots => rw [hs] at h; cases h
    | ok n rest =>
      rw [hs] at h
      cases h
      exact scanNumber_drop_consumed s 3
        (keyword_three s _ _ _ (by decide) (by decide) (by decide) h5) _ _ _ _ _ hs
  · cases h; exact ⟨1, hpos, rfl⟩
  · cases hs : scanNumber (List.drop 1 s) 0 false 1 with
    | multipleDots => rw [hs] at h; cases h
    | ok n rest =>
      rw [hs] at h
      cases h
      exact scanNumber_drop_consumed s 1 hpos _ _ _ _ _ hs
  · cases hs : scanNumber s 0 false 1 with
    | multipleDots => rw [hs] at h; cases h
    | ok n rest =>
      rw [hs] at h
      cases h
      exact scanNumber_consumed s _ _ _ _ _ hs
  · cases h; exact ⟨1, hpos, rfl⟩

theorem parseReads_le (P : Backend) (fuel : Nat) :
    ∀ (i : Nat) (st : ParseState), ∀ p ∈ parseReads P fuel i st,
      p ≤ i + terminatorIndex st.rest := by
  induction fuel with
  | zero => intro i st p h; simp [parseReads] at h
  | succ fuel ih =>
    intro i st p h
    unfold parseReads at h
    rw [List.mem_cons] at h
    rcases h with h | h
    · omega
    · split at h
      · simp at h
      · rename_i h0
        rw [List.mem_append] at h
        rcases h with h | h
        · rw [List.mem_map] at h
          obtain ⟨k, hk, rfl⟩ := h
          have := bodyReads_le st k hk
          omega
        · cases hb : parseBody P st with
          | fail e1 => rw [hb] at h; simp at h
          | next st1 =>
            rw [hb] at h
            simp only at h
            obtain ⟨m, hm, hr⟩ := parseBody_consumed P st st1 h0 hb
            have h1 := ih _ st1 p h
            have h2 := terminatorIndex_drop st.rest m hm
            have h3 := terminatorIndex_le_length st.rest
            rw [hr] at h1
            rw [List.length_drop] at h1
            omega

/-- C23: `parseInput` never reads a character beyond the terminator: the index of every
character it reads is at most that of the terminator. Within one iteration of its loop
every character between `input[i]` and a character read is not `NUL`, so the
lookaheads `input[i + 1]` and `input[i + 2]` and every scanning loop are only evaluated
after characters other than the terminator. -/
theorem parseInput_lookahead_safety (P : Backend) (input : List Char) (exp : Expression) :
    (∀ p ∈ parseInputReads P input exp, p ≤ terminatorIndex input) ∧
    ∀ (st : ParseState) (k : Nat), k ∈ bodyReads st → ∀ j, j < k → peek st.rest j ≠ NUL := by
  constructor
  · intro p h
    have := parseReads_le P (input.length + 1) 0 ⟨input, true, exp⟩ p h
    simpa using this
  · intro st k hk j hj
    exact peek_of_lt_terminatorIndex st.rest j (lt_of_lt_of_le hj (bodyReads_le st k hk))

/-- Witness of C23: on the line `si` the terminator is at index 2, the keyword test
reads it (after `s` and `i` matched), and nothing beyond it is read. -/
theorem parseInput_lookahead_safety_witness :
    terminatorIndex "si".toList = 2 ∧
    2 ∈ parseInputReads exactBackend "si".toList Expression.blank ∧
    ∀ p ∈ parseInputReads exactBackend "si".toList Expression.blank, p ≤ 2 :=
  ⟨by decide, by decide!,
    (parseInput_lookahead_safety exactBackend "si".toList Expression.blank).1⟩

/-! ## The traces are complete: more fuel adds no access -/

theorem reducePassTrace_fuel (P : Backend) (sel : Char → Bool)
    (test : Expression → Nat → List Access) (fuel : Nat) :
    ∀ (extra i : Nat) (e : Expression), (e.opCount - (i : Int)).toNat ≤ fuel →
      reducePassTrace P sel test (fuel + extra) i e = reducePassTrace P sel test fuel i e := by
  induction fuel with
  | zero =>
    intro extra i e h
    have : ¬ (i : Int) < e.opCount := by omega
    cases extra with
    | zero => rfl
    | succ x =>
      rw [Nat.zero_add]
      unfold reducePassTrace
      rw [if_neg this]
  | succ fuel ih =>
    intro extra i e h
    rw [Nat.add_right_comm]
    unfold reducePassTrace
    split
    · split
      · rw [ih extra i (reduceAt P e i) (by rw [reduceAt_opCount]; omega)]
      · rw [ih extra (i + 1) e (by push_cast; omega)]
    · rfl

theorem addSubTrace_fuel (e : Expression) (fuel : Nat) :
    ∀ (extra i : Nat), (e.opCount - (i : Int)).toNat ≤ fuel →
      addSubTrace e (fuel + extra) i = addSubTrace e fuel i := by
  induction fuel with
  | zero =>
    intro extra i h
    have : ¬ (i : Int) < e.opCount := by omega
    cases extra with
    | zero => rfl
    | succ x =>
      rw [Nat.zero_add]
      unfold addSubTrace
      rw [if_neg this]
  | succ fuel ih =>
    intro extra i h
    rw [Nat.add_right_comm]
    unfold addSubTrace
    split
    · rw [ih extra (i + 1) (by push_cast; omega)]
    · rfl

theorem parseReads_fuel (P : Backend) (fuel : Nat) :
    ∀ (extra i : Nat) (st : ParseState), st.rest.length < fuel →
      parseReads P (fuel + extra) i st = parseReads P fuel i st := by
  induction fuel with
  | zero => intro extra i st h; omega
  | succ fuel ih =>
    intro extra i st h
    rw [Nat.add_right_comm]
    unfold parseReads
    split
    · rfl
    · rename_i h0
      cases hb : parseBody P st with
      | fail e1 => rfl
      | next st1 =>
        simp only
        obtain ⟨c, cs, hs, _⟩ := peek_ne_NUL h0
        obtain ⟨s, cm, e⟩ := st
        simp only at hs
        subst hs
        have hsuf := parseBody_progress P c cs cm e st1 hb
        have hlen := hsuf.length_le
        rw [ih extra _ st1 (by simp only [List.length_cons] at h; omega)]

/-- C17 (the code departs from the claim): on a line `operand (operator operand)*` whose
operands are literals and keyword calls, followed by one more binary operator and no
operand (such as `3-` or `3+`), `parseInput` reports no error and leaves
`numCount == opCount`, and `evaluateExpression` then reads `numbers` at an index that is
not below the value `numCount` has at that moment; likewise on `!5+`. On `!5-3+` it
does not: the factorial branch leaves `checkMinus` set, the `-` becomes the sign of 3,
and the trailing `+` finds two operands: `numCount` is 2, `opCount` is 1, every access
of the evaluation is below the count, and the value is `factorial(5) + (-3)`. -/
theorem parseInput_trailing_operator (P : Backend) (nums : Nat → ℚ) (ops : Nat → Char)
    (lead : Nat) (first : Operand) (items : List Item) (trail : Nat) (op : Char)
    (trail2 : Nat) (hfirst : first.wf)
    (hitems : ∀ it ∈ items, isBinary it.op = true ∧ it.operand.wf)
    (hop : isBinary op = true) :
    ((parseInput P (renderLine lead first items trail ++ op :: List.replicate trail2 ' ')
        (Expression.fresh nums ops)).ret = none ∧
      (parseInput P (renderLine lead first items trail ++ op :: List.replicate trail2 ' ')
        (Expression.fresh nums ops)).exp.numCount =
        (parseInput P (renderLine lead first items trail ++ op :: List.replicate trail2 ' ')
          (Expression.fresh nums ops)).exp.opCount ∧
      (parseInput P (renderLine lead first items trail ++ op :: List.replicate trail2 ' ')
        (Expression.fresh nums ops)).exp.opCount = (items.length : Int) + 1 ∧
      ∃ idx cnt, Access.readNumber idx cnt ∈ evaluateTrace P
          (parseInput P (renderLine lead first items trail ++ op :: List.replicate trail2 ' ')
            (Expression.fresh nums ops)).exp ∧ cnt ≤ (idx : Int)) ∧
    ((parseInput P "!5+".toList (Expression.fresh nums ops)).ret = none ∧
      (parseInput P "!5+".toList (Expression.fresh nums ops)).exp.numCount = 1 ∧
      (parseInput P "!5+".toList (Expression.fresh nums ops)).exp.opCount = 1 ∧
      ∃ idx cnt, Access.readNumber idx cnt ∈ evaluateTrace P
          (parseInput P "!5+".toList (Expression.fresh nums ops)).exp ∧ cnt ≤ (idx : Int)) ∧
    ((parseInput P "!5-3+".toList (Expression.fresh nums ops)).ret = none ∧
      (parseInput P "!5-3+".toList (Expression.fresh nums ops)).exp.numCount = 2 ∧
      (parseInput P "!5-3+".toList (Expression.fresh nums ops)).exp.opCount = 1 ∧
      (parseInput P "!5-3+".toList (Expression.fresh nums ops)).exp.numbers 0 =
        ((P.factorial 5 : Int) : ℚ) ∧
      (parseInput P "!5-3+".toList (Expression.fresh nums ops)).exp.numbers 1 = -3 ∧
      (parseInput P "!5-3+".toList (Expression.fresh nums ops)).exp.operators 0 = '+' ∧
      (∀ a ∈ evaluateTrace P (parseInput P "!5-3+".toList (Expression.fresh nums ops)).exp,
        (a.index : Int) < a.count) ∧
      evaluateExpression P (parseInput P "!5-3+".toList (Expression.fresh nums ops)).exp =
        P.addition ((P.factorial 5 : Int) : ℚ) (-3)) := by
  have e5 : truncToInt P 5 = 5 := by
    have h := truncToInt_natCast P 5 (by norm_num)
    simpa using h
  refine ⟨?_, ?_, ?_⟩
  · have ht : isNumChar (peek (List.replicate trail ' ' ++ op :: List.replicate trail2 ' ') 0) =
        false :=
      peek_replicate_space _ _ (by simpa [peek_zero_cons] using isBinary_not_numChar hop)
    obtain ⟨e1, hreach, h1, h2⟩ := reaches_items_tail P _ ht items
      ((Expression.fresh nums ops).pushNumber (first.value P)) hitems
    have hline : renderLine lead first items trail ++ op :: List.replicate trail2 ' ' =
        List.replicate lead ' ' ++ (first.text ++ (renderItems items ++
          (List.replicate trail ' ' ++ op :: List.replicate trail2 ' '))) := by
      simp [renderLine]
    have hlast : Reaches P ⟨List.replicate trail2 ' ', true, e1.pushOperator op⟩
        ⟨[], true, e1.pushOperator op⟩ := by
      have := reaches_spaces P trail2 [] true (e1.pushOperator op)
      simpa using this
    have hr : Reaches P
        ⟨renderLine lead first items trail ++ op :: List.replicate trail2 ' ', true,
          Expression.fresh nums ops⟩ ⟨[], true, e1.pushOperator op⟩ := by
      rw [hline]
      exact (reaches_spaces P _ _ true _).trans
        ((reaches_operand P first _ _ hfirst (peek_renderItems_tail items _ hitems ht)).trans
          (hreach.trans ((reaches_spaces P _ _ false e1).trans
            ((reaches_operator P op _ e1 hop).trans hlast))))
    have hbin := parse_operatorsBinary P _ _ hr
      ⟨le_refl _, fun j hj => absurd hj (by simp [Expression.fresh])⟩
    rw [parseInput_of_reaches_nil P _ _ true _ hr]
    have hn : (e1.pushOperator op).numCount = (items.length : Int) + 1 := by
      simp only [Expression.pushOperator, h1, Expression.pushNumber, Expression.fresh]
      omega
    have ho : (e1.pushOperator op).opCount = (items.length : Int) + 1 := by
      simp only [Expression.pushOperator, h2, Expression.pushNumber, Expression.fresh]
      omega
    exact ⟨rfl, by rw [hn, ho], ho,
      evaluateTrace_dangling P _ (by rw [hn, ho]) (by rw [ho]; omega) hbin.2⟩
  · have hn : (parseInput P "!5+".toList (Expression.fresh nums ops)).exp.numCount = 1 := by
      simp [parseInput, parseLoop, parseBody, peek, NUL, isDigit, isOperator, scanNumber,
        scanDigits, Expression.fresh, Expression.pushNumber, Expression.pushOperator, digitVal]
    have ho : (parseInput P "!5+".toList (Expression.fresh nums ops)).exp.opCount = 1 := by
      simp [parseInput, parseLoop, parseBody, peek, NUL, isDigit, isOperator, scanNumber,
        scanDigits, Expression.fresh, Expression.pushNumber, Expression.pushOperator, digitVal]
    have hp : (parseInput P "!5+".toList (Expression.fresh nums ops)).exp.operators 0 = '+' := by
      simp [parseInput, parseLoop, parseBody, peek, NUL, isDigit, isOperator, scanNumber,
        scanDigits, Expression.fresh, Expression.pushNumber, Expression.pushOperator, digitVal,
        Function.update]
    refine ⟨?_, hn, ho, evaluateTrace_dangling P _ (by rw [hn, ho]) (by rw [ho]) ?_⟩
    · simp [parseInput, parseLoop, parseBody, peek, NUL, isDigit, isOperator, scanNumber,
        scanDigits, Expression.fresh, Expression.pushNumber, Expression.pushOperator, digitVal]
    · intro i hi
      rw [ho] at hi
      have hi0 : i = 0 := by omega
      subst hi0
      rw [hp]
      decide
  · have hn : (parseInput P "!5-3+".toList (Expression.fresh nums ops)).exp.numCount = 2 := by
      simp [parseInput, parseLoop, parseBody, peek, NUL, isDigit, isOperator, scanNumber,
        scanDigits, Expression.fresh, Expression.pushNumber, Expression.pushOperator, digitVal]
    have ho : (parseInput P "!5-3+".toList (Expression.fresh nums ops)).exp.opCount = 1 := by
      simp [parseInput, parseLoop, parseBody, peek, NUL, isDigit, isOperator, scanNumber,
        scanDigits, Expression.fresh, Expression.pushNumber, Expression.pushOperator, digitVal]
    refine ⟨?_, hn, ho, ?_, ?_, ?_, ?_, ?_⟩
    · simp [parseInput, parseLoop, parseBody, peek, NUL, isDigit, isOperator, scanNumber,
        scanDigits, Expression.fresh, Expression.pushNumber, Expression.pushOperator, digitVal]
    · simp [parseInput, parseLoop, parseBody, peek, NUL, isDigit, isOperator, scanNumber,
        scanDigits, Expression.fresh, Expression.pushNumber, Expression.pushOperator, digitVal,
        performFactorial, Function.update, e5]
    · simp [parseInput, parseLoop, parseBody, peek, NUL, isDigit, isOperator, scanNumber,
        scanDigits, Expression.fresh, Expression.pushNumber, Expression.pushOperator, digitVal,
        Function.update]
    · simp [parseInput, parseLoop, parseBody, peek, NUL, isDigit, isOperator, scanNumber,
        scanDigits, Expression.fresh, Expression.pushNumber, Expression.pushOperator, digitVal,
        Function.update]
    · intro a ha
      exact (evaluateTrace_inBounds P _ (by rw [hn]; norm_num) (by rw [hn, ho]; norm_num)
        a ha).1
    · simp [parseInput, parseLoop, parseBody, peek, NUL, isDigit, isOperator, scanNumber,
        scanDigits, Expression.fresh, Expression.pushNumber, Expression.pushOperator, digitVal,
        performFactorial, Function.update, e5, evaluateExpression, mulDivPass, powerPass,
        reducePass, addSubLoop, isPower, isMulDiv, performOperation]

/-- Witness of C17: `3+` and `2*3-` parse without error to as many operators as
operands, and on `3+` the evaluator reads `numbers[1]` while `numCount` is 1; `!5-3+`
parses to two operands and one operator and evaluates to 117. -/
theorem parseInput_trailing_operator_witness :
    renderLine 0 (Operand.number false "3".toList) [] 0 ++ '+' :: List.replicate 0 ' ' =
      "3+".toList ∧
    (parseInput exactBackend "3+".toList Expression.blank).ret = none ∧
    (parseInput exactBackend "3+".toList Expression.blank).exp.numCount = 1 ∧
    (parseInput exactBackend "3+".toList Expression.blank).exp.opCount = 1 ∧
    Access.readNumber 1 1 ∈
      evaluateTrace exactBackend (parseInput exactBackend "3+".toList Expression.blank).exp ∧
    (parseInput exactBackend "2*3-".toList Expression.blank).exp.numCount =
      (parseInput exactBackend "2*3-".toList Expression.blank).exp.opCount ∧
    (parseInput exactBackend "!5-3+".toList Expression.blank).exp.numCount = 2 ∧
    (parseInput exactBackend "!5-3+".toList Expression.blank).exp.opCount = 1 ∧
    (∀ a ∈ evaluateTrace exactBackend
        (parseInput exactBackend "!5-3+".toList Expression.blank).exp,
      (a.index : Int) < a.count) ∧
    mainLine exactBackend 0 (fun _ => 0) (fun _ => NUL) "!5-3+".toList = some 117 := by
  have h := parseInput_trailing_operator exactBackend (fun _ => 0) (fun _ => NUL) 0
    (Operand.number false "3".toList) [] 0 '+' 0 ⟨by decide, by decide⟩ (by simp) (by decide)
  have h2 := parseInput_trailing_operator exactBackend (fun _ => 0) (fun _ => NUL) 0
    (Operand.number false "2".toList) [⟨0, '*', 0, Operand.number false "3".toList⟩] 0 '-' 0
    ⟨by decide, by decide⟩
    (by
      intro it hit
      simp only [List.mem_singleton] at hit
      subst hit
      exact ⟨by decide, by decide, by decide⟩)
    (by decide)
  exact ⟨by decide, h.1.1, by decide!, by decide!, by decide!, h2.1.2.1, h.2.2.2.1,
    h.2.2.2.2.1, h.2.2.2.2.2.2.2.2.1, by decide!⟩

end Calculator
